import Mathlib

/-!
Verification development for the vault-assistant retrieval and source
synchronization core: shallow embeddings of the tokenizer, the BM25 selector
and incremental index, the source registry, the synchronizer batch and the
carry-over selector, with theorems about their specified properties.
-/

namespace VaultAssist

/-- JavaScript `Map` / `Record` lookup over an insertion-ordered association
list: returns the value of the first entry with the given key. -/
def lookupA {κ α : Type} [DecidableEq κ] (k : κ) : List (κ × α) → Option α
  | [] => none
  | (k', v) :: rest => if k' = k then some v else lookupA k rest

/-- JavaScript `Map.set` / record assignment: update the entry in place if the
key is present (preserving its position), else append a new entry at the end. -/
def insertA {κ α : Type} [DecidableEq κ] (k : κ) (v : α) : List (κ × α) → List (κ × α)
  | [] => [(k, v)]
  | (k', v') :: rest => if k' = k then (k, v) :: rest else (k', v') :: insertA k v rest

/-- JavaScript `Map.delete` / `delete record[key]`: drop the entry with the
given key. -/
def eraseA {κ α : Type} [DecidableEq κ] (k : κ) : List (κ × α) → List (κ × α)
  | [] => []
  | (k', v) :: rest => if k' = k then eraseA k rest else (k', v) :: eraseA k rest

/-- The keys of an association list, in insertion order. -/
def keysA {κ α : Type} (m : List (κ × α)) : List κ :=
  m.map Prod.fst

@[simp] theorem lookupA_nil {κ α : Type} [DecidableEq κ] (k : κ) :
    lookupA k ([] : List (κ × α)) = none := rfl

theorem lookupA_cons {κ α : Type} [DecidableEq κ] (k k' : κ) (v : α) (m : List (κ × α)) :
    lookupA k ((k', v) :: m) = if k' = k then some v else lookupA k m := rfl

@[simp] theorem lookupA_insertA_self {κ α : Type} [DecidableEq κ] (k : κ) (v : α)
    (m : List (κ × α)) : lookupA k (insertA k v m) = some v := by
  induction m with
  | nil => simp [insertA, lookupA]
  | cons hd tl ih =>
    obtain ⟨k', v'⟩ := hd
    by_cases h : k' = k
    · simp [insertA, h, lookupA]
    · simp [insertA, h, lookupA, ih]

@[simp] theorem lookupA_insertA_ne {κ α : Type} [DecidableEq κ] {k k' : κ} (v : α)
    (m : List (κ × α)) (h : k ≠ k') : lookupA k' (insertA k v m) = lookupA k' m := by
  induction m with
  | nil => simp [insertA, lookupA, h]
  | cons hd tl ih =>
    obtain ⟨k'', v''⟩ := hd
    by_cases hk : k'' = k
    · subst hk
      simp [insertA, lookupA, h]
    · simp [insertA, hk, lookupA, ih]

@[simp] theorem lookupA_eraseA_self {κ α : Type} [DecidableEq κ] (k : κ) (m : List (κ × α)) :
    lookupA k (eraseA k m) = none := by
  induction m with
  | nil => simp [eraseA]
  | cons hd tl ih =>
    obtain ⟨k', v'⟩ := hd
    by_cases h : k' = k
    · simpa [eraseA, h] using ih
    · simpa [eraseA, h, lookupA] using ih

@[simp] theorem lookupA_eraseA_ne {κ α : Type} [DecidableEq κ] {k k' : κ}
    (m : List (κ × α)) (h : k ≠ k') : lookupA k' (eraseA k m) = lookupA k' m := by
  induction m with
  | nil => simp [eraseA]
  | cons hd tl ih =>
    obtain ⟨k'', v''⟩ := hd
    by_cases hk : k'' = k
    · subst hk
      simpa [eraseA, lookupA, h] using ih
    · by_cases hk' : k'' = k'
      · subst hk'
        simp [eraseA, lookupA, hk]
      · simpa [eraseA, lookupA, hk, hk'] using ih

theorem mem_keysA_insertA {κ α : Type} [DecidableEq κ] {x k : κ} (v : α)
    (m : List (κ × α)) : x ∈ keysA (insertA k v m) ↔ x = k ∨ x ∈ keysA m := by
  induction m with
  | nil => simp [insertA, keysA]
  | cons hd tl ih =>
    obtain ⟨k', v'⟩ := hd
    by_cases h : k' = k
    · subst h
      simp [insertA, keysA]
    · simp [insertA, h, keysA] at ih ⊢
      tauto

theorem keysA_nodup_insertA {κ α : Type} [DecidableEq κ] (k : κ) (v : α)
    {m : List (κ × α)} (hm : (keysA m).Nodup) : (keysA (insertA k v m)).Nodup := by
  induction m with
  | nil => simp [insertA, keysA]
  | cons hd tl ih =>
    obtain ⟨k', v'⟩ := hd
    simp only [keysA, List.map_cons, List.nodup_cons] at hm
    by_cases h : k' = k
    · subst h
      simpa [insertA, keysA] using hm
    · have htl := ih hm.2
      have hmem : k' ∉ keysA (insertA k v tl) := by
        rw [mem_keysA_insertA]
        rintro (rfl | hx)
        · exact h rfl
        · exact hm.1 (by simpa [keysA] using hx)
      simpa [insertA, h, keysA, List.nodup_cons] using ⟨by simpa [keysA] using hmem, htl⟩

theorem lookupA_isSome_iff_mem_keysA {κ α : Type} [DecidableEq κ] (k : κ) (m : List (κ × α)) :
    (lookupA k m).isSome ↔ k ∈ keysA m := by
  induction m with
  | nil => simp [keysA]
  | cons hd tl ih =>
    obtain ⟨k', v'⟩ := hd
    by_cases h : k' = k
    · simp [lookupA, h, keysA]
    · have hne : ¬ k = k' := fun hc => h hc.symm
      simp [lookupA, h, keysA, hne, ih]

theorem lookupA_eq_none_of_not_mem_keysA {κ α : Type} [DecidableEq κ] {k : κ}
    {m : List (κ × α)} (h : k ∉ keysA m) : lookupA k m = none := by
  cases hl : lookupA k m with
  | none => rfl
  | some v =>
    exact absurd ((lookupA_isSome_iff_mem_keysA k m).mp (by simp [hl])) h

/-!
## Tokenizer (`src/search/tokenization.ts`)

Tokens are modelled as `List Char`.  The regex character classes are modelled
by executable character predicates: the Unicode letter/number class of
`WORD_TOKEN_PATTERN = /[\p{L}\p{N}]+/gu` is restricted to the ASCII and
Latin-1 ranges, and the CJK/Hangul script class to the main Hiragana,
Katakana, CJK-Unified and Hangul-syllable blocks — the fragments every input
in this development lives in.
-/

/-- Model of `CJK_OR_HANGUL_PATTERN`'s script classes on the main blocks:
Hiragana, Katakana, CJK Unified Ideographs, Hangul syllables. -/
def isCjkOrHangulChar (c : Char) : Bool :=
  (0x3040 ≤ c.toNat && c.toNat ≤ 0x309F) ||
  (0x30A0 ≤ c.toNat && c.toNat ≤ 0x30FF) ||
  (0x4E00 ≤ c.toNat && c.toNat ≤ 0x9FFF) ||
  (0xAC00 ≤ c.toNat && c.toNat ≤ 0xD7A3)

/-- Model of the `\p{L}` class on the ASCII, Latin-1 and CJK/Hangul ranges
(the Latin-1 letters are `U+00C0`–`U+00FF` minus the two operator signs). -/
def isUnicodeLetter (c : Char) : Bool :=
  c.isAlpha || (0xC0 ≤ c.toNat && c.toNat ≤ 0xFF && c.toNat ≠ 0xD7 && c.toNat ≠ 0xF7) ||
  isCjkOrHangulChar c

/-- Model of the `\p{N}` class on the ASCII range. -/
def isUnicodeDigit (c : Char) : Bool :=
  c.isDigit

/-- A character matched by `WORD_TOKEN_PATTERN = /[\p{L}\p{N}]+/gu`. -/
def isWordChar (c : Char) : Bool :=
  isUnicodeLetter c || isUnicodeDigit c

/-- `normalizeInput`: `text.normalize("NFKC").toLocaleLowerCase()`, modelled
character-wise: NFKC is the identity on the precomposed ASCII/Latin-1 text
used here, and locale lower-casing is the ASCII lower-case map (identity on
already-lowercase Latin-1 letters). -/
def normalizeInput (text : List Char) : List Char :=
  text.map Char.toLower

def MIN_TOKEN_LENGTH : Nat := 1

def MAX_TOKEN_LENGTH : Nat := 80

def MAX_CJK_BIGRAM_TOKEN_LENGTH : Nat := 40

/-- A character of the `ASCII_WORD_PATTERN = /^[a-z0-9]+$/u` class. -/
def isAsciiWordChar (c : Char) : Bool :=
  ('a' ≤ c && c ≤ 'z') || ('0' ≤ c && c ≤ '9')

/-- `isAsciiWord`: the token matches `/^[a-z0-9]+$/u`. -/
def isAsciiWord (t : List Char) : Bool :=
  !t.isEmpty && t.all isAsciiWordChar

/-- `includesCjkOrHangul`: the token contains a CJK/Hangul character. -/
def includesCjkOrHangul (t : List Char) : Bool :=
  t.any isCjkOrHangulChar

/-- `cleanToken`: JavaScript `token.trim()` (strip leading and trailing
whitespace). -/
def cleanToken (t : List Char) : List Char :=
  ((t.dropWhile Char.isWhitespace).reverse.dropWhile Char.isWhitespace).reverse

/-- `isTokenLengthValid`: length between `MIN_TOKEN_LENGTH` and
`MAX_TOKEN_LENGTH`. -/
def isTokenLengthValid (t : List Char) : Bool :=
  MIN_TOKEN_LENGTH ≤ t.length && t.length ≤ MAX_TOKEN_LENGTH

/-- The successive matches of the global regex `WORD_TOKEN_PATTERN`: maximal
runs of word characters, in input order. -/
def wordRuns : List Char → List (List Char)
  | [] => []
  | c :: rest =>
    if isWordChar c then
      (c :: rest.takeWhile isWordChar) :: wordRuns (rest.dropWhile isWordChar)
    else
      wordRuns rest
termination_by l => l.length
decreasing_by
  · exact Nat.lt_succ_of_le (List.dropWhile_suffix _).sublist.length_le
  · simp

/-- `toWordTokens`: regex matches of the normalized text, trimmed and kept
only when their length is valid. -/
def toWordTokens (text : List Char) : List (List Char) :=
  ((wordRuns (normalizeInput text)).map cleanToken).filter isTokenLengthValid

/-- `createAsciiCompoundTokens`: for every adjacent pair of base tokens that
both match `/^[a-z0-9]+$/u` and both have length at least two, emit their
concatenation when its length is valid. -/
def createAsciiCompoundTokens : List (List Char) → List (List Char)
  | left :: right :: rest =>
    (if isAsciiWord left && isAsciiWord right &&
        decide (2 ≤ left.length) && decide (2 ≤ right.length) &&
        isTokenLengthValid (left ++ right)
     then [left ++ right] else []) ++ createAsciiCompoundTokens (right :: rest)
  | _ => []

/-- The overlapping two-character windows of a token. -/
def charBigrams : List Char → List (List Char)
  | c1 :: c2 :: rest => [c1, c2] :: charBigrams (c2 :: rest)
  | _ => []

/-- `createCjkBigrams`: overlapping 2-character bigrams of every CJK/Hangul
token of length 2 to `MAX_CJK_BIGRAM_TOKEN_LENGTH`. -/
def createCjkBigrams (tokens : List (List Char)) : List (List Char) :=
  tokens.flatMap fun t =>
    if includesCjkOrHangul t && decide (2 ≤ t.length) &&
        decide (t.length ≤ MAX_CJK_BIGRAM_TOKEN_LENGTH) then
      charBigrams t
    else
      []

/-- `tokenizeForBm25`: base tokens, then ASCII adjacent-pair compounds, then
CJK bigrams; empty when there is no base token. -/
def tokenizeForBm25 (text : List Char) : List (List Char) :=
  let baseTokens := toWordTokens text
  if baseTokens.isEmpty then []
  else baseTokens ++ createAsciiCompoundTokens baseTokens ++ createCjkBigrams baseTokens

/-- A word character is not whitespace, so `trim` never touches a regex
match. -/
theorem wordChar_not_whitespace {c : Char} (h : isWordChar c = true) :
    c.isWhitespace = false := by
  by_contra hw
  rw [Bool.not_eq_false] at hw
  simp only [Char.isWhitespace, Bool.or_eq_true, decide_eq_true_eq] at hw
  rcases hw with ((rfl | rfl) | rfl) | rfl <;> exact absurd h (by decide)

theorem cleanToken_of_wordChars {t : List Char} (hall : ∀ c ∈ t, isWordChar c = true) :
    cleanToken t = t := by
  have hfront : t.dropWhile Char.isWhitespace = t := by
    cases t with
    | nil => rfl
    | cons a l =>
      rw [List.dropWhile_cons_of_neg]
      simp [wordChar_not_whitespace (hall a (by simp))]
  have hback : t.reverse.dropWhile Char.isWhitespace = t.reverse := by
    cases hr : t.reverse with
    | nil => rfl
    | cons a l =>
      have ha : a ∈ t := by
        have : a ∈ t.reverse := by rw [hr]; simp
        simpa using this
      rw [List.dropWhile_cons_of_neg]
      simp [wordChar_not_whitespace (hall a ha)]
  simp [cleanToken, hfront, hback]

theorem head?_dropWhile_not {α : Type} {p : α → Bool} :
    ∀ {l : List α} {c : α}, (l.dropWhile p).head? = some c → p c = false
  | [], c, h => by simp at h
  | a :: l, c, h => by
    by_cases hp : p a
    · rw [List.dropWhile_cons_of_pos hp] at h
      exact head?_dropWhile_not h
    · rw [List.dropWhile_cons_of_neg hp] at h
      simp at h
      subst h
      simpa using hp

theorem dropWhile_ne_nil_of_exists {α : Type} {p : α → Bool} :
    ∀ {l : List α}, (∃ x ∈ l, p x = false) → l.dropWhile p ≠ []
  | [], h => by simp at h
  | a :: l, h => by
    by_cases hp : p a
    · rw [List.dropWhile_cons_of_pos hp]
      obtain ⟨x, hx, hpx⟩ := h
      rcases List.mem_cons.mp hx with rfl | hx
      · simp [hpx] at hp
      · exact dropWhile_ne_nil_of_exists ⟨x, hx, hpx⟩
    · rw [List.dropWhile_cons_of_neg hp]
      simp

theorem dropWhile_append_of_exists {α : Type} {p : α → Bool} :
    ∀ {xs : List α} (ys : List α), (∃ x ∈ xs, p x = false) →
      (xs ++ ys).dropWhile p = xs.dropWhile p ++ ys
  | [], ys, h => by simp at h
  | a :: xs, ys, h => by
    by_cases hp : p a
    · have h' : ∃ x ∈ xs, p x = false := by
        obtain ⟨x, hx, hpx⟩ := h
        rcases List.mem_cons.mp hx with rfl | hx
        · simp [hpx] at hp
        · exact ⟨x, hx, hpx⟩
      rw [List.cons_append, List.dropWhile_cons_of_pos hp, List.dropWhile_cons_of_pos hp]
      exact dropWhile_append_of_exists ys h'
    · rw [List.cons_append, List.dropWhile_cons_of_neg hp, List.dropWhile_cons_of_neg hp]
      simp

theorem getLast?_of_suffix {α : Type} {xs ys : List α} (h : xs <:+ ys) (hne : xs ≠ []) :
    ys.getLast? = xs.getLast? := by
  obtain ⟨zs, rfl⟩ := h
  exact List.getLast?_append_of_ne_nil zs hne

theorem mem_of_getLast?_eq {α : Type} : ∀ {l : List α} {c : α}, l.getLast? = some c → c ∈ l
  | [], _, h => by simp at h
  | [a], c, h => by
    simp at h
    simp [h]
  | a :: b :: l, c, h => by
    rw [List.getLast?_cons_cons] at h
    exact List.mem_cons_of_mem _ (mem_of_getLast?_eq h)

theorem takeWhile_of_decomp {p : Char → Bool} :
    ∀ {t : List Char} {suf : List Char}, (∀ c ∈ t, p c = true) →
      ((suf.head?.all fun c => !p c) = true) → (t ++ suf).takeWhile p = t
  | [], suf, _, hsuf => by
    cases suf with
    | nil => rfl
    | cons a l =>
      have : p a = false := by simpa using hsuf
      simp [List.takeWhile_cons, this]
  | a :: t, suf, hall, hsuf => by
    have hpa : p a = true := hall a (by simp)
    simp only [List.cons_append, List.takeWhile_cons, hpa, if_pos]
    rw [takeWhile_of_decomp (fun c hc => hall c (by simp [hc])) hsuf]

/-- Every emitted run is a maximal run: nonempty, made of word characters,
and flanked by a non-word character (or the text boundary) on both sides. -/
theorem wordRuns_sound {l : List Char} :
    ∀ {t : List Char}, t ∈ wordRuns l →
      t ≠ [] ∧ (∀ c ∈ t, isWordChar c = true) ∧
      ∃ pre suf, l = pre ++ t ++ suf ∧
        ((pre.getLast?.all fun c => !isWordChar c) = true) ∧
        ((suf.head?.all fun c => !isWordChar c) = true) := by
  induction l using wordRuns.induct with
  | case1 =>
    intro t ht
    simp [wordRuns] at ht
  | case2 c rest hc ih =>
    intro t ht
    rw [wordRuns, if_pos hc] at ht
    rcases List.mem_cons.mp ht with rfl | ht
    · refine ⟨by simp, ?_, [], rest.dropWhile isWordChar, ?_, by simp, ?_⟩
      · intro x hx
        rcases List.mem_cons.mp hx with rfl | hx
        · exact hc
        · exact List.mem_takeWhile_imp hx
      · simp [List.takeWhile_append_dropWhile]
      · cases hhd : (rest.dropWhile isWordChar).head? with
        | none => simp
        | some d => simp [head?_dropWhile_not hhd]
    · obtain ⟨hne, hall, pre', suf', hdecomp, hpre', hsuf'⟩ := ih ht
      have hpre'ne : pre' ≠ [] := by
        intro hnil
        subst hnil
        simp at hdecomp
        obtain ⟨d, t', rfl⟩ := List.exists_cons_of_ne_nil hne
        have : (rest.dropWhile isWordChar).head? = some d := by rw [hdecomp]; simp
        have hd := head?_dropWhile_not this
        have := hall d (by simp)
        rw [this] at hd
        simp at hd
      refine ⟨hne, hall, (c :: rest.takeWhile isWordChar) ++ pre', suf', ?_, ?_, hsuf'⟩
      · have hsplit : rest = rest.takeWhile isWordChar ++ rest.dropWhile isWordChar :=
          (List.takeWhile_append_dropWhile isWordChar rest).symm
        conv_lhs => rw [show c :: rest = c :: (rest.takeWhile isWordChar ++
          rest.dropWhile isWordChar) by rw [← hsplit]]
        rw [hdecomp]
        simp
      · rw [List.getLast?_append_of_ne_nil _ hpre'ne]
        exact hpre'
  | case3 c rest hc ih =>
    intro t ht
    rw [wordRuns, if_neg hc] at ht
    obtain ⟨hne, hall, pre', suf', hdecomp, hpre', hsuf'⟩ := ih ht
    refine ⟨hne, hall, c :: pre', suf', by rw [hdecomp]; simp, ?_, hsuf'⟩
    cases hp' : pre' with
    | nil =>
      subst hp'
      have hcf : isWordChar c = false := by simpa using hc
      simp [hcf]
    | cons a l =>
      subst hp'
      rw [List.getLast?_cons_cons]
      exact hpre'

/-- Every maximal run of word characters whose length is at most
`MAX_TOKEN_LENGTH` is emitted. -/
theorem wordRuns_complete {l : List Char} :
    ∀ pre t suf, l = pre ++ t ++ suf → t ≠ [] → (∀ c ∈ t, isWordChar c = true) →
      ((pre.getLast?.all fun c => !isWordChar c) = true) →
      ((suf.head?.all fun c => !isWordChar c) = true) →
      t ∈ wordRuns l := by
  induction l using wordRuns.induct with
  | case1 =>
    intro pre t suf hl hne _ _ _
    rcases List.append_eq_nil.mp (List.append_eq_nil.mp hl.symm).1 with ⟨_, ht⟩
    exact absurd ht hne
  | case2 c rest hc ih =>
    intro pre t suf hl hne hall hpre hsuf
    rw [wordRuns, if_pos hc]
    cases pre with
    | nil =>
      simp only [List.nil_append] at hl
      obtain ⟨d, t', rfl⟩ := List.exists_cons_of_ne_nil hne
      have hd : d = c := by
        have hh := hl
        simp at hh
        exact hh.1.symm
      subst hd
      have hrest : rest = t' ++ suf := by
        have hh := hl
        simpa using hh
      have htw : rest.takeWhile isWordChar = t' := by
        rw [hrest]
        exact takeWhile_of_decomp (fun x hx => hall x (by simp [hx])) hsuf
      rw [htw]
      exact List.mem_cons_self _ _
    | cons c0 pre2 =>
      have hc0 : c0 = c := by
        have := hl
        simp at this
        exact this.1.symm
      subst hc0
      have hrest : rest = pre2 ++ t ++ suf := by
        have hh := hl
        simp at hh
        rw [List.append_assoc]
        exact hh
      apply List.mem_cons_of_mem
      have hlastpre : ∃ cl, (c0 :: pre2).getLast? = some cl ∧ isWordChar cl = false := by
        cases hgl : (c0 :: pre2).getLast? with
        | none => simp at hgl
        | some cl =>
          refine ⟨cl, rfl, ?_⟩
          rw [hgl] at hpre
          simpa using hpre
      obtain ⟨cl, hgl, hclw⟩ := hlastpre
      have hclmem : cl ∈ c0 :: pre2 := mem_of_getLast?_eq hgl
      -- the run lives in the dropWhile-part of rest
      have hpre2ex : ∃ x ∈ pre2, isWordChar x = false := by
        rcases List.mem_cons.mp hclmem with rfl | hmem
        · -- cl = c0 = c is a word character, contradiction
          rw [hc] at hclw
          simp at hclw
        · exact ⟨cl, hmem, hclw⟩
      have hdw : rest.dropWhile isWordChar =
          pre2.dropWhile isWordChar ++ (t ++ suf) := by
        rw [hrest, List.append_assoc]
        exact dropWhile_append_of_exists (t ++ suf) hpre2ex
      have hpre2ne : pre2.dropWhile isWordChar ≠ [] :=
        dropWhile_ne_nil_of_exists hpre2ex
      refine ih (pre2.dropWhile isWordChar) t suf (by rw [hdw, List.append_assoc]) hne hall ?_ hsuf
      have hlast2 : pre2.getLast? = (pre2.dropWhile isWordChar).getLast? :=
        getLast?_of_suffix (List.dropWhile_suffix _) hpre2ne
      have hpre2last : pre2 ≠ [] := by
        obtain ⟨x, hx, _⟩ := hpre2ex
        exact List.ne_nil_of_mem hx
      have : (c0 :: pre2).getLast? = pre2.getLast? := by
        obtain ⟨y, l2, rfl⟩ := List.exists_cons_of_ne_nil hpre2last
        rw [List.getLast?_cons_cons]
      rw [this] at hgl
      rw [← hlast2, hgl]
      simpa using hclw
  | case3 c rest hc ih =>
    intro pre t suf hl hne hall hpre hsuf
    rw [wordRuns, if_neg hc]
    cases pre with
    | nil =>
      simp only [List.nil_append] at hl
      obtain ⟨d, t', rfl⟩ := List.exists_cons_of_ne_nil hne
      have hd : d = c := by
        have := hl
        simp at this
        exact this.1.symm
      subst hd
      exact absurd (hall d (by simp)) (by simpa using hc)
    | cons c0 pre2 =>
      have hrest : rest = pre2 ++ t ++ suf := by
        have hh := hl
        simp at hh
        rw [List.append_assoc]
        exact hh.2
      refine ih pre2 t suf hrest hne hall ?_ hsuf
      cases hp2 : pre2 with
      | nil => simp
      | cons a l =>
        rw [← hp2]
        have : (c0 :: pre2).getLast? = pre2.getLast? := by
          rw [hp2, List.getLast?_cons_cons]
        rw [← this]
        exact hpre

/-- Adjacent pairs of valid ASCII tokens always yield their compound. -/
theorem pair_mem_createAsciiCompoundTokens :
    ∀ (ts : List (List Char)) (i : Nat) (lt rt : List Char),
      ts[i]? = some lt → ts[i+1]? = some rt →
      isAsciiWord lt = true → isAsciiWord rt = true →
      2 ≤ lt.length → 2 ≤ rt.length → (lt ++ rt).length ≤ MAX_TOKEN_LENGTH →
      (lt ++ rt) ∈ createAsciiCompoundTokens ts
  | [], i, lt, rt, h1, _, _, _, _, _, _ => by simp at h1
  | [_], i, lt, rt, h1, h2, _, _, _, _, _ => by
    rcases i with _ | j
    · simp at h2
    · simp at h1
  | a :: b :: rest, i, lt, rt, h1, h2, ha, hb, hla, hlb, hcomb => by
    rcases i with _ | j
    · simp at h1 h2
      subst h1
      subst h2
      rw [createAsciiCompoundTokens]
      have hvalid : isTokenLengthValid (a ++ b) = true := by
        simp only [isTokenLengthValid, MIN_TOKEN_LENGTH, Bool.and_eq_true, decide_eq_true_eq]
        constructor
        · simp
          omega
        · exact hcomb
      simp [ha, hb, hla, hlb, hvalid]
    · have h1' : (b :: rest)[j]? = some lt := by simpa using h1
      have h2' : (b :: rest)[j+1]? = some rt := by simpa using h2
      rw [createAsciiCompoundTokens]
      exact List.mem_append_right _
        (pair_mem_createAsciiCompoundTokens (b :: rest) j lt rt h1' h2' ha hb hla hlb hcomb)

/-- C9 (amended): for every input text, the Tokenizer's base tokens are
exactly the maximal runs of letter/digit characters of the normalized text
whose length lies between 1 and 80 (longer runs are dropped), and an
adjacent-pair compound token is generated for every pair of consecutive base
tokens that both match `/^[a-z0-9]+$/u`, are both of length at least 2, and
whose concatenation is at most 80 characters long.  (Amended from the claim's
"alphabetic" pairs: a non-ASCII alphabetic pair, or a pair whose concatenation
exceeds the maximal token length, produces no compound.) -/
theorem c9_base_tokens_maximal_runs_and_compounds :
    (∀ text t, t ∈ toWordTokens text →
      1 ≤ t.length ∧ t.length ≤ MAX_TOKEN_LENGTH ∧ (∀ c ∈ t, isWordChar c = true) ∧
      ∃ pre suf, normalizeInput text = pre ++ t ++ suf ∧
        ((pre.getLast?.all fun c => !isWordChar c) = true) ∧
        ((suf.head?.all fun c => !isWordChar c) = true)) ∧
    (∀ text pre t suf, normalizeInput text = pre ++ t ++ suf → t ≠ [] →
      (∀ c ∈ t, isWordChar c = true) →
      ((pre.getLast?.all fun c => !isWordChar c) = true) →
      ((suf.head?.all fun c => !isWordChar c) = true) →
      t.length ≤ MAX_TOKEN_LENGTH → t ∈ toWordTokens text) ∧
    (∀ text i lt rt, (toWordTokens text)[i]? = some lt →
      (toWordTokens text)[i+1]? = some rt →
      isAsciiWord lt = true → isAsciiWord rt = true →
      2 ≤ lt.length → 2 ≤ rt.length → (lt ++ rt).length ≤ MAX_TOKEN_LENGTH →
      (lt ++ rt) ∈ tokenizeForBm25 text) := by
  refine ⟨?_, ?_, ?_⟩
  · intro text t ht
    simp only [toWordTokens, List.mem_filter, List.mem_map] at ht
    obtain ⟨⟨r, hr, hclean⟩, hvalid⟩ := ht
    obtain ⟨hne, hall, pre, suf, hdecomp, hpre, hsuf⟩ := wordRuns_sound hr
    have ht_eq : t = r := by rw [← hclean, cleanToken_of_wordChars hall]
    subst ht_eq
    simp only [isTokenLengthValid, MIN_TOKEN_LENGTH, MAX_TOKEN_LENGTH, Bool.and_eq_true,
      decide_eq_true_eq] at hvalid
    exact ⟨hvalid.1, hvalid.2, hall, pre, suf, hdecomp, hpre, hsuf⟩
  · intro text pre t suf hdecomp hne hall hpre hsuf hlen
    have hruns : t ∈ wordRuns (normalizeInput text) :=
      wordRuns_complete pre t suf hdecomp hne hall hpre hsuf
    simp only [toWordTokens, List.mem_filter, List.mem_map]
    refine ⟨⟨t, hruns, cleanToken_of_wordChars hall⟩, ?_⟩
    simp only [isTokenLengthValid, MIN_TOKEN_LENGTH, MAX_TOKEN_LENGTH, Bool.and_eq_true,
      decide_eq_true_eq]
    exact ⟨Nat.one_le_iff_ne_zero.mpr (by simpa using hne), hlen⟩
  · intro text i lt rt h1 h2 ha hb hla hlb hcomb
    have hmem : (lt ++ rt) ∈ createAsciiCompoundTokens (toWordTokens text) :=
      pair_mem_createAsciiCompoundTokens (toWordTokens text) i lt rt h1 h2 ha hb hla hlb hcomb
    have hne : (toWordTokens text).isEmpty = false := by
      cases hbase : toWordTokens text with
      | nil => rw [hbase] at h1; simp at h1
      | cons x xs => simp
    simp only [tokenizeForBm25, hne, Bool.false_eq_true, if_false]
    exact List.mem_append_left _ (List.mem_append_right _ hmem)

/-- C9 counterexample: `"café bar"` tokenizes into two consecutive alphabetic
base tokens of length at least 2 yet produces no compound (the left token is
not ASCII), and two adjacent 41-character ASCII alphabetic tokens produce no
compound either (their concatenation exceeds the 80-character bound) — so a
compound is not generated for every adjacent alphabetic pair of length
at least 2. -/
theorem c9_counterexample_compound_pairs :
    ((toWordTokens "café bar".data)[0]? = some "café".data ∧
     (toWordTokens "café bar".data)[1]? = some "bar".data ∧
     "café".data.all isUnicodeLetter = true ∧ "bar".data.all isUnicodeLetter = true ∧
     2 ≤ "café".data.length ∧ 2 ≤ "bar".data.length ∧
     ("café".data ++ "bar".data) ∉ tokenizeForBm25 "café bar".data) ∧
    ((toWordTokens (List.replicate 41 'a' ++ ' ' :: List.replicate 41 'b'))[0]? =
        some (List.replicate 41 'a') ∧
     (toWordTokens (List.replicate 41 'a' ++ ' ' :: List.replicate 41 'b'))[1]? =
        some (List.replicate 41 'b') ∧
     (List.replicate 41 'a').all isUnicodeLetter = true ∧
     (List.replicate 41 'b').all isUnicodeLetter = true ∧
     (List.replicate 41 'a' ++ List.replicate 41 'b') ∉
        tokenizeForBm25 (List.replicate 41 'a' ++ ' ' :: List.replicate 41 'b')) := by
  have h1 : toWordTokens "café bar".data = ["café".data, "bar".data] := by
    simp +decide [toWordTokens, normalizeInput, wordRuns, cleanToken, isTokenLengthValid]
  have h2 : toWordTokens (List.replicate 41 'a' ++ ' ' :: List.replicate 41 'b') =
      [List.replicate 41 'a', List.replicate 41 'b'] := by
    simp +decide [toWordTokens, normalizeInput, wordRuns, cleanToken, isTokenLengthValid]
  refine ⟨⟨by rw [h1]; rfl, by rw [h1]; rfl, by decide, by decide, by decide, by decide, ?_⟩,
    by rw [h2]; rfl, by rw [h2]; rfl, by decide, by decide, ?_⟩
  · simp only [tokenizeForBm25, h1]
    decide
  · simp only [tokenizeForBm25, h2]
    decide

/-- C9 witness: the spec's own example, `"heap sort"`, yields base tokens
`heap` and `sort` and the compound `heapsort`. -/
theorem c9_witness :
    "heap".data ∈ toWordTokens "heap sort".data ∧
    "heapsort".data ∈ tokenizeForBm25 "heap sort".data := by
  have h : toWordTokens "heap sort".data = ["heap".data, "sort".data] := by
    simp +decide [toWordTokens, normalizeInput, wordRuns, cleanToken, isTokenLengthValid]
  constructor
  · exact c9_base_tokens_maximal_runs_and_compounds.2.1 "heap sort".data [] "heap".data
      " sort".data (by decide) (by decide) (by decide) (by decide) (by decide) (by decide)
  · exact c9_base_tokens_maximal_runs_and_compounds.2.2 "heap sort".data 0 "heap".data
      "sort".data (by rw [h]; rfl) (by rw [h]; rfl) (by decide) (by decide) (by decide) (by decide)
      (by decide)

/-!
## Source-id alias resolution (Source Registry)

Modelled from the spec: the alias-aware `PluginDataStore` — its
`sourceIdAliases` map with `resolveSourceId` and `registerSourceAlias` — is
declared in the plugin types (`SourceRegistryState.sourceIdAliases`) and
exercised by the repository's tests and callers, but its implementation file
is not among the provided sources.  Per spec §4.4: `resolveSourceId` follows
the alias map until a fixed point, guarding against cycles with a seen-set,
and returns its input unchanged when no alias exists; `registerSourceAlias`
resolves the new id first, stores the old id mapped to that resolution, then
rewrites every alias that pointed at the old id, collapsing chains.
-/

theorem filter_not_mem_cons_length_lt {keys seen : List String} {id : String}
    (hid : id ∈ keys) (hseen : id ∉ seen) :
    (keys.filter (fun k => decide (k ∉ id :: seen))).length <
      (keys.filter (fun k => decide (k ∉ seen))).length := by
  have hsplit : keys.filter (fun k => decide (k ∉ id :: seen)) =
      (keys.filter (fun k => decide (k ∉ seen))).filter (fun k => decide (k ≠ id)) := by
    rw [List.filter_filter]
    apply List.filter_congr
    intro x _
    by_cases hx1 : x = id <;> by_cases hx2 : x ∈ seen <;> simp [List.mem_cons, hx1, hx2]
  rw [hsplit]
  apply List.length_filter_lt_length_iff_exists.mpr
  refine ⟨id, ?_, by simp⟩
  simp only [List.mem_filter, decide_eq_true_eq]
  exact ⟨hid, hseen⟩

/-- Modelled from the spec: alias resolution from a given seen-set, returning
the resolved id together with the number of alias hops taken. -/
def resolveFrom (aliases : List (String × String)) (seen : List String)
    (id : String) : String × Nat :=
  if id ∈ seen then (id, 0)
  else
    match h : lookupA id aliases with
    | none => (id, 0)
    | some next =>
      let r := resolveFrom aliases (id :: seen) next
      (r.1, r.2 + 1)
termination_by ((keysA aliases).filter (fun k => decide (k ∉ seen))).length
decreasing_by
  refine filter_not_mem_cons_length_lt ?_ ?_
  · exact (lookupA_isSome_iff_mem_keysA id aliases).mp (by simp [h])
  · assumption

theorem resolveFrom_of_mem {aliases : List (String × String)} {seen : List String}
    {id : String} (hseen : id ∈ seen) : resolveFrom aliases seen id = (id, 0) := by
  rw [resolveFrom, if_pos hseen]

theorem resolveFrom_of_no_alias {aliases : List (String × String)} {seen : List String}
    {id : String} (hseen : id ∉ seen) (hlook : lookupA id aliases = none) :
    resolveFrom aliases seen id = (id, 0) := by
  rw [resolveFrom, if_neg hseen]
  split
  · rfl
  · rename_i next heq
    rw [hlook] at heq
    cases heq

theorem resolveFrom_of_alias {aliases : List (String × String)} {seen : List String}
    {id next : String} (hseen : id ∉ seen) (hlook : lookupA id aliases = some next) :
    resolveFrom aliases seen id =
      ((resolveFrom aliases (id :: seen) next).1,
        (resolveFrom aliases (id :: seen) next).2 + 1) := by
  rw [resolveFrom, if_neg hseen]
  split
  · rename_i heq
    rw [hlook] at heq
    cases heq
  · rename_i next' heq
    rw [hlook] at heq
    cases heq
    rfl

/-- Modelled from the spec: `resolveSourceId` follows the alias map to a fixed
point, cycle-safe. -/
def resolveSourceId (aliases : List (String × String)) (id : String) : String :=
  (resolveFrom aliases [] id).1

/-- The number of alias hops `resolveSourceId` takes. -/
def resolveSteps (aliases : List (String × String)) (id : String) : Nat :=
  (resolveFrom aliases [] id).2

/-- Modelled from the spec: `registerSourceAlias previous current` resolves
`current` first, stores `previous ↦ resolved`, then re-points every alias that
pointed at `previous` to the resolution (chain collapse). -/
def registerSourceAlias (aliases : List (String × String))
    (previousId currentId : String) : List (String × String) :=
  let r := resolveSourceId aliases currentId
  (insertA previousId r aliases).map fun kv => (kv.1, if kv.2 = previousId then r else kv.2)

theorem lookupA_repoint (prevId r k : String) :
    ∀ m : List (String × String),
      lookupA k (m.map fun kv => (kv.1, if kv.2 = prevId then r else kv.2)) =
        (lookupA k m).map fun v => if v = prevId then r else v
  | [] => rfl
  | (k', v') :: tl => by
    by_cases hk : k' = k
    · simp [lookupA, hk]
    · simp [lookupA, hk, lookupA_repoint prevId r k tl]

/-- An alias chain: consecutive ids are linked by the alias map and the final
id has no alias. -/
def isChain (aliases : List (String × String)) : List String → Prop
  | [] => False
  | [x] => lookupA x aliases = none
  | x :: y :: rest => lookupA x aliases = some y ∧ isChain aliases (y :: rest)

theorem resolveFrom_chain (aliases : List (String × String)) :
    ∀ (ids : List String) (seen : List String), isChain aliases ids → ids.Nodup →
      (∀ x ∈ ids, x ∉ seen) →
      resolveFrom aliases seen (ids.headI) = (ids.getLastI, ids.length - 1)
  | [], _, hchain, _, _ => absurd hchain (by simp [isChain])
  | [x], seen, hchain, _, hdisj => by
    have hx : x ∉ seen := hdisj x (by simp)
    simp only [isChain] at hchain
    simp [List.headI, List.getLastI, resolveFrom_of_no_alias hx hchain]
  | x :: y :: rest, seen, hchain, hnodup, hdisj => by
    simp only [isChain] at hchain
    have hx : x ∉ seen := hdisj x (by simp)
    rw [List.headI, resolveFrom_of_alias hx hchain.1]
    have hrec := resolveFrom_chain aliases (y :: rest) (x :: seen) hchain.2
      (List.nodup_cons.mp hnodup).2 ?_
    · rw [List.headI] at hrec
      rw [hrec]
      simp only [Prod.mk.injEq]
      constructor
      · show (y :: rest).getLastI = (x :: y :: rest).getLastI
        simp [List.getLastI_eq_getLast?, List.getLast?_cons_cons]
      · simp
    · intro z hz
      simp only [List.mem_cons, not_or]
      constructor
      · intro hzx
        subst hzx
        exact (List.nodup_cons.mp hnodup).1 hz
      · exact hdisj z (List.mem_cons_of_mem _ hz)

theorem resolveFrom_steps_le (aliases : List (String × String)) :
    ∀ (seen : List String) (id : String),
      (resolveFrom aliases seen id).2 ≤
        ((keysA aliases).filter (fun k => decide (k ∉ seen))).length := by
  intro seen id
  induction seen, id using resolveFrom.induct aliases with
  | case1 seen id hseen =>
    rw [resolveFrom_of_mem hseen]
    simp
  | case2 seen id hseen hlook =>
    rw [resolveFrom_of_no_alias hseen hlook]
    simp
  | case3 seen id hseen next hlook ih =>
    rw [resolveFrom_of_alias hseen hlook]
    have hid : id ∈ keysA aliases :=
      (lookupA_isSome_iff_mem_keysA id aliases).mp (by simp [hlook])
    have hlt := filter_not_mem_cons_length_lt hid hseen
    simp only
    omega

/-- C7: alias resolution terminates with exactly N hops on an acyclic alias
chain of N+1 ids, its hop count is bounded by the size of the alias map on
every input (cycle-safe, never loops), and after `registerSourceAlias old new`
collapses chains, the old id resolves to the canonical id in exactly one hop
and every alias that pointed at the old id points directly at the canonical
id. -/
theorem c7_resolve_bounded_and_collapsing :
    (∀ (aliases : List (String × String)) (ids : List String),
      isChain aliases ids → ids.Nodup →
      resolveFrom aliases [] ids.headI = (ids.getLastI, ids.length - 1)) ∧
    (∀ (aliases : List (String × String)) (id : String),
      resolveSteps aliases id ≤ (keysA aliases).length) ∧
    (∀ (aliases : List (String × String)) (previousId currentId : String),
      lookupA (resolveSourceId aliases currentId) aliases = none →
      previousId ≠ resolveSourceId aliases currentId →
      resolveFrom (registerSourceAlias aliases previousId currentId) [] previousId =
        (resolveSourceId aliases currentId, 1) ∧
      (∀ k, lookupA k aliases = some previousId →
        lookupA k (registerSourceAlias aliases previousId currentId) =
          some (resolveSourceId aliases currentId))) := by
  refine ⟨?_, ?_, ?_⟩
  · intro aliases ids hchain hnodup
    exact resolveFrom_chain aliases ids [] hchain hnodup (by simp)
  · intro aliases id
    calc resolveSteps aliases id
        ≤ ((keysA aliases).filter (fun k => decide (k ∉ ([] : List String)))).length :=
          resolveFrom_steps_le aliases [] id
      _ ≤ (keysA aliases).length := List.length_filter_le _ (keysA aliases)
  · intro aliases previousId currentId hfixed hne
    have hmap : ∀ k, lookupA k (registerSourceAlias aliases previousId currentId) =
        (lookupA k (insertA previousId (resolveSourceId aliases currentId) aliases)).map
          (fun v => if v = previousId then resolveSourceId aliases currentId else v) := by
      intro k
      rw [registerSourceAlias]
      exact lookupA_repoint previousId _ k _
    have hlook_prev : lookupA previousId
        (registerSourceAlias aliases previousId currentId) =
          some (resolveSourceId aliases currentId) := by
      rw [hmap, lookupA_insertA_self]
      by_cases hrp : resolveSourceId aliases currentId = previousId <;> simp [hrp]
    have hlook_r : lookupA (resolveSourceId aliases currentId)
        (registerSourceAlias aliases previousId currentId) = none := by
      rw [hmap, lookupA_insertA_ne _ _ hne, hfixed]
      rfl
    refine ⟨?_, ?_⟩
    · have hnotmem : resolveSourceId aliases currentId ∉ [previousId] := by
        simp
        exact Ne.symm hne
      rw [resolveFrom_of_alias (by simp) hlook_prev,
        resolveFrom_of_no_alias hnotmem hlook_r]
    · intro k hk
      rw [hmap]
      by_cases hkp : k = previousId
      · rw [hkp, lookupA_insertA_self]
        by_cases hrp : resolveSourceId aliases currentId = previousId <;> simp [hrp]
      · rw [lookupA_insertA_ne _ _ (Ne.symm hkp), hk]
        simp

/-- C7 witness: the repository test's alias chain `source-1 → source-2 →
source-3` resolves to `source-3` in two hops, within the global bound, and
registering `source-old → source-new` lets `source-old` resolve in one hop. -/
theorem c7_witness :
    resolveFrom [("source-1", "source-2"), ("source-2", "source-3")] []
      "source-1" = ("source-3", 2) ∧
    resolveSteps [("source-1", "source-2"), ("source-2", "source-3")] "source-1" ≤ 2 ∧
    resolveFrom (registerSourceAlias [] "source-old" "source-new") [] "source-old" =
      ("source-new", 1) := by
  have h0 : lookupA "source-new" ([] : List (String × String)) = none := rfl
  have hres : resolveSourceId [] "source-new" = "source-new" := by
    rw [resolveSourceId, resolveFrom_of_no_alias (by simp) h0]
  refine ⟨?_, ?_, ?_⟩
  · have h := c7_resolve_bounded_and_collapsing.1
      [("source-1", "source-2"), ("source-2", "source-3")]
      ["source-1", "source-2", "source-3"] (by simp [isChain, lookupA]) (by decide)
    simpa [List.headI, List.getLastI] using h
  · exact c7_resolve_bounded_and_collapsing.2.1
      [("source-1", "source-2"), ("source-2", "source-3")] "source-1"
  · have h := (c7_resolve_bounded_and_collapsing.2.2 [] "source-old" "source-new"
      (by rw [hres]; exact h0) (by rw [hres]; decide)).1
    rwa [hres] at h

/-!
## Carry-over selector (`src/plugin/historySourceIds.ts`)

`buildReusableSourceIds` walks a conversation's query-metadata records from
newest (last) to oldest, resolves each recorded id, keeps ids that are live,
not excluded and not yet collected, and returns as soon as the cap is
reached.  A record carries the ids used by one past query; `null` array holes
(the `if (!metadata) continue` guard of the source) cannot arise in the typed
model.  The optional exclusion set is modelled as a list (callers pass `[]`
for `undefined`).
-/

structure QueryMetadataRecord where
  selectedSourceIds : List String

/-- The inner loop of `buildReusableSourceIds` over one record's raw ids:
resolve each id, skip empty, already-seen, dead or excluded ids, collect the
rest, and report `true` when the cap check (run after each append) returned
early. -/
def collectReusable (resolveId : String → String)
    (remoteSourceIds excludedSourceIds : List String) (maxCount : Nat) :
    List String → List String → List String → List String × List String × Bool
  | [], acc, seen => (acc, seen, false)
  | rawId :: rest, acc, seen =>
    let id := resolveId rawId
    if id = "" ∨ id ∈ seen then
      collectReusable resolveId remoteSourceIds excludedSourceIds maxCount rest acc seen
    else if id ∉ remoteSourceIds then
      collectReusable resolveId remoteSourceIds excludedSourceIds maxCount rest acc seen
    else if id ∈ excludedSourceIds then
      collectReusable resolveId remoteSourceIds excludedSourceIds maxCount rest acc seen
    else
      let acc2 := acc ++ [id]
      if maxCount ≤ acc2.length then (acc2, id :: seen, true)
      else collectReusable resolveId remoteSourceIds excludedSourceIds maxCount rest
        acc2 (id :: seen)

/-- The outer loop of `buildReusableSourceIds`, over records newest-first. -/
def buildReusableLoop (resolveId : String → String)
    (remoteSourceIds excludedSourceIds : List String) (maxCount : Nat) :
    List QueryMetadataRecord → List String → List String → List String
  | [], acc, _ => acc
  | record :: older, acc, seen =>
    match collectReusable resolveId remoteSourceIds excludedSourceIds maxCount
        record.selectedSourceIds acc seen with
    | (acc2, _, true) => acc2
    | (acc2, seen2, false) =>
      buildReusableLoop resolveId remoteSourceIds excludedSourceIds maxCount older acc2 seen2

/-- `buildReusableSourceIds`: the records are stored oldest-first, so the
newest-first walk (`for index = length-1 downTo 0`) runs over the reversed
list. -/
def buildReusableSourceIds (queryMetadata : List QueryMetadataRecord)
    (resolveId : String → String) (remoteSourceIds : List String) (maxCount : Nat)
    (excludedSourceIds : List String) : List String :=
  buildReusableLoop resolveId remoteSourceIds excludedSourceIds maxCount
    queryMetadata.reverse [] []

theorem collectReusable_spec (resolveId : String → String)
    (remote excluded : List String) (maxCount : Nat) :
    ∀ (rawIds acc seen : List String),
      acc.Nodup → (∀ x ∈ acc, x ∈ seen) →
      (acc.length < maxCount ∨ acc.length = 0) →
      ((∃ delta,
          (collectReusable resolveId remote excluded maxCount rawIds acc seen).1 =
            acc ++ delta ∧ delta.Sublist (rawIds.map resolveId)) ∧
       (collectReusable resolveId remote excluded maxCount rawIds acc seen).1.Nodup ∧
       (∀ x ∈ (collectReusable resolveId remote excluded maxCount rawIds acc seen).1,
          x ∈ (collectReusable resolveId remote excluded maxCount rawIds acc seen).2.1) ∧
       (∀ x ∈ (collectReusable resolveId remote excluded maxCount rawIds acc seen).1,
          x ∈ acc ∨ (x ∈ remote ∧ x ∉ excluded ∧ x ≠ "" ∧
            ∃ raw ∈ rawIds, resolveId raw = x)) ∧
       (collectReusable resolveId remote excluded maxCount rawIds acc seen).1.length ≤
          max 1 maxCount ∧
       ((collectReusable resolveId remote excluded maxCount rawIds acc seen).2.2 = false →
          ((collectReusable resolveId remote excluded maxCount rawIds acc seen).1.length <
            maxCount ∨
           (collectReusable resolveId remote excluded maxCount rawIds acc seen).1.length = 0)) ∧
       (∀ x ∈ seen, x ∈ (collectReusable resolveId remote excluded maxCount rawIds acc seen).2.1))
  | [], acc, seen, hnd, hsub, hC => by
    simp only [collectReusable]
    refine ⟨⟨[], by simp, by simp⟩, hnd, hsub, ?_, ?_, ?_, ?_⟩
    · intro x hx
      exact Or.inl hx
    · rcases hC with h | h <;> omega
    · intro _
      exact hC
    · intro x hx
      exact hx
  | rawId :: rest, acc, seen, hnd, hsub, hC => by
    by_cases h1 : resolveId rawId = "" ∨ resolveId rawId ∈ seen
    · have heq : collectReusable resolveId remote excluded maxCount (rawId :: rest) acc seen =
          collectReusable resolveId remote excluded maxCount rest acc seen := by
        rw [collectReusable]
        simp [h1]
      rw [heq]
      obtain ⟨⟨delta, hd1, hd2⟩, h2, h3, h4, h5, h6, h7⟩ :=
        collectReusable_spec resolveId remote excluded maxCount rest acc seen hnd hsub hC
      refine ⟨⟨delta, hd1, hd2.cons _⟩, h2, h3, ?_, h5, h6, h7⟩
      intro x hx
      rcases h4 x hx with hx' | ⟨ha, hb, hc, raw, hraw, hres⟩
      · exact Or.inl hx'
      · exact Or.inr ⟨ha, hb, hc, raw, List.mem_cons_of_mem _ hraw, hres⟩
    · by_cases h2 : resolveId rawId ∉ remote
      · have heq : collectReusable resolveId remote excluded maxCount (rawId :: rest) acc seen =
            collectReusable resolveId remote excluded maxCount rest acc seen := by
          rw [collectReusable]
          simp [h1, h2]
        rw [heq]
        obtain ⟨⟨delta, hd1, hd2⟩, hh2, h3, h4, h5, h6, h7⟩ :=
          collectReusable_spec resolveId remote excluded maxCount rest acc seen hnd hsub hC
        refine ⟨⟨delta, hd1, hd2.cons _⟩, hh2, h3, ?_, h5, h6, h7⟩
        intro x hx
        rcases h4 x hx with hx' | ⟨ha, hb, hc, raw, hraw, hres⟩
        · exact Or.inl hx'
        · exact Or.inr ⟨ha, hb, hc, raw, List.mem_cons_of_mem _ hraw, hres⟩
      · by_cases h3 : resolveId rawId ∈ excluded
        · have heq : collectReusable resolveId remote excluded maxCount
              (rawId :: rest) acc seen =
              collectReusable resolveId remote excluded maxCount rest acc seen := by
            rw [collectReusable]
            simp [h1, h2, h3]
          rw [heq]
          obtain ⟨⟨delta, hd1, hd2⟩, hh2, hh3, h4, h5, h6, h7⟩ :=
            collectReusable_spec resolveId remote excluded maxCount rest acc seen hnd hsub hC
          refine ⟨⟨delta, hd1, hd2.cons _⟩, hh2, hh3, ?_, h5, h6, h7⟩
          intro x hx
          rcases h4 x hx with hx' | ⟨ha, hb, hc, raw, hraw, hres⟩
          · exact Or.inl hx'
          · exact Or.inr ⟨ha, hb, hc, raw, List.mem_cons_of_mem _ hraw, hres⟩
        · -- the id is appended
          have hid_ne : resolveId rawId ≠ "" := fun hc => h1 (Or.inl hc)
          have hid_seen : resolveId rawId ∉ seen := fun hc => h1 (Or.inr hc)
          have hid_acc : resolveId rawId ∉ acc := fun hc => hid_seen (hsub _ hc)
          have hnd2 : (acc ++ [resolveId rawId]).Nodup := by
            rw [List.nodup_append]
            exact ⟨hnd, List.nodup_singleton _, by
              intro x hx hx'
              simp at hx'
              subst hx'
              exact hid_acc hx⟩
          have hmem_remote : resolveId rawId ∈ remote := not_not.mp h2
          by_cases hcap : maxCount ≤ (acc ++ [resolveId rawId]).length
          · have heq : collectReusable resolveId remote excluded maxCount
                (rawId :: rest) acc seen =
                (acc ++ [resolveId rawId], resolveId rawId :: seen, true) := by
              have hcap2 : maxCount ≤ acc.length + 1 := by simpa using hcap
              rw [collectReusable]
              simp [h1, h2, h3, hcap2]
            rw [heq]
            refine ⟨⟨[resolveId rawId], rfl, ?_⟩, hnd2, ?_, ?_, ?_, by simp, ?_⟩
            · simp only [List.map_cons]
              exact (List.nil_sublist _).cons₂ _
            · intro x hx
              rcases List.mem_append.mp hx with hx' | hx'
              · exact List.mem_cons_of_mem _ (hsub _ hx')
              · simp at hx'
                simp [hx']
            · intro x hx
              rcases List.mem_append.mp hx with hx' | hx'
              · exact Or.inl hx'
              · simp at hx'
                subst hx'
                exact Or.inr ⟨hmem_remote, h3, hid_ne, rawId, by simp⟩
            · simp only [List.length_append, List.length_singleton]
              omega
            · intro x hx
              exact List.mem_cons_of_mem _ hx
          · have heq : collectReusable resolveId remote excluded maxCount
                (rawId :: rest) acc seen =
                collectReusable resolveId remote excluded maxCount rest
                  (acc ++ [resolveId rawId]) (resolveId rawId :: seen) := by
              have hcap2 : ¬ maxCount ≤ acc.length + 1 := by simpa using hcap
              rw [collectReusable]
              simp [h1, h2, h3, hcap2]
            rw [heq]
            have hsub2 : ∀ x ∈ acc ++ [resolveId rawId], x ∈ resolveId rawId :: seen := by
              intro x hx
              rcases List.mem_append.mp hx with hx' | hx'
              · exact List.mem_cons_of_mem _ (hsub _ hx')
              · simp at hx'
                simp [hx']
            have hC2 : (acc ++ [resolveId rawId]).length < maxCount ∨
                (acc ++ [resolveId rawId]).length = 0 := by
              left
              omega
            obtain ⟨⟨delta, hd1, hd2⟩, hh2, hh3, h4, h5, h6, h7⟩ :=
              collectReusable_spec resolveId remote excluded maxCount rest
                (acc ++ [resolveId rawId]) (resolveId rawId :: seen) hnd2 hsub2 hC2
            refine ⟨⟨resolveId rawId :: delta, by simp [hd1], ?_⟩, hh2, hh3, ?_, h5, h6, ?_⟩
            · simp only [List.map_cons]
              exact hd2.cons₂ _
            · intro x hx
              rcases h4 x hx with hx' | ⟨ha, hb, hc, raw, hraw, hres⟩
              · rcases List.mem_append.mp hx' with hx'' | hx''
                · exact Or.inl hx''
                · simp at hx''
                  subst hx''
                  exact Or.inr ⟨hmem_remote, h3, hid_ne, rawId, by simp⟩
              · exact Or.inr ⟨ha, hb, hc, raw, List.mem_cons_of_mem _ hraw, hres⟩
            · intro x hx
              exact h7 x (List.mem_cons_of_mem _ hx)

theorem buildReusableLoop_spec (resolveId : String → String)
    (remote excluded : List String) (maxCount : Nat) :
    ∀ (records : List QueryMetadataRecord) (acc seen : List String),
      acc.Nodup → (∀ x ∈ acc, x ∈ seen) →
      (acc.length < maxCount ∨ acc.length = 0) →
      ((∃ delta,
          buildReusableLoop resolveId remote excluded maxCount records acc seen =
            acc ++ delta ∧
          delta.Sublist ((records.flatMap fun r => r.selectedSourceIds).map resolveId)) ∧
       (buildReusableLoop resolveId remote excluded maxCount records acc seen).Nodup ∧
       (∀ x ∈ buildReusableLoop resolveId remote excluded maxCount records acc seen,
          x ∈ acc ∨ (x ∈ remote ∧ x ∉ excluded ∧ x ≠ "" ∧
            ∃ r ∈ records, ∃ raw ∈ r.selectedSourceIds, resolveId raw = x)) ∧
       (buildReusableLoop resolveId remote excluded maxCount records acc seen).length ≤
          max 1 maxCount)
  | [], acc, seen, hnd, hsub, hC => by
    simp only [buildReusableLoop]
    refine ⟨⟨[], by simp, by simp⟩, hnd, ?_, ?_⟩
    · intro x hx
      exact Or.inl hx
    · rcases hC with h | h <;> omega
  | record :: older, acc, seen, hnd, hsub, hC => by
    obtain ⟨⟨delta, hd1, hd2⟩, h2, h3, h4, h5, h6, h7⟩ :=
      collectReusable_spec resolveId remote excluded maxCount record.selectedSourceIds
        acc seen hnd hsub hC
    rw [buildReusableLoop]
    cases hcall : collectReusable resolveId remote excluded maxCount
        record.selectedSourceIds acc seen with
    | mk acc2 rest2 =>
      obtain ⟨seen2, flag⟩ := rest2
      rw [hcall] at hd1 h2 h3 h4 h5 h6 h7
      simp only at hd1 h2 h3 h4 h5 h6 h7
      cases flag with
      | true =>
        simp only
        refine ⟨⟨delta, hd1, ?_⟩, h2, ?_, h5⟩
        · simp only [List.flatMap_cons, List.map_append]
          exact hd2.trans (List.sublist_append_left _ _)
        · intro x hx
          rcases h4 x hx with hx' | ⟨ha, hb, hc, raw, hraw, hres⟩
          · exact Or.inl hx'
          · exact Or.inr ⟨ha, hb, hc, record, by simp, raw, hraw, hres⟩
      | false =>
        simp only
        have hC2 := h6 rfl
        obtain ⟨⟨delta2, he1, he2⟩, g2, g3, g4⟩ :=
          buildReusableLoop_spec resolveId remote excluded maxCount older acc2 seen2
            h2 h3 hC2
        refine ⟨⟨delta ++ delta2, ?_, ?_⟩, g2, ?_, g4⟩
        · rw [he1, hd1, List.append_assoc]
        · simp only [List.flatMap_cons, List.map_append]
          exact hd2.append he2
        · intro x hx
          rcases g3 x hx with hx' | ⟨ha, hb, hc, r, hr, raw, hraw, hres⟩
          · rcases h4 x hx' with hx'' | ⟨ha, hb, hc, raw, hraw, hres⟩
            · exact Or.inl hx''
            · exact Or.inr ⟨ha, hb, hc, record, by simp, raw, hraw, hres⟩
          · exact Or.inr ⟨ha, hb, hc, r, List.mem_cons_of_mem _ hr, raw, hraw, hres⟩

/-- C8 (amended): the Carry-over Selector is a pure function of its inputs
(deterministic), walks records newest-first, and returns a duplicate-free list
of resolved ids that are all live and not excluded, in walk order; its length
is at most `max 1 maxCount` — amended from "at most the maximum count": the
cap check runs only after an id is appended, so a cap of `0` still admits one
id; for every cap of at least 1 the output length is bounded by the cap. -/
theorem c8_carry_over_selector (queryMetadata : List QueryMetadataRecord)
    (resolveId : String → String) (remote : List String) (maxCount : Nat)
    (excluded : List String) :
    (buildReusableSourceIds queryMetadata resolveId remote maxCount excluded).Nodup ∧
    (∀ x ∈ buildReusableSourceIds queryMetadata resolveId remote maxCount excluded,
      x ∈ remote ∧ x ∉ excluded ∧ x ≠ "" ∧
        ∃ r ∈ queryMetadata, ∃ raw ∈ r.selectedSourceIds, resolveId raw = x) ∧
    (buildReusableSourceIds queryMetadata resolveId remote maxCount excluded).length ≤
      max 1 maxCount ∧
    (buildReusableSourceIds queryMetadata resolveId remote maxCount excluded).Sublist
      ((queryMetadata.reverse.flatMap fun r => r.selectedSourceIds).map resolveId) := by
  obtain ⟨⟨delta, hd1, hd2⟩, h2, h3, h4⟩ :=
    buildReusableLoop_spec resolveId remote excluded maxCount queryMetadata.reverse [] []
      (by simp) (by simp) (by simp)
  rw [buildReusableSourceIds]
  refine ⟨h2, ?_, h4, ?_⟩
  · intro x hx
    rcases h3 x hx with hx' | ⟨ha, hb, hc, r, hr, raw, hraw, hres⟩
    · simp at hx'
    · exact ⟨ha, hb, hc, r, List.mem_reverse.mp hr, raw, hraw, hres⟩
  · rw [hd1]
    simpa using hd2

/-- C8 counterexample: with a maximum count of `0`, one qualifying id is still
collected — the output length exceeds the maximum count, because the cap check
runs only after an id is appended. -/
theorem c8_counterexample_zero_cap :
    buildReusableSourceIds [⟨["a"]⟩] (fun s => s) ["a"] 0 [] = ["a"] ∧
    ¬ (buildReusableSourceIds [⟨["a"]⟩] (fun s => s) ["a"] 0 []).length ≤ 0 := by
  constructor
  · rfl
  · decide

/-- C8 witness: the repository's own carry-over test input — records
`[{a,b},{b,c,d},{e,a,f}]`, aliases `a → a-new`, `f → f-new`, liveness set
`{a-new, e, d, c, f-new}`, cap 4 — yields a duplicate-free list of at most 4
live ids. -/
theorem c8_witness :
    (buildReusableSourceIds
        [⟨["a", "b"]⟩, ⟨["b", "c", "d"]⟩, ⟨["e", "a", "f"]⟩]
        (fun s => if s = "a" then "a-new" else if s = "f" then "f-new" else s)
        ["a-new", "e", "d", "c", "f-new"] 4 []).Nodup ∧
    (buildReusableSourceIds
        [⟨["a", "b"]⟩, ⟨["b", "c", "d"]⟩, ⟨["e", "a", "f"]⟩]
        (fun s => if s = "a" then "a-new" else if s = "f" then "f-new" else s)
        ["a-new", "e", "d", "c", "f-new"] 4 []).length ≤ max 1 4 :=
  ⟨(c8_carry_over_selector [⟨["a", "b"]⟩, ⟨["b", "c", "d"]⟩, ⟨["e", "a", "f"]⟩]
      (fun s => if s = "a" then "a-new" else if s = "f" then "f-new" else s)
      ["a-new", "e", "d", "c", "f-new"] 4 []).1,
   (c8_carry_over_selector [⟨["a", "b"]⟩, ⟨["b", "c", "d"]⟩, ⟨["e", "a", "f"]⟩]
      (fun s => if s = "a" then "a-new" else if s = "f" then "f-new" else s)
      ["a-new", "e", "d", "c", "f-new"] 4 []).2.2.1⟩

/-!
## Retrieval Selector (`src/search/BM25.ts`, selection stage of `search`)

The selection stage of `BM25.search` is embedded over the per-document scores
and matched-term counts that the scoring loop produces — the ranking, cutoff
and fallback behaviour depends only on those values.  JavaScript's IEEE-double
scores are embedded as exact rationals, and `localeCompare` on vault paths as
the code-point order.  `Array.prototype.sort` with the comparator (a total
order, proved below) is embedded as insertion sort under the same order.
-/

structure RankedDoc where
  path : String
  score : ℚ
  matchedTermCount : Nat
deriving DecidableEq

/-- The sort comparator of `search`: score descending, tie-break by
matched-term count descending, then path ascending. -/
def rankLE (a b : RankedDoc) : Prop :=
  b.score < a.score ∨ (a.score = b.score ∧
    (b.matchedTermCount < a.matchedTermCount ∨
      (a.matchedTermCount = b.matchedTermCount ∧ a.path ≤ b.path)))

instance : DecidableRel rankLE := fun a b => by
  unfold rankLE
  infer_instance

theorem rankLE_total (a b : RankedDoc) : rankLE a b ∨ rankLE b a := by
  unfold rankLE
  rcases lt_trichotomy a.score b.score with h | h | h
  · right
    exact Or.inl h
  · rcases lt_trichotomy a.matchedTermCount b.matchedTermCount with h2 | h2 | h2
    · right
      exact Or.inr ⟨h.symm, Or.inl h2⟩
    · rcases le_total a.path b.path with h3 | h3
      · exact Or.inl (Or.inr ⟨h, Or.inr ⟨h2, h3⟩⟩)
      · exact Or.inr (Or.inr ⟨h.symm, Or.inr ⟨h2.symm, h3⟩⟩)
    · left
      exact Or.inr ⟨h, Or.inl h2⟩
  · left
    exact Or.inl h

theorem rankLE_trans (a b c : RankedDoc) (hab : rankLE a b) (hbc : rankLE b c) :
    rankLE a c := by
  unfold rankLE at *
  rcases hab with h1 | ⟨h1, h1'⟩
  · rcases hbc with h2 | ⟨h2, h2'⟩
    · exact Or.inl (h2.trans h1)
    · exact Or.inl (h2 ▸ h1)
  · rcases hbc with h2 | ⟨h2, h2'⟩
    · exact Or.inl (by rw [h1]; exact h2)
    · refine Or.inr ⟨h1.trans h2, ?_⟩
      rcases h1' with h3 | ⟨h3, h3'⟩
      · rcases h2' with h4 | ⟨h4, h4'⟩
        · exact Or.inl (h4.trans h3)
        · exact Or.inl (h4 ▸ h3)
      · rcases h2' with h4 | ⟨h4, h4'⟩
        · exact Or.inl (by rw [h3]; exact h4)
        · exact Or.inr ⟨h3.trans h4, h3'.trans h4'⟩

theorem rankLE_antisymm (a b : RankedDoc) (hab : rankLE a b) (hba : rankLE b a) :
    a = b := by
  unfold rankLE at *
  obtain ⟨pa, sa, ma⟩ := a
  obtain ⟨pb, sb, mb⟩ := b
  simp only at *
  rcases hab with h1 | ⟨h1, h1'⟩
  · rcases hba with h2 | ⟨h2, h2'⟩
    · exact absurd (h1.trans h2) (lt_irrefl _)
    · exact absurd h1 (by rw [h2]; exact lt_irrefl _)
  · rcases hba with h2 | ⟨h2, h2'⟩
    · exact absurd h2 (by rw [h1]; exact lt_irrefl _)
    · subst h1
      rcases h1' with h3 | ⟨h3, h3'⟩
      · rcases h2' with h4 | ⟨h4, h4'⟩
        · exact absurd (h3.trans h4) (lt_irrefl _)
        · exact absurd h3 (by rw [h4]; exact lt_irrefl _)
      · rcases h2' with h4 | ⟨h4, h4'⟩
        · exact absurd h4 (by rw [h3]; exact lt_irrefl _)
        · subst h3
          simp [le_antisymm h3' h4']

instance : IsTotal RankedDoc rankLE := ⟨rankLE_total⟩

instance : IsTrans RankedDoc rankLE := ⟨rankLE_trans⟩

/-- The ranking stage of `search`: documents with zero (or negative) score are
excluded, the rest sorted by the comparator. -/
def rankDocuments (docs : List RankedDoc) : List RankedDoc :=
  (docs.filter (fun d => decide (0 < d.score))).insertionSort rankLE

/-- `topResults[0]?.score ?? 0` of the clamped top-N list. -/
def bm25TopScore (docs : List RankedDoc) (topN : Nat) : ℚ :=
  ((((rankDocuments docs).take (max 1 topN)).head?).map RankedDoc.score).getD 0

/-- `threshold = topScore * cutoffRatio` with the cutoff clamped to `[0, 1]`. -/
def bm25Threshold (docs : List RankedDoc) (topN : Nat) (cutoff : ℚ) : ℚ :=
  bm25TopScore docs topN * max 0 (min 1 cutoff)

/-- The selection stage of `search`: clamp the parameters, rank, take the
top N, keep documents at or above the threshold, and fall back to the first
`minK` entries of the top-N list when fewer than `minK` survive.  Returns
`(topResults, selected)`. -/
def bm25Select (docs : List RankedDoc) (topN minK : Nat) (cutoff : ℚ) :
    List RankedDoc × List RankedDoc :=
  let topResults := (rankDocuments docs).take (max 1 topN)
  let selected := topResults.filter (fun d => decide (bm25Threshold docs topN cutoff ≤ d.score))
  (topResults,
    if selected.length < max 1 minK then
      topResults.take (min (max 1 minK) topResults.length)
    else selected)

/-- C5: the Retrieval Selector excludes every zero-score document, ranks by
score descending with ties broken by matched-term count descending then path
ascending (a total, transitive, antisymmetric order), keeps from the top-N
list the documents scoring at or above `topScore * cutoffRatio`, and falls
back to the first `minK` entries of the top-N list (not of the filtered list)
when fewer than `minK` remain. -/
theorem c5_selector_ranking_cutoff_fallback (docs : List RankedDoc)
    (topN minK : Nat) (cutoff : ℚ) :
    (∀ a b, rankLE a b ∨ rankLE b a) ∧
    (∀ a b c, rankLE a b → rankLE b c → rankLE a c) ∧
    (∀ a b, rankLE a b → rankLE b a → a = b) ∧
    (∀ d ∈ (bm25Select docs topN minK cutoff).1, 0 < d.score ∧ d ∈ docs) ∧
    (∀ d ∈ (bm25Select docs topN minK cutoff).2, 0 < d.score ∧ d ∈ docs) ∧
    (bm25Select docs topN minK cutoff).1.Sorted rankLE ∧
    (bm25Select docs topN minK cutoff).2.Sorted rankLE ∧
    (∀ d ∈ (bm25Select docs topN minK cutoff).2,
      d ∈ (bm25Select docs topN minK cutoff).1) ∧
    (max 1 minK ≤ ((bm25Select docs topN minK cutoff).1.filter
        (fun d => decide (bm25Threshold docs topN cutoff ≤ d.score))).length →
      (bm25Select docs topN minK cutoff).2 =
        (bm25Select docs topN minK cutoff).1.filter
          (fun d => decide (bm25Threshold docs topN cutoff ≤ d.score))) ∧
    (((bm25Select docs topN minK cutoff).1.filter
        (fun d => decide (bm25Threshold docs topN cutoff ≤ d.score))).length < max 1 minK →
      (bm25Select docs topN minK cutoff).2 =
        (bm25Select docs topN minK cutoff).1.take
          (min (max 1 minK) (bm25Select docs topN minK cutoff).1.length)) := by
  have htop_mem : ∀ d ∈ (bm25Select docs topN minK cutoff).1, 0 < d.score ∧ d ∈ docs := by
    intro d hd
    simp only [bm25Select] at hd
    have hd2 : d ∈ rankDocuments docs := List.take_subset _ _ hd
    have hd3 : d ∈ docs.filter (fun d => decide (0 < d.score)) :=
      (List.perm_insertionSort rankLE _).subset hd2
    have := List.mem_filter.mp hd3
    exact ⟨by simpa using this.2, this.1⟩
  have hsel_top : ∀ d ∈ (bm25Select docs topN minK cutoff).2,
      d ∈ (bm25Select docs topN minK cutoff).1 := by
    intro d hd
    simp only [bm25Select] at hd ⊢
    split at hd
    · exact List.take_subset _ _ hd
    · exact List.mem_of_mem_filter hd
  have hsorted_rank : (rankDocuments docs).Sorted rankLE :=
    List.sorted_insertionSort rankLE _
  have hsorted_top : (bm25Select docs topN minK cutoff).1.Sorted rankLE := by
    simp only [bm25Select]
    exact hsorted_rank.sublist (List.take_sublist _ _)
  refine ⟨rankLE_total, rankLE_trans, rankLE_antisymm, htop_mem,
    fun d hd => htop_mem d (hsel_top d hd), hsorted_top, ?_, hsel_top, ?_, ?_⟩
  · simp only [bm25Select]
    split
    · exact (hsorted_rank.sublist (List.take_sublist _ _)).sublist (List.take_sublist _ _)
    · exact (hsorted_rank.sublist (List.take_sublist _ _)).sublist (List.filter_sublist _)
  · intro h
    have h2 : max 1 minK ≤ (((rankDocuments docs).take (max 1 topN)).filter
        (fun d => decide (bm25Threshold docs topN cutoff ≤ d.score))).length := h
    simp only [bm25Select]
    rw [if_neg (not_lt.mpr h2)]
  · intro h
    have h2 : (((rankDocuments docs).take (max 1 topN)).filter
        (fun d => decide (bm25Threshold docs topN cutoff ≤ d.score))).length < max 1 minK := h
    simp only [bm25Select]
    rw [if_pos h2]

/-- C5 witness: one positive-score document and a zero-score one with
`topN = 15`, `cutoffRatio = 2/5`, `minK = 3` — the zero-score document is
excluded and the `minK` fallback returns the surviving top list. -/
theorem c5_witness :
    (bm25Select [⟨"a.md", 1, 1⟩, ⟨"c.md", 0, 0⟩] 15 3 (2/5)).2 = [⟨"a.md", 1, 1⟩] ∧
    (∀ d ∈ (bm25Select [⟨"a.md", 1, 1⟩, ⟨"c.md", 0, 0⟩] 15 3 (2/5)).2,
      0 < d.score ∧ d ∈ [⟨"a.md", 1, 1⟩, ⟨"c.md", 0, 0⟩]) := by
  have hrank : rankDocuments [⟨"a.md", 1, 1⟩, ⟨"c.md", 0, 0⟩] = [⟨"a.md", 1, 1⟩] := by
    norm_num [rankDocuments, List.filter, List.insertionSort, List.orderedInsert]
  have htop : (bm25Select [⟨"a.md", 1, 1⟩, ⟨"c.md", 0, 0⟩] 15 3 (2/5)).1 =
      [⟨"a.md", 1, 1⟩] := by
    show ((rankDocuments [⟨"a.md", 1, 1⟩, ⟨"c.md", 0, 0⟩]).take (max 1 15)) = _
    rw [hrank]
    rfl
  have hthr : bm25Threshold [⟨"a.md", 1, 1⟩, ⟨"c.md", 0, 0⟩] 15 (2/5) = 2/5 := by
    rw [bm25Threshold, bm25TopScore, hrank]
    norm_num
  have hfil : ((bm25Select [⟨"a.md", 1, 1⟩, ⟨"c.md", 0, 0⟩] 15 3 (2/5)).1.filter
      (fun d => decide (bm25Threshold [⟨"a.md", 1, 1⟩, ⟨"c.md", 0, 0⟩] 15 (2/5) ≤
        d.score))).length = 1 := by
    rw [htop, hthr]
    norm_num [List.filter]
  constructor
  · have h := (c5_selector_ranking_cutoff_fallback [⟨"a.md", 1, 1⟩, ⟨"c.md", 0, 0⟩]
      15 3 (2/5)).2.2.2.2.2.2.2.2.2
    rw [h (by rw [hfil]; norm_num), htop]
    decide
  · exact (c5_selector_ranking_cutoff_fallback [⟨"a.md", 1, 1⟩, ⟨"c.md", 0, 0⟩]
      15 3 (2/5)).2.2.2.2.1

/-!
## Source Registry (`src/storage/PluginDataStore.ts` snapshot)

The registry state mirrors `SourceRegistryState` from the plugin types:
`byPath`, `bySourceId`, the two segmented queues, and `sourceIdAliases` (the
alias map declared in the types; its operations are the spec-modelled ones
above).  The `protected` queue is named `protectedQ` (`protected` is a
reserved word here).  All store methods are embedded as pure state
transformers; `new Date().toISOString()` is an explicit `now` argument.
-/

inductive SourceSegment
  | probation
  | protectedSeg
deriving DecidableEq

structure SourceRegistryEntry where
  path : String
  sourceId : String
  title : String
  addedAt : String
  lastUsedAt : String
  useCount : Nat
  contentHash : Option String
  segment : SourceSegment
  stale : Bool
deriving DecidableEq

structure SourceRegistryState where
  byPath : List (String × SourceRegistryEntry)
  bySourceId : List (String × String)
  sourceIdAliases : List (String × String)
  probation : List String
  protectedQ : List String
deriving DecidableEq

/-- `getSourceEntryByPath`. -/
def getSourceEntryByPath (path : String) (st : SourceRegistryState) :
    Option SourceRegistryEntry :=
  lookupA path st.byPath

/-- Modelled from the spec: `getSourceEntriesByContentHash` (the current
`PluginDataStore` method is not among the provided sources; spec §4.5's
Rename branch needs "some other entry [that] shares the same content hash").
Returns the entries whose stored hash equals the given one, in `byPath`
order. -/
def getSourceEntriesByContentHash (h : String) (st : SourceRegistryState) :
    List SourceRegistryEntry :=
  (st.byPath.map Prod.snd).filter (fun e => e.contentHash = some h)

/-- `removePathFromQueue`. -/
def removePathFromQueue (path : String) (segment : SourceSegment)
    (st : SourceRegistryState) : SourceRegistryState :=
  match segment with
  | .probation => { st with probation := st.probation.filter (fun p => p ≠ path) }
  | .protectedSeg => { st with protectedQ := st.protectedQ.filter (fun p => p ≠ path) }

/-- `movePathToQueueFront`: remove from both queues, then unshift onto the
target queue. -/
def movePathToQueueFront (path : String) (segment : SourceSegment)
    (st : SourceRegistryState) : SourceRegistryState :=
  let st1 := removePathFromQueue path .probation st
  let st2 := removePathFromQueue path .protectedSeg st1
  match segment with
  | .probation => { st2 with probation := path :: st2.probation }
  | .protectedSeg => { st2 with protectedQ := path :: st2.protectedQ }

/-- One queue-normalization pass of `cleanupQueues`: keep paths that satisfy
`keep`, dropping duplicates, preserving first-occurrence order. -/
def dedupKeep (keep : String → Bool) : List String → List String → List String
  | [], acc => acc
  | p :: rest, acc =>
    if keep p ∧ p ∉ acc then dedupKeep keep rest (acc ++ [p])
    else dedupKeep keep rest acc

/-- `cleanupQueues`: drop queue entries whose path is unknown to `byPath` and
duplicates, and drop protected entries that also survived in probation. -/
def cleanupQueues (st : SourceRegistryState) : SourceRegistryState :=
  let known := keysA st.byPath
  let uniqProbation := dedupKeep (fun p => decide (p ∈ known)) st.probation []
  let uniqProtected :=
    dedupKeep (fun p => decide (p ∈ known) && decide (p ∉ uniqProbation)) st.protectedQ []
  { st with probation := uniqProbation, protectedQ := uniqProtected }

/-- `removeSourceByPath`. -/
def removeSourceByPath (path : String) (st : SourceRegistryState) :
    Option SourceRegistryEntry × SourceRegistryState :=
  match lookupA path st.byPath with
  | none => (none, st)
  | some entry =>
    (some entry,
      { st with
        byPath := eraseA path st.byPath
        bySourceId := eraseA entry.sourceId st.bySourceId
        probation := st.probation.filter (fun p => p ≠ path)
        protectedQ := st.protectedQ.filter (fun p => p ≠ path) })

/-- `getEvictionCandidatePath`: clean the queues; when probation is empty and
protected is not, pop the protected tail and demote it into probation; return
the probation tail. -/
def getEvictionCandidatePath (st : SourceRegistryState) :
    Option String × SourceRegistryState :=
  let st1 := cleanupQueues st
  let st2 :=
    if st1.probation.isEmpty && ! st1.protectedQ.isEmpty then
      match st1.protectedQ.getLast? with
      | none => st1
      | some demotedPath =>
        let stPop := { st1 with protectedQ := st1.protectedQ.dropLast }
        if demotedPath = "" then stPop
        else
          let stMove := movePathToQueueFront demotedPath .probation stPop
          match lookupA demotedPath stMove.byPath with
          | none => stMove
          | some entry =>
            { stMove with
              byPath := insertA demotedPath { entry with segment := .probation }
                stMove.byPath }
    else st1
  (st2.probation.getLast?, st2)

theorem movePathToQueueFront_protectedQ_probation (path : String)
    (st : SourceRegistryState) :
    (movePathToQueueFront path .probation st).protectedQ =
      st.protectedQ.filter (fun p => p ≠ path) := rfl

/-- `enforceProtectedCap`: demote the protected tail into probation until the
protected queue fits under `max 1 protectedCap`. -/
def enforceProtectedCap (protectedCap : Nat) (st : SourceRegistryState) :
    SourceRegistryState :=
  if h : max 1 protectedCap < st.protectedQ.length then
    match st.protectedQ.getLast? with
    | none => st
    | some demotedPath =>
      let stPop := { st with protectedQ := st.protectedQ.dropLast }
      if demotedPath = "" then stPop
      else
        let stMove := movePathToQueueFront demotedPath .probation stPop
        let stSeg :=
          match lookupA demotedPath stMove.byPath with
          | none => stMove
          | some entry =>
            { stMove with
              byPath := insertA demotedPath { entry with segment := .probation }
                stMove.byPath }
        enforceProtectedCap protectedCap stSeg
  else st
termination_by st.protectedQ.length
decreasing_by
  have hlen : st.protectedQ.dropLast.length < st.protectedQ.length := by
    rw [List.length_dropLast]
    omega
  split
  · refine lt_of_le_of_lt ?_ hlen
    rw [movePathToQueueFront_protectedQ_probation]
    exact List.length_filter_le _ _
  · refine lt_of_le_of_lt ?_ hlen
    rw [movePathToQueueFront_protectedQ_probation]
    exact List.length_filter_le _ _

/-- `markSourceUsed`: refresh the entry's recency, promote probation →
protected on reuse (or re-front within the current queue), then cap the
protected queue. -/
def markSourceUsed (now : String) (path : String) (protectedCap : Nat)
    (st : SourceRegistryState) : SourceRegistryState :=
  match lookupA path st.byPath with
  | none => st
  | some entry =>
    let entry1 := { entry with lastUsedAt := now, useCount := entry.useCount + 1,
                               stale := false }
    let st1 := { st with byPath := insertA path entry1 st.byPath }
    let st2 :=
      if st1.protectedQ.contains path then
        let stM := movePathToQueueFront path .protectedSeg st1
        { stM with byPath := insertA path { entry1 with segment := .protectedSeg } stM.byPath }
      else if st1.probation.contains path then
        let stR := removePathFromQueue path .probation st1
        let stM := movePathToQueueFront path .protectedSeg stR
        { stM with byPath := insertA path { entry1 with segment := .protectedSeg } stM.byPath }
      else
        let stM := movePathToQueueFront path .probation st1
        { stM with byPath := insertA path { entry1 with segment := .probation } stM.byPath }
    enforceProtectedCap protectedCap st2

/-- `upsertSource`: drop a previous reverse mapping of this path, evict
another path that owned this source id, write the merged entry, and front the
path into probation when it is in neither queue. -/
def upsertSource (now : String) (path sourceId title : String)
    (contentHash : Option String) (st : SourceRegistryState) :
    SourceRegistryEntry × SourceRegistryState :=
  let existingForPath := lookupA path st.byPath
  let st1 :=
    match existingForPath with
    | some e =>
      if e.sourceId ≠ sourceId then { st with bySourceId := eraseA e.sourceId st.bySourceId }
      else st
    | none => st
  let st2 :=
    match lookupA sourceId st1.bySourceId with
    | some existingPath =>
      if existingPath ≠ path then (removeSourceByPath existingPath st1).2 else st1
    | none => st1
  let nextEntry : SourceRegistryEntry :=
    { path := path, sourceId := sourceId, title := title,
      addedAt := (existingForPath.map (fun e => e.addedAt)).getD now,
      lastUsedAt := now,
      useCount := (existingForPath.map (fun e => e.useCount)).getD 0,
      contentHash :=
        match contentHash with
        | some h => some h
        | none => existingForPath.bind (fun e => e.contentHash),
      segment := (existingForPath.map (fun e => e.segment)).getD .probation,
      stale := false }
  let st3 := { st2 with byPath := insertA path nextEntry st2.byPath,
                        bySourceId := insertA sourceId path st2.bySourceId }
  if ! st3.probation.contains path && ! st3.protectedQ.contains path then
    let stM := movePathToQueueFront path .probation st3
    let entry2 := { nextEntry with segment := SourceSegment.probation }
    let stSeg := { stM with byPath := insertA path entry2 stM.byPath }
    (entry2, cleanupQueues stSeg)
  else
    (nextEntry, cleanupQueues st3)

/-- `reconcileSources` as it stands in the provided `PluginDataStore`
snapshot: every entry whose *stored* `sourceId` is in the remote set is
unmarked stale and re-indexed; every other entry is marked stale and its
reverse mapping dropped.  The alias map is never consulted. -/
def reconcileSources (remoteSourceIds : List String) (st : SourceRegistryState) :
    SourceRegistryState :=
  let step := fun (acc : SourceRegistryState) (pe : String × SourceRegistryEntry) =>
    match lookupA pe.1 acc.byPath with
    | none => acc
    | some entry =>
      if entry.sourceId ∈ remoteSourceIds then
        { acc with byPath := insertA pe.1 { entry with stale := false } acc.byPath,
                   bySourceId := insertA entry.sourceId pe.1 acc.bySourceId }
      else
        { acc with byPath := insertA pe.1 { entry with stale := true } acc.byPath,
                   bySourceId := eraseA entry.sourceId acc.bySourceId }
  cleanupQueues (st.byPath.foldl step st)

theorem mem_dedupKeep (keep : String → Bool) :
    ∀ (l acc : List String) (x : String), x ∈ dedupKeep keep l acc →
      x ∈ acc ∨ (keep x = true ∧ x ∈ l)
  | [], acc, x, h => by
    simp only [dedupKeep] at h
    exact Or.inl h
  | p :: rest, acc, x, h => by
    rw [dedupKeep] at h
    split at h
    · rcases mem_dedupKeep keep rest (acc ++ [p]) x h with h' | ⟨hk, hm⟩
      · rcases List.mem_append.mp h' with h'' | h''
        · exact Or.inl h''
        · simp at h''
          subst h''
          rename_i hcond
          exact Or.inr ⟨hcond.1, by simp⟩
      · exact Or.inr ⟨hk, List.mem_cons_of_mem _ hm⟩
    · rcases mem_dedupKeep keep rest acc x h with h' | ⟨hk, hm⟩
      · exact Or.inl h'
      · exact Or.inr ⟨hk, List.mem_cons_of_mem _ hm⟩

theorem cleanupQueues_byPath (st : SourceRegistryState) :
    (cleanupQueues st).byPath = st.byPath := rfl

theorem cleanupQueues_disjoint (st : SourceRegistryState) :
    ∀ x ∈ (cleanupQueues st).protectedQ, x ∉ (cleanupQueues st).probation := by
  intro x hx
  simp only [cleanupQueues] at hx ⊢
  rcases mem_dedupKeep _ _ _ _ hx with h | ⟨hk, _⟩
  · simp at h
  · simp only [Bool.and_eq_true, decide_eq_true_eq] at hk
    exact hk.2

theorem cleanupQueues_probation_known (st : SourceRegistryState) :
    ∀ x ∈ (cleanupQueues st).probation, x ∈ keysA st.byPath := by
  intro x hx
  simp only [cleanupQueues] at hx
  rcases mem_dedupKeep _ _ _ _ hx with h | ⟨hk, _⟩
  · simp at h
  · simpa using hk

theorem cleanupQueues_protected_known (st : SourceRegistryState) :
    ∀ x ∈ (cleanupQueues st).protectedQ, x ∈ keysA st.byPath := by
  intro x hx
  simp only [cleanupQueues] at hx
  rcases mem_dedupKeep _ _ _ _ hx with h | ⟨hk, _⟩
  · simp at h
  · simp only [Bool.and_eq_true, decide_eq_true_eq] at hk
    exact hk.1

theorem length_insertA_of_mem {κ α : Type} [DecidableEq κ] {k : κ} (v : α)
    {m : List (κ × α)} (h : k ∈ keysA m) : (insertA k v m).length = m.length := by
  induction m with
  | nil => simp [keysA] at h
  | cons hd tl ih =>
    obtain ⟨k', v'⟩ := hd
    by_cases hk : k' = k
    · simp [insertA, hk]
    · simp only [keysA, List.map_cons, List.mem_cons] at h
      rcases h with h | h
      · exact absurd h.symm hk
      · simp [insertA, hk, ih h]

theorem eraseA_eq_filter {κ α : Type} [DecidableEq κ] (k : κ) :
    ∀ m : List (κ × α), eraseA k m = m.filter (fun p => decide (p.1 ≠ k))
  | [] => rfl
  | (k', v') :: tl => by
    by_cases hk : k' = k <;>
      simp [eraseA, hk, List.filter, eraseA_eq_filter k tl]

theorem length_eraseA_lt {κ α : Type} [DecidableEq κ] {k : κ}
    {m : List (κ × α)} (h : k ∈ keysA m) : (eraseA k m).length < m.length := by
  rw [eraseA_eq_filter]
  apply List.length_filter_lt_length_iff_exists.mpr
  obtain ⟨p, hp, hpk⟩ := List.mem_map.mp h
  exact ⟨p, hp, by simp [hpk]⟩

theorem getLast?_mem {α : Type} {l : List α} {x : α} (h : l.getLast? = some x) : x ∈ l :=
  mem_of_getLast?_eq h

/-- When the cleaned probation queue is non-empty, the eviction candidate is
its tail, no demotion happens, and the candidate is not in the protected
queue. -/
theorem getEvictionCandidatePath_of_probation_ne_nil (st : SourceRegistryState)
    (h : (cleanupQueues st).probation ≠ []) :
    (getEvictionCandidatePath st).2 = cleanupQueues st ∧
    (getEvictionCandidatePath st).1 = (cleanupQueues st).probation.getLast? ∧
    ∃ c, (getEvictionCandidatePath st).1 = some c ∧
      c ∈ (cleanupQueues st).probation ∧ c ∉ (cleanupQueues st).protectedQ := by
  have hcond : ((cleanupQueues st).probation.isEmpty &&
      ! (cleanupQueues st).protectedQ.isEmpty) = false := by
    have : (cleanupQueues st).probation.isEmpty = false := by
      cases hp : (cleanupQueues st).probation with
      | nil => exact absurd hp h
      | cons a l => simp
    simp [this]
  have hres : getEvictionCandidatePath st =
      ((cleanupQueues st).probation.getLast?, cleanupQueues st) := by
    rw [getEvictionCandidatePath]
    simp only [hcond, Bool.false_eq_true, if_false]
  rw [hres]
  refine ⟨rfl, rfl, ?_⟩
  cases hl : (cleanupQueues st).probation.getLast? with
  | none =>
    rw [List.getLast?_eq_none_iff] at hl
    exact absurd hl h
  | some c =>
    have hmem := getLast?_mem hl
    exact ⟨c, rfl, hmem, fun hc => cleanupQueues_disjoint st c hc hmem⟩

/-- Whatever branch `getEvictionCandidatePath` takes, a returned candidate is
a known `byPath` key of the (unchanged-cardinality) result state. -/
theorem getEvictionCandidatePath_of_both_empty (st : SourceRegistryState)
    (hprob : (cleanupQueues st).probation = [])
    (hprot : (cleanupQueues st).protectedQ = []) :
    getEvictionCandidatePath st = (none, cleanupQueues st) := by
  rw [getEvictionCandidatePath]
  simp [hprob, hprot]

theorem getEvictionCandidatePath_of_empty_demoted_path (st : SourceRegistryState)
    (hprob : (cleanupQueues st).probation = [])
    (hlast : (cleanupQueues st).protectedQ.getLast? = some "") :
    (getEvictionCandidatePath st).1 = none := by
  have hprotne : (cleanupQueues st).protectedQ ≠ [] := by
    intro hz
    rw [hz] at hlast
    simp at hlast
  have hcond : ((cleanupQueues st).probation.isEmpty &&
      ! (cleanupQueues st).protectedQ.isEmpty) = true := by
    simp [hprob, hprotne]
  rw [getEvictionCandidatePath]
  simp only [hcond, if_true, hlast, if_pos]
  simp [hprob]

theorem getEvictionCandidatePath_demote (st : SourceRegistryState) (d : String)
    (hprob : (cleanupQueues st).probation = [])
    (hlast : (cleanupQueues st).protectedQ.getLast? = some d)
    (hd : d ≠ "") :
    (getEvictionCandidatePath st).1 = some d ∧
    (getEvictionCandidatePath st).2.byPath.length = st.byPath.length ∧
    d ∈ keysA (getEvictionCandidatePath st).2.byPath := by
  have hprotne : (cleanupQueues st).protectedQ ≠ [] := by
    intro hz
    rw [hz] at hlast
    simp at hlast
  have hcond : ((cleanupQueues st).probation.isEmpty &&
      ! (cleanupQueues st).protectedQ.isEmpty) = true := by
    simp [hprob, hprotne]
  have hdmem : d ∈ keysA st.byPath :=
    cleanupQueues_protected_known st d (getLast?_mem hlast)
  have hmoveProb : (movePathToQueueFront d .probation
      { cleanupQueues st with
        protectedQ := (cleanupQueues st).protectedQ.dropLast }).probation = [d] := by
    simp [movePathToQueueFront, removePathFromQueue, hprob]
  have hmoveByPath : (movePathToQueueFront d .probation
      { cleanupQueues st with
        protectedQ := (cleanupQueues st).protectedQ.dropLast }).byPath = st.byPath := rfl
  rw [getEvictionCandidatePath]
  simp only [hcond, if_true, hlast, hd, if_false]
  split
  · refine ⟨?_, ?_, ?_⟩
    · rw [hmoveProb]
      rfl
    · rw [hmoveByPath]
    · rw [hmoveByPath]
      exact hdmem
  · rename_i entry hlook
    refine ⟨?_, ?_, ?_⟩
    · show (movePathToQueueFront d .probation _).probation.getLast? = some d
      rw [hmoveProb]
      rfl
    · show (insertA d _ (movePathToQueueFront d .probation _).byPath).length = _
      rw [length_insertA_of_mem]
      · rw [hmoveByPath]
      · rw [hmoveByPath]
        exact hdmem
    · show d ∈ keysA (insertA d _ _)
      rw [mem_keysA_insertA]
      exact Or.inl rfl

/-- Whatever branch `getEvictionCandidatePath` takes, a returned candidate is
a known `byPath` key of the result state, and the `byPath` map keeps its
size. -/
theorem getEvictionCandidatePath_candidate_known (st : SourceRegistryState) (c : String)
    (h : (getEvictionCandidatePath st).1 = some c) :
    c ∈ keysA (getEvictionCandidatePath st).2.byPath ∧
    (getEvictionCandidatePath st).2.byPath.length = st.byPath.length := by
  by_cases hprob : (cleanupQueues st).probation = []
  · cases hlast : (cleanupQueues st).protectedQ.getLast? with
    | none =>
      have hprot : (cleanupQueues st).protectedQ = [] :=
        List.getLast?_eq_none_iff.mp hlast
      rw [getEvictionCandidatePath_of_both_empty st hprob hprot] at h
      simp at h
    | some d =>
      by_cases hd : d = ""
      · subst hd
        rw [getEvictionCandidatePath_of_empty_demoted_path st hprob hlast] at h
        simp at h
      · obtain ⟨h1, h2, h3⟩ := getEvictionCandidatePath_demote st d hprob hlast hd
        rw [h1] at h
        cases h
        exact ⟨h3, h2⟩
  · obtain ⟨hst, hcand, hex⟩ :=
      getEvictionCandidatePath_of_probation_ne_nil st hprob
    obtain ⟨cc, hcc, hmem, hnprot⟩ := hex
    rw [hcc] at h
    cases h
    rw [hst]
    rw [cleanupQueues_byPath]
    exact ⟨cleanupQueues_probation_known st c hmem, rfl⟩

/-- The failing input for C4: the repository's own `reconcileSources` test
scenario — one entry whose stored id `source-old` is aliased to `source-new`,
and a remote listing containing only `source-new`. -/
def c4State : SourceRegistryState :=
  { byPath := [("docs/heapsort.md",
      { path := "docs/heapsort.md", sourceId := "source-old",
        title := "docs/heapsort.md", addedAt := "t0", lastUsedAt := "t0",
        useCount := 1, contentHash := some "hash-1", segment := .probation,
        stale := false })],
    bySourceId := [("source-old", "docs/heapsort.md")],
    sourceIdAliases := [("source-old", "source-new")],
    probation := ["docs/heapsort.md"],
    protectedQ := [] }

/-- C4 (code bug): the provided `reconcileSources` never resolves an entry's
id through the alias map — at the repository's own test scenario
(`reconcileSources keeps aliased source active when resolved id exists
remotely`), the entry's id resolves to `source-new`, which is in the remote
set, yet the code marks the entry stale, keeps its stored id `source-old`,
and drops its reverse mapping, where the claim (and the test) require
not-stale with the id rewritten to the canonical `source-new`. -/
theorem c4_reconcile_skips_alias_resolution :
    resolveSourceId c4State.sourceIdAliases "source-old" = "source-new" ∧
    (lookupA "docs/heapsort.md"
        (reconcileSources ["source-new"] c4State).byPath).map
      (fun e => e.stale) = some true ∧
    (lookupA "docs/heapsort.md"
        (reconcileSources ["source-new"] c4State).byPath).map
      (fun e => e.sourceId) = some "source-old" ∧
    lookupA "source-old" (reconcileSources ["source-new"] c4State).bySourceId = none := by
  refine ⟨?_, by decide, by decide, by decide⟩
  have h1 : lookupA "source-old" c4State.sourceIdAliases = some "source-new" := by decide
  have h2 : resolveFrom c4State.sourceIdAliases [] "source-old" =
      ((resolveFrom c4State.sourceIdAliases ["source-old"] "source-new").1,
       (resolveFrom c4State.sourceIdAliases ["source-old"] "source-new").2 + 1) :=
    resolveFrom_of_alias (by simp) h1
  have h3 : resolveFrom c4State.sourceIdAliases ["source-old"] "source-new" =
      ("source-new", 0) :=
    resolveFrom_of_no_alias (by decide) (by decide)
  rw [resolveSourceId, h2, h3]

/-!
## Source synchronizer (`src/plugin/SourcePreparationService.ts`)

The synchronizer is embedded with explicit state passing.  The remote
tool-call capability is abstracted to a script: a function from the running
call counter to the outcome of that call — either a thrown transport error or
a result value reduced to the two projections the code reads
(`extractSourceId` and `getToolFailure` of `SettingsTab`).  Every issued
remote call is appended to a trace, so call ordering is observable.  Errors
are an inductive type with one constructor per `throw` site, so an error's
origin stays distinguishable; the `while` loop of `evictUntilCapacity` is
given explicit fuel, with `outOfFuel` as the modelling artifact for
exhausting it (shown unreachable for sufficient fuel).  `remoteSourceIds` is
a JS `Set`, so adding is membership-guarded and deleting removes every
occurrence (a reachable set state never holds duplicates).
-/

/-- The value of `SOURCE_TARGET_CAPACITY` in `types.ts`:
`MAX_NOTEBOOK_SOURCES (300) - SOURCE_HEADROOM (10)`. -/
def SOURCE_TARGET_CAPACITY : Nat := 300 - 10

/-- The message of the capacity error thrown by `evictUntilCapacity`. -/
def CAPACITY_ERROR_MESSAGE : String :=
  "Notebook source capacity reached but no managed eviction candidate is available."

/-- A tool result, reduced to the projections the synchronizer reads:
`extractSourceId` and `getToolFailure`. -/
structure ToolResult where
  sourceId : Option String
  failure : Option String
deriving DecidableEq

/-- The outcome of one `callTool` invocation: the promise rejects with an
error message, or resolves to a result value. -/
inductive ToolOutcome
  | thrown (message : String)
  | result (r : ToolResult)
deriving DecidableEq

/-- `SourceUploadPart`: a text part or a file part. -/
inductive UploadPart
  | text (body title : String)
  | filePart (filePath : String)
deriving DecidableEq

/-- `SourceUploadPlan`. -/
structure UploadPlan where
  contentHash : String
  parts : List UploadPart
deriving DecidableEq

/-- A remote call issued through `callTool`, as recorded in the trace. -/
inductive RemoteCall
  | sourceAdd (notebookId : String) (part : UploadPart)
  | sourceDelete (sourceId : String)
deriving DecidableEq

/-- `SourceEvictionRecord` (`types.ts`). -/
structure SourceEvictionRecord where
  path : String
  sourceId : String
  evictedAt : String
  reason : String
deriving DecidableEq

/-- One `throw` site each of the synchronizer, plus `outOfFuel` for the
fuel-exhaustion modelling artifact. -/
inductive BatchError
  | toolThrown (message : String)
  | toolFailed (toolName failure : String)
  | noSourceId (path : String)
  | planHasNoParts (path : String)
  | planMultipart (path : String)
  | deleteFailed (failure : String)
  | capacityReached
  | outOfFuel
deriving DecidableEq

/-- The synchronizer's mutable context: the live remote-id set, the registry
store, the eviction records, and the tool-call capability (script, running
call counter, trace of issued calls). -/
structure SyncState where
  remoteSourceIds : List String
  store : SourceRegistryState
  evictions : List SourceEvictionRecord
  script : Nat → ToolOutcome
  calls : Nat
  trace : List RemoteCall

/-- JS `Set.add`. -/
def setAdd (id : String) (l : List String) : List String :=
  if id ∈ l then l else l ++ [id]

/-- JS `Set.delete` (removes every occurrence; idempotent). -/
def setErase (id : String) (l : List String) : List String :=
  l.filter (fun x => x ≠ id)

/-- Issue one remote call: read the script at the current counter, bump the
counter and record the call. -/
def callTool (call : RemoteCall) (s : SyncState) : ToolOutcome × SyncState :=
  (s.script s.calls,
   { s with calls := s.calls + 1, trace := s.trace ++ [call] })

/-- Does `needle` match at the head of the text? -/
def matchesAt : List Char → List Char → Bool
  | [], _ => true
  | _ :: _, [] => false
  | n :: ns, c :: cs => n = c && matchesAt ns cs

/-- Substring containment over character lists. -/
def containsSub (needle : List Char) : List Char → Bool
  | [] => needle.isEmpty
  | c :: rest => matchesAt needle (c :: rest) || containsSub needle rest

/-- `message.toLowerCase().includes("not found")`. -/
def mentionsNotFound (message : String) : Bool :=
  containsSub "not found".data (message.data.map Char.toLower)

/-- `getSingleUploadPart`: exactly one part, else throw. -/
def getSingleUploadPart (uploadPlan : UploadPlan) (path : String) :
    Except BatchError UploadPart :=
  match uploadPlan.parts with
  | [] => .error (.planHasNoParts path)
  | [part] => .ok part
  | _ => .error (.planMultipart path)

/-- `uploadSourceFromPlan`: take the single part, call `source_add`, require
success, and require a non-empty source id (`if (!sourceId) throw`). -/
def uploadSourceFromPlan (notebookId path : String) (uploadPlan : UploadPlan)
    (s : SyncState) : Except BatchError (String × SyncState) :=
  match getSingleUploadPart uploadPlan path with
  | .error e => .error e
  | .ok part =>
    match callTool (.sourceAdd notebookId part) s with
    | (.thrown msg, _) => .error (.toolThrown msg)
    | (.result r, s1) =>
      match r.failure with
      | some failure => .error (.toolFailed "source_add" failure)
      | none =>
        match r.sourceId with
        | none => .error (.noSourceId path)
        | some sourceId =>
          if sourceId = "" then .error (.noSourceId path) else .ok (sourceId, s1)

/-- `deleteSourceIfExists`: skip empty ids; call `source_delete`; treat a
missing failure, or any failure or thrown message containing "not found"
(case-insensitively), as a successful removal (the id leaves the remote set);
otherwise swallow in best-effort mode and propagate in strict mode. -/
def deleteSourceIfExists (sourceId : String) (bestEffort : Bool) (s : SyncState) :
    Except BatchError SyncState :=
  if sourceId = "" then .ok s
  else
    match callTool (.sourceDelete sourceId) s with
    | (.result r, s1) =>
      match r.failure with
      | none => .ok { s1 with remoteSourceIds := setErase sourceId s1.remoteSourceIds }
      | some failure =>
        if mentionsNotFound failure then
          .ok { s1 with remoteSourceIds := setErase sourceId s1.remoteSourceIds }
        else if bestEffort then .ok s1
        else .error (.deleteFailed failure)
    | (.thrown msg, s1) =>
      if mentionsNotFound msg then
        .ok { s1 with remoteSourceIds := setErase sourceId s1.remoteSourceIds }
      else if bestEffort then .ok s1
      else .error (.toolThrown msg)

/-- `replaceSourceWithLatestContent`: upload the new content first, add the
new id to the remote set, then best-effort delete the previous id. -/
def replaceSourceWithLatestContent (notebookId path : String)
    (uploadPlan : UploadPlan) (previousSourceId : String) (s : SyncState) :
    Except BatchError (String × SyncState) :=
  match uploadSourceFromPlan notebookId path uploadPlan s with
  | .error e => .error e
  | .ok (sourceId, s1) =>
    let s2 := { s1 with remoteSourceIds := setAdd sourceId s1.remoteSourceIds }
    match deleteSourceIfExists previousSourceId true s2 with
    | .error e => .error e
    | .ok s3 => .ok (sourceId, s3)

/-- `evictUntilCapacity`: while the live remote count is at or above
`SOURCE_TARGET_CAPACITY`, ask the Registry for a candidate (a falsy candidate
throws the capacity error), drop phantom or stale candidates locally, and
otherwise strict-delete the candidate's resolved id, remove it locally and
from the remote set, and record the eviction. -/
def evictUntilCapacity (now : String) : Nat → SyncState → Except BatchError SyncState
  | 0, _ => .error .outOfFuel
  | fuel + 1, s =>
    if s.remoteSourceIds.length < SOURCE_TARGET_CAPACITY then .ok s
    else
      match getEvictionCandidatePath s.store with
      | (none, _) => .error .capacityReached
      | (some candidatePath, store1) =>
        if candidatePath = "" then .error .capacityReached
        else
          let s1 := { s with store := store1 }
          match getSourceEntryByPath candidatePath s1.store with
          | none =>
            evictUntilCapacity now fuel
              { s1 with store := (removeSourceByPath candidatePath s1.store).2 }
          | some candidate =>
            if candidate.stale then
              evictUntilCapacity now fuel
                { s1 with store := (removeSourceByPath candidate.path s1.store).2 }
            else
              let resolvedCandidateSourceId :=
                resolveSourceId s1.store.sourceIdAliases candidate.sourceId
              match deleteSourceIfExists resolvedCandidateSourceId false s1 with
              | .error e => .error e
              | .ok s2 =>
                evictUntilCapacity now fuel
                  { s2 with
                    store := (removeSourceByPath candidate.path s2.store).2,
                    remoteSourceIds :=
                      setErase resolvedCandidateSourceId s2.remoteSourceIds,
                    evictions := s2.evictions ++
                      [{ path := candidate.path,
                         sourceId := resolvedCandidateSourceId,
                         evictedAt := now, reason := "source-capacity-target" }] }

/-- Newest-first comparator on `lastUsedAt` (the sort of
`findRenamedSourceCandidate`). -/
def laterUsed (a b : SourceRegistryEntry) : Prop :=
  b.lastUsedAt ≤ a.lastUsedAt

instance : DecidableRel laterUsed :=
  fun a b => inferInstanceAs (Decidable (b.lastUsedAt ≤ a.lastUsedAt))

/-- `findRenamedSourceCandidate`: among entries sharing the content hash,
keep those at a different path, not stale, whose resolved id is live, and
whose path no longer exists; pick the most recently used. -/
def findRenamedSourceCandidate (contentHash newPath : String)
    (pathExists : String → Bool) (s : SyncState) : Option SourceRegistryEntry :=
  if contentHash = "" then none
  else
    let candidates := (getSourceEntriesByContentHash contentHash s.store).filter
      (fun entry =>
        !(decide (entry.path = newPath) || entry.stale) &&
        decide (resolveSourceId s.store.sourceIdAliases entry.sourceId
          ∈ s.remoteSourceIds) &&
        ! pathExists entry.path)
    if candidates.length = 0 then none
    else (candidates.insertionSort laterUsed).head?

/-- The per-batch environment: fixed inputs of `ensureSourcesForPaths`
(`prepareUploadPlan` and `pathExists` as oracles, timestamps as `now`, and
the eviction loop's fuel). -/
structure SyncEnv where
  notebookId : String
  uploadPlans : String → Option UploadPlan
  pathExists : String → Bool
  protectedCapacity : Nat
  now : String
  fuel : Nat

/-- The Rename and New branches (reached when the Reuse/Replace conditions
fail), shared by both `existing` shapes. -/
def processPathFresh (env : SyncEnv) (path : String) (uploadPlan : UploadPlan)
    (existing : Option SourceRegistryEntry) (s : SyncState) :
    Except BatchError (String × SyncState) :=
  let contentHash := uploadPlan.contentHash
  match findRenamedSourceCandidate contentHash path env.pathExists s with
  | some renamedSourceCandidate =>
    let resolvedCandidateSourceId :=
      resolveSourceId s.store.sourceIdAliases renamedSourceCandidate.sourceId
    let st1 := (upsertSource env.now path resolvedCandidateSourceId path
      (some contentHash) s.store).2
    let st2 :=
      if renamedSourceCandidate.sourceId ≠ resolvedCandidateSourceId then
        { st1 with
          sourceIdAliases := registerSourceAlias st1.sourceIdAliases
            renamedSourceCandidate.sourceId resolvedCandidateSourceId }
      else st1
    .ok (resolvedCandidateSourceId, { s with store := st2 })
  | none =>
    match evictUntilCapacity env.now env.fuel s with
    | .error e => .error e
    | .ok s1 =>
      match uploadSourceFromPlan env.notebookId path uploadPlan s1 with
      | .error e => .error e
      | .ok (sourceId, s2) =>
        let st3 := (upsertSource env.now path sourceId path
          (some contentHash) s2.store).2
        let st4 :=
          match existing with
          | some e =>
            if e.sourceId ≠ sourceId then
              { st3 with
                sourceIdAliases :=
                  registerSourceAlias st3.sourceIdAliases e.sourceId sourceId }
            else st3
          | none => st3
        .ok (sourceId,
          { s2 with store := st4,
                    remoteSourceIds := setAdd sourceId s2.remoteSourceIds })

/-- One iteration of the `ensureSourcesForPaths` loop body for a path with an
upload plan, returning the source id recorded for the path.  The four
branches in source order: Reuse (hash unchanged), Replace (hash differs),
Rename (same content under a vanished path), New (evict to capacity, then
upload). -/
def processPath (env : SyncEnv) (path : String) (uploadPlan : UploadPlan)
    (s : SyncState) : Except BatchError (String × SyncState) :=
  let contentHash := uploadPlan.contentHash
  let existing := getSourceEntryByPath path s.store
  let existingSourceId :=
    match existing with
    | some e => resolveSourceId s.store.sourceIdAliases e.sourceId
    | none => ""
  let canReuseExisting :=
    !(decide (existingSourceId = "")) &&
    !((existing.map (fun e => e.stale)).getD false) &&
    decide (existingSourceId ∈ s.remoteSourceIds)
  if canReuseExisting &&
      decide ((existing.bind (fun e => e.contentHash)) = some contentHash) then
    let s1 :=
      match existing with
      | some e =>
        if e.sourceId ≠ existingSourceId then
          let st1 := (upsertSource env.now path existingSourceId path
            (some contentHash) s.store).2
          { s with store := { st1 with
              sourceIdAliases :=
                registerSourceAlias st1.sourceIdAliases e.sourceId existingSourceId } }
        else s
      | none => s
    .ok (existingSourceId, s1)
  else
    match existing with
    | some e =>
      if canReuseExisting then
        match replaceSourceWithLatestContent env.notebookId path uploadPlan
            existingSourceId s with
        | .error err => .error err
        | .ok (replacedSourceId, s1) =>
          let st2 := (upsertSource env.now path replacedSourceId path
            (some contentHash) s1.store).2
          let st3 := { st2 with
            sourceIdAliases :=
              registerSourceAlias st2.sourceIdAliases existingSourceId replacedSourceId }
          let st4 :=
            if e.sourceId ≠ existingSourceId then
              { st3 with
                sourceIdAliases :=
                  registerSourceAlias st3.sourceIdAliases e.sourceId replacedSourceId }
            else st3
          .ok (replacedSourceId,
            { s1 with store := st4,
                      remoteSourceIds := setAdd replacedSourceId s1.remoteSourceIds })
      else processPathFresh env path uploadPlan existing s
    | none => processPathFresh env path uploadPlan existing s

/-- The `for` loop of `ensureSourcesForPaths`: paths without an upload plan
are skipped; every processed path is recorded in `pathToSourceId`. -/
def ensureSourcesForPathsLoop (env : SyncEnv) :
    List String → List (String × String) → SyncState →
      Except BatchError (List (String × String) × SyncState)
  | [], pathToSourceId, s => .ok (pathToSourceId, s)
  | path :: rest, pathToSourceId, s =>
    match env.uploadPlans path with
    | none => ensureSourcesForPathsLoop env rest pathToSourceId s
    | some uploadPlan =>
      match processPath env path uploadPlan s with
      | .error e => .error e
      | .ok (sourceId, s1) =>
        ensureSourcesForPathsLoop env rest
          (insertA path sourceId pathToSourceId) s1

/-- `ensureSourcesForPaths`: run the loop, then `markSourceUsed` every
prepared path in recording order. -/
def ensureSourcesForPaths (env : SyncEnv) (paths : List String) (s : SyncState) :
    Except BatchError (List (String × String) × SyncState) :=
  match ensureSourcesForPathsLoop env paths [] s with
  | .error e => .error e
  | .ok (pathToSourceId, s1) =>
    .ok (pathToSourceId,
      pathToSourceId.foldl
        (fun acc kv =>
          { acc with
            store := markSourceUsed env.now kv.1 env.protectedCapacity acc.store })
        s1)

/-! ### Basic synchronizer lemmas -/

theorem resolveSourceId_nil (id : String) : resolveSourceId [] id = id := by
  have h0 : lookupA id ([] : List (String × String)) = none := rfl
  rw [resolveSourceId, resolveFrom_of_no_alias (by simp) h0]

theorem setErase_eq_erase {id : String} {l : List String} (h : l.Nodup) :
    setErase id l = l.erase id := by
  rw [setErase, h.erase_eq_filter]
  congr 1
  funext x
  by_cases hx : x = id <;> simp [hx]

theorem length_setErase_of_nodup {id : String} {l : List String} (hnd : l.Nodup) :
    (setErase id l).length = if id ∈ l then l.length - 1 else l.length := by
  rw [setErase_eq_erase hnd]
  by_cases h : id ∈ l
  · simp [h, List.length_erase_of_mem h]
  · simp [h, List.erase_of_not_mem h]

theorem setErase_idem (id : String) (l : List String) :
    setErase id (setErase id l) = setErase id l := by
  simp [setErase, List.filter_filter]

theorem setErase_nodup {id : String} {l : List String} (h : l.Nodup) :
    (setErase id l).Nodup := h.filter _

theorem lookupA_mem {κ α : Type} [DecidableEq κ] {k : κ} {v : α} :
    ∀ {m : List (κ × α)}, lookupA k m = some v → (k, v) ∈ m
  | [], h => by simp [lookupA] at h
  | (k', v') :: tl, h => by
    by_cases hk : k' = k
    · subst hk
      rw [lookupA_cons, if_pos rfl] at h
      cases h
      exact List.mem_cons_self _ _
    · rw [lookupA_cons, if_neg hk] at h
      exact List.mem_cons_of_mem _ (lookupA_mem h)

theorem mem_insertA {κ α : Type} [DecidableEq κ] {k : κ} {v : α} :
    ∀ {m : List (κ × α)} {pe : κ × α}, pe ∈ insertA k v m → pe = (k, v) ∨ pe ∈ m
  | [], pe, h => by
    simp [insertA] at h
    exact Or.inl h
  | (k', v') :: tl, pe, h => by
    by_cases hk : k' = k
    · rw [insertA, if_pos hk] at h
      rcases List.mem_cons.mp h with h' | h'
      · exact Or.inl h'
      · exact Or.inr (List.mem_cons_of_mem _ h')
    · rw [insertA, if_neg hk] at h
      rcases List.mem_cons.mp h with h' | h'
      · exact Or.inr (h' ▸ List.mem_cons_self _ _)
      · rcases mem_insertA h' with h'' | h''
        · exact Or.inl h''
        · exact Or.inr (List.mem_cons_of_mem _ h'')

/-- Well-formedness of the registry map: every `byPath` entry's stored `path`
equals its key.  Every store entry written by the registry satisfies this. -/
def PathKeyed (st : SourceRegistryState) : Prop :=
  ∀ pe ∈ st.byPath, pe.2.path = pe.1

instance (st : SourceRegistryState) : Decidable (PathKeyed st) :=
  inferInstanceAs (Decidable (∀ pe ∈ st.byPath, pe.2.path = pe.1))

theorem pathKeyed_entry {st : SourceRegistryState} (h : PathKeyed st)
    {p : String} {e : SourceRegistryEntry} (hl : lookupA p st.byPath = some e) :
    e.path = p :=
  h (p, e) (lookupA_mem hl)

theorem pathKeyed_removeSourceByPath {st : SourceRegistryState} (h : PathKeyed st)
    (p : String) : PathKeyed (removeSourceByPath p st).2 := by
  intro pe hpe
  cases hl : lookupA p st.byPath with
  | none =>
    rw [removeSourceByPath, hl] at hpe
    exact h pe hpe
  | some e =>
    rw [removeSourceByPath, hl] at hpe
    simp only at hpe
    rw [eraseA_eq_filter] at hpe
    exact h pe (List.mem_of_mem_filter hpe)

/-- The `byPath` map after candidate selection: unchanged, or one segment
demotion written in place for a looked-up entry. -/
theorem getEvictionCandidatePath_byPath_cases (st : SourceRegistryState) :
    (getEvictionCandidatePath st).2.byPath = st.byPath ∨
    ∃ d entry, lookupA d st.byPath = some entry ∧
      (getEvictionCandidatePath st).2.byPath =
        insertA d { entry with segment := .probation } st.byPath := by
  rw [getEvictionCandidatePath]
  simp only
  split
  · split
    · exact Or.inl rfl
    · split
      · exact Or.inl rfl
      · split
        · exact Or.inl rfl
        · rename_i entry hlook
          exact Or.inr ⟨_, entry, hlook, rfl⟩
  · exact Or.inl rfl

theorem pathKeyed_getEvictionCandidatePath {st : SourceRegistryState}
    (h : PathKeyed st) : PathKeyed (getEvictionCandidatePath st).2 := by
  rcases getEvictionCandidatePath_byPath_cases st with heq | ⟨d, entry, hlook, heq⟩
  · intro pe hpe
    rw [heq] at hpe
    exact h pe hpe
  · intro pe hpe
    rw [heq] at hpe
    rcases mem_insertA hpe with rfl | hpe'
    · show ({ entry with segment := SourceSegment.probation }).path = d
      simpa using pathKeyed_entry h hlook
    · exact h pe hpe'

/-! ### `deleteSourceIfExists` characterizations -/

/-- Best-effort mode never fails: the call is issued and recorded, and only
the remote-id set may change. -/
theorem deleteSourceIfExists_bestEffort_ok (id : String) (s : SyncState)
    (hid : id ≠ "") :
    ∃ r2, deleteSourceIfExists id true s =
      .ok { s with remoteSourceIds := r2, calls := s.calls + 1,
                   trace := s.trace ++ [RemoteCall.sourceDelete id] } := by
  rw [deleteSourceIfExists, if_neg hid]
  simp only [callTool]
  cases ho : s.script s.calls with
  | thrown msg =>
    cases hnf : mentionsNotFound msg with
    | true => exact ⟨setErase id s.remoteSourceIds, by simp [hnf]⟩
    | false => exact ⟨s.remoteSourceIds, by simp [hnf]⟩
  | result r =>
    cases hf : r.failure with
    | none => exact ⟨setErase id s.remoteSourceIds, by simp [hf]⟩
    | some failure =>
      cases hnf : mentionsNotFound failure with
      | true => exact ⟨setErase id s.remoteSourceIds, by simp [hf, hnf]⟩
      | false => exact ⟨s.remoteSourceIds, by simp [hf, hnf]⟩

/-- Empty ids are skipped without a remote call. -/
theorem deleteSourceIfExists_empty (bestEffort : Bool) (s : SyncState) :
    deleteSourceIfExists "" bestEffort s = .ok s := by
  rw [deleteSourceIfExists, if_pos rfl]

/-- A successful strict delete leaves the store, evictions and script alone,
bumps nothing but the call counter and trace when the id is non-empty, and
either erases the id from the remote set or (only for the empty id) leaves it
unchanged. -/
theorem deleteSourceIfExists_strict_ok {id : String} {s s2 : SyncState}
    (h : deleteSourceIfExists id false s = .ok s2) :
    s2.store = s.store ∧ s2.evictions = s.evictions ∧ s2.script = s.script ∧
    (s2.remoteSourceIds = setErase id s.remoteSourceIds ∨
     s2.remoteSourceIds = s.remoteSourceIds) := by
  by_cases hid : id = ""
  · rw [hid, deleteSourceIfExists_empty] at h
    cases h
    exact ⟨rfl, rfl, rfl, Or.inr rfl⟩
  · rw [deleteSourceIfExists, if_neg hid] at h
    simp only [callTool] at h
    cases ho : s.script s.calls with
    | thrown msg =>
      rw [ho] at h
      simp only at h
      cases hnf : mentionsNotFound msg with
      | true =>
        rw [hnf] at h
        simp only [if_true] at h
        cases h
        exact ⟨rfl, rfl, rfl, Or.inl rfl⟩
      | false =>
        rw [hnf] at h
        simp at h
    | result r =>
      rw [ho] at h
      simp only at h
      cases hf : r.failure with
      | none =>
        rw [hf] at h
        simp only at h
        cases h
        exact ⟨rfl, rfl, rfl, Or.inl rfl⟩
      | some failure =>
        rw [hf] at h
        simp only at h
        cases hnf : mentionsNotFound failure with
        | true =>
          rw [hnf] at h
          simp only [if_true] at h
          cases h
          exact ⟨rfl, rfl, rfl, Or.inl rfl⟩
        | false =>
          rw [hnf] at h
          simp at h

/-- A failed strict delete is a propagated tool failure or thrown transport
error. -/
theorem deleteSourceIfExists_strict_error {id : String} {s : SyncState}
    {e : BatchError} (h : deleteSourceIfExists id false s = .error e) :
    (∃ f, e = .deleteFailed f) ∨ (∃ m, e = .toolThrown m) := by
  by_cases hid : id = ""
  · rw [hid, deleteSourceIfExists_empty] at h
    cases h
  · rw [deleteSourceIfExists, if_neg hid] at h
    simp only [callTool] at h
    cases ho : s.script s.calls with
    | thrown msg =>
      rw [ho] at h
      simp only at h
      cases hnf : mentionsNotFound msg with
      | true =>
        rw [hnf] at h
        simp at h
      | false =>
        rw [hnf] at h
        simp only [Bool.false_eq_true, if_false] at h
        cases h
        exact Or.inr ⟨msg, rfl⟩
    | result r =>
      rw [ho] at h
      simp only at h
      cases hf : r.failure with
      | none =>
        rw [hf] at h
        simp at h
      | some failure =>
        rw [hf] at h
        simp only at h
        cases hnf : mentionsNotFound failure with
        | true =>
          rw [hnf] at h
          simp at h
        | false =>
          rw [hnf] at h
          simp only [Bool.false_eq_true, if_false] at h
          cases h
          exact Or.inl ⟨failure, rfl⟩

/-- Strict delete of a non-empty id: a returned failure that mentions
"not found" is treated as a successful removal. -/
theorem deleteSourceIfExists_strict_notfound_failure {id : String} {s : SyncState}
    {r : ToolResult} {f : String} (hid : id ≠ "")
    (ho : s.script s.calls = .result r) (hf : r.failure = some f)
    (hnf : mentionsNotFound f = true) :
    deleteSourceIfExists id false s =
      .ok { s with remoteSourceIds := setErase id s.remoteSourceIds,
                   calls := s.calls + 1,
                   trace := s.trace ++ [RemoteCall.sourceDelete id] } := by
  rw [deleteSourceIfExists, if_neg hid]
  simp only [callTool, ho, hf]
  simp [hnf]

/-- Strict delete of a non-empty id: a thrown message that mentions
"not found" is treated as a successful removal. -/
theorem deleteSourceIfExists_strict_notfound_thrown {id : String} {s : SyncState}
    {msg : String} (hid : id ≠ "")
    (ho : s.script s.calls = .thrown msg) (hnf : mentionsNotFound msg = true) :
    deleteSourceIfExists id false s =
      .ok { s with remoteSourceIds := setErase id s.remoteSourceIds,
                   calls := s.calls + 1,
                   trace := s.trace ++ [RemoteCall.sourceDelete id] } := by
  rw [deleteSourceIfExists, if_neg hid]
  simp only [callTool, ho]
  simp [hnf]

/-- Strict delete of a non-empty id: any other returned failure propagates. -/
theorem deleteSourceIfExists_strict_other_failure {id : String} {s : SyncState}
    {r : ToolResult} {f : String} (hid : id ≠ "")
    (ho : s.script s.calls = .result r) (hf : r.failure = some f)
    (hnf : mentionsNotFound f = false) :
    deleteSourceIfExists id false s = .error (.deleteFailed f) := by
  rw [deleteSourceIfExists, if_neg hid]
  simp only [callTool, ho, hf]
  simp [hnf]

/-- Strict delete of a non-empty id: any other thrown error propagates. -/
theorem deleteSourceIfExists_strict_other_thrown {id : String} {s : SyncState}
    {msg : String} (hid : id ≠ "")
    (ho : s.script s.calls = .thrown msg) (hnf : mentionsNotFound msg = false) :
    deleteSourceIfExists id false s = .error (.toolThrown msg) := by
  rw [deleteSourceIfExists, if_neg hid]
  simp only [callTool, ho]
  simp [hnf]

/-! ### Eviction-loop step lemmas -/

/-- One delete-branch iteration of the eviction loop with a successful strict
delete: the candidate entry leaves the store, the resolved id leaves the
remote set, the eviction is recorded, and the loop continues. -/
theorem evictUntilCapacity_step (now : String) (fuel : Nat) (s : SyncState)
    (c : String) (st1 : SourceRegistryState) (entry : SourceRegistryEntry)
    (s2 : SyncState)
    (hcap : ¬ s.remoteSourceIds.length < SOURCE_TARGET_CAPACITY)
    (hcand : getEvictionCandidatePath s.store = (some c, st1))
    (hc : c ≠ "")
    (hentry : lookupA c st1.byPath = some entry)
    (hstale : entry.stale = false)
    (hdel : deleteSourceIfExists (resolveSourceId st1.sourceIdAliases entry.sourceId)
      false { s with store := st1 } = .ok s2) :
    evictUntilCapacity now (fuel + 1) s =
      evictUntilCapacity now fuel
        { s2 with
          store := (removeSourceByPath entry.path s2.store).2,
          remoteSourceIds :=
            setErase (resolveSourceId st1.sourceIdAliases entry.sourceId)
              s2.remoteSourceIds,
          evictions := s2.evictions ++
            [{ path := entry.path,
               sourceId := resolveSourceId st1.sourceIdAliases entry.sourceId,
               evictedAt := now, reason := "source-capacity-target" }] } := by
  rw [evictUntilCapacity, if_neg hcap, hcand]
  simp only [getSourceEntryByPath, hentry, hstale]
  simp [if_neg hc]
  rw [hdel]

/-- One delete-branch iteration of the eviction loop with a failing strict
delete: the failure propagates as the loop's result. -/
theorem evictUntilCapacity_step_error (now : String) (fuel : Nat) (s : SyncState)
    (c : String) (st1 : SourceRegistryState) (entry : SourceRegistryEntry)
    (e : BatchError)
    (hcap : ¬ s.remoteSourceIds.length < SOURCE_TARGET_CAPACITY)
    (hcand : getEvictionCandidatePath s.store = (some c, st1))
    (hc : c ≠ "")
    (hentry : lookupA c st1.byPath = some entry)
    (hstale : entry.stale = false)
    (hdel : deleteSourceIfExists (resolveSourceId st1.sourceIdAliases entry.sourceId)
      false { s with store := st1 } = .error e) :
    evictUntilCapacity now (fuel + 1) s = .error e := by
  rw [evictUntilCapacity, if_neg hcap, hcand]
  simp only [getSourceEntryByPath, hentry, hstale]
  simp [if_neg hc]
  rw [hdel]

/-- At or above capacity with no eviction candidate, the loop raises the
capacity error. -/
theorem evictUntilCapacity_none (now : String) (fuel : Nat) (s : SyncState)
    (hcap : ¬ s.remoteSourceIds.length < SOURCE_TARGET_CAPACITY)
    (hnone : (getEvictionCandidatePath s.store).1 = none) :
    evictUntilCapacity now (fuel + 1) s = .error .capacityReached := by
  rcases hE : getEvictionCandidatePath s.store with ⟨o, st1⟩
  rw [hE] at hnone
  simp only at hnone
  subst hnone
  rw [evictUntilCapacity, if_neg hcap, hE]

/-- An empty-string candidate is falsy in the source, so it raises the
capacity error too. -/
theorem evictUntilCapacity_empty_candidate (now : String) (fuel : Nat)
    (s : SyncState) (st1 : SourceRegistryState)
    (hcap : ¬ s.remoteSourceIds.length < SOURCE_TARGET_CAPACITY)
    (hcand : getEvictionCandidatePath s.store = (some "", st1)) :
    evictUntilCapacity now (fuel + 1) s = .error .capacityReached := by
  rw [evictUntilCapacity, if_neg hcap, hcand]
  simp

/-- A candidate path with no registry entry is dropped locally and the loop
continues. -/
theorem evictUntilCapacity_step_missing (now : String) (fuel : Nat) (s : SyncState)
    (c : String) (st1 : SourceRegistryState)
    (hcap : ¬ s.remoteSourceIds.length < SOURCE_TARGET_CAPACITY)
    (hcand : getEvictionCandidatePath s.store = (some c, st1))
    (hc : c ≠ "")
    (hentry : lookupA c st1.byPath = none) :
    evictUntilCapacity now (fuel + 1) s =
      evictUntilCapacity now fuel
        { s with store := (removeSourceByPath c st1).2 } := by
  rw [evictUntilCapacity, if_neg hcap, hcand]
  simp only [getSourceEntryByPath, hentry]
  simp [if_neg hc]

/-- A stale candidate is dropped locally and the loop continues. -/
theorem evictUntilCapacity_step_stale (now : String) (fuel : Nat) (s : SyncState)
    (c : String) (st1 : SourceRegistryState) (entry : SourceRegistryEntry)
    (hcap : ¬ s.remoteSourceIds.length < SOURCE_TARGET_CAPACITY)
    (hcand : getEvictionCandidatePath s.store = (some c, st1))
    (hc : c ≠ "")
    (hentry : lookupA c st1.byPath = some entry)
    (hstale : entry.stale = true) :
    evictUntilCapacity now (fuel + 1) s =
      evictUntilCapacity now fuel
        { s with store := (removeSourceByPath entry.path st1).2 } := by
  rw [evictUntilCapacity, if_neg hcap, hcand]
  simp only [getSourceEntryByPath, hentry, hstale]
  simp [if_neg hc]

/-- A successful run of the eviction loop on a duplicate-free remote set is a
no-op below capacity, and otherwise ends with exactly
`SOURCE_TARGET_CAPACITY - 1` live remote ids. -/
theorem evictUntilCapacity_ok_spec (now : String) :
    ∀ (fuel : Nat) (s s2 : SyncState), s.remoteSourceIds.Nodup →
      evictUntilCapacity now fuel s = .ok s2 →
      s2.remoteSourceIds.Nodup ∧
      (s.remoteSourceIds.length < SOURCE_TARGET_CAPACITY → s2 = s) ∧
      (SOURCE_TARGET_CAPACITY ≤ s.remoteSourceIds.length →
        s2.remoteSourceIds.length = SOURCE_TARGET_CAPACITY - 1)
  | 0, s, s2, hnd, h => by
    rw [evictUntilCapacity] at h
    cases h
  | fuel + 1, s, s2, hnd, h => by
    by_cases hlt : s.remoteSourceIds.length < SOURCE_TARGET_CAPACITY
    · rw [evictUntilCapacity, if_pos hlt] at h
      cases h
      exact ⟨hnd, fun _ => rfl, fun hge => absurd hlt (by omega)⟩
    · rcases hE : getEvictionCandidatePath s.store with ⟨o, st1⟩
      cases o with
      | none =>
        rw [evictUntilCapacity_none now fuel s hlt (by rw [hE])] at h
        cases h
      | some c =>
        by_cases hc : c = ""
        · subst hc
          rw [evictUntilCapacity_empty_candidate now fuel s st1 hlt hE] at h
          cases h
        · cases hentry : lookupA c st1.byPath with
          | none =>
            rw [evictUntilCapacity_step_missing now fuel s c st1 hlt hE hc hentry] at h
            obtain ⟨ih1, _, ih3⟩ := evictUntilCapacity_ok_spec now fuel
              { s with store := (removeSourceByPath c st1).2 } s2 hnd h
            exact ⟨ih1, fun hlt' => absurd hlt' hlt, fun hge => ih3 hge⟩
          | some entry =>
            cases hstale : entry.stale with
            | true =>
              rw [evictUntilCapacity_step_stale now fuel s c st1 entry hlt hE hc
                hentry hstale] at h
              obtain ⟨ih1, _, ih3⟩ := evictUntilCapacity_ok_spec now fuel
                { s with store := (removeSourceByPath entry.path st1).2 } s2 hnd h
              exact ⟨ih1, fun hlt' => absurd hlt' hlt, fun hge => ih3 hge⟩
            | false =>
              cases hdel : deleteSourceIfExists
                  (resolveSourceId st1.sourceIdAliases entry.sourceId) false
                  { s with store := st1 } with
              | error e =>
                rw [evictUntilCapacity_step_error now fuel s c st1 entry e hlt hE hc
                  hentry hstale hdel] at h
                cases h
              | ok s2' =>
                rw [evictUntilCapacity_step now fuel s c st1 entry s2' hlt hE hc
                  hentry hstale hdel] at h
                obtain ⟨_, _, _, hrem⟩ := deleteSourceIfExists_strict_ok hdel
                have hs3 :
                    setErase (resolveSourceId st1.sourceIdAliases entry.sourceId)
                      s2'.remoteSourceIds =
                    setErase (resolveSourceId st1.sourceIdAliases entry.sourceId)
                      s.remoteSourceIds := by
                  rcases hrem with hrem | hrem
                  · rw [hrem]
                    exact setErase_idem _ _
                  · rw [hrem]
                have hnd3 :
                    (setErase (resolveSourceId st1.sourceIdAliases entry.sourceId)
                      s2'.remoteSourceIds).Nodup := by
                  rw [hs3]
                  exact setErase_nodup hnd
                obtain ⟨ih1, ih2, ih3⟩ :=
                  evictUntilCapacity_ok_spec now fuel _ s2 hnd3 h
                have ih2' :
                    (setErase (resolveSourceId st1.sourceIdAliases entry.sourceId)
                      s2'.remoteSourceIds).length < SOURCE_TARGET_CAPACITY →
                    s2.remoteSourceIds.length =
                      (setErase (resolveSourceId st1.sourceIdAliases entry.sourceId)
                        s2'.remoteSourceIds).length := fun hh => by rw [ih2 hh]
                have ih3' :
                    SOURCE_TARGET_CAPACITY ≤
                      (setErase (resolveSourceId st1.sourceIdAliases entry.sourceId)
                        s2'.remoteSourceIds).length →
                    s2.remoteSourceIds.length = SOURCE_TARGET_CAPACITY - 1 :=
                  fun hh => ih3 hh
                refine ⟨ih1, fun hlt' => absurd hlt' hlt, fun hge => ?_⟩
                have hlen :
                    (setErase (resolveSourceId st1.sourceIdAliases entry.sourceId)
                      s2'.remoteSourceIds).length =
                    if resolveSourceId st1.sourceIdAliases entry.sourceId ∈
                        s.remoteSourceIds then
                      s.remoteSourceIds.length - 1
                    else s.remoteSourceIds.length := by
                  rw [hs3]
                  exact length_setErase_of_nodup hnd
                by_cases hmem : resolveSourceId st1.sourceIdAliases entry.sourceId ∈
                    s.remoteSourceIds
                · rw [if_pos hmem] at hlen
                  by_cases h3lt :
                      (setErase (resolveSourceId st1.sourceIdAliases entry.sourceId)
                        s2'.remoteSourceIds).length < SOURCE_TARGET_CAPACITY
                  · have := ih2' h3lt
                    omega
                  · exact ih3' (by omega)
                · rw [if_neg hmem] at hlen
                  exact ih3' (by omega)

/-- Fuel adequacy: every iteration that does not finish removes one `byPath`
entry, so `byPath.length + 1` fuel is always enough — the loop never stalls
on a well-formed store. -/
theorem evictUntilCapacity_no_fuel_exhaustion (now : String) :
    ∀ (fuel : Nat) (s : SyncState), PathKeyed s.store →
      s.store.byPath.length < fuel →
      evictUntilCapacity now fuel s ≠ .error .outOfFuel
  | 0, _, _, hfuel => absurd hfuel (by omega)
  | fuel + 1, s, hpk, hfuel => by
    intro h
    by_cases hlt : s.remoteSourceIds.length < SOURCE_TARGET_CAPACITY
    · rw [evictUntilCapacity, if_pos hlt] at h
      cases h
    · rcases hE : getEvictionCandidatePath s.store with ⟨o, st1⟩
      cases o with
      | none =>
        rw [evictUntilCapacity_none now fuel s hlt (by rw [hE])] at h
        simp at h
      | some c =>
        by_cases hc : c = ""
        · subst hc
          rw [evictUntilCapacity_empty_candidate now fuel s st1 hlt hE] at h
          simp at h
        · have hknown := getEvictionCandidatePath_candidate_known s.store c (by rw [hE])
          rw [hE] at hknown
          have hpk1 : PathKeyed st1 := by
            have hx := pathKeyed_getEvictionCandidatePath hpk
            rw [hE] at hx
            exact hx
          cases hentry : lookupA c st1.byPath with
          | none =>
            have hsome := (lookupA_isSome_iff_mem_keysA c st1.byPath).mpr hknown.1
            rw [hentry] at hsome
            simp at hsome
          | some entry =>
            have hpath : entry.path = c := pathKeyed_entry hpk1 hentry
            have hclen : st1.byPath.length = s.store.byPath.length := hknown.2
            have hdec :
                ((removeSourceByPath entry.path st1).2).byPath.length <
                  st1.byPath.length := by
              rw [hpath]
              simp only [removeSourceByPath, hentry]
              exact length_eraseA_lt hknown.1
            have hpk2 : PathKeyed (removeSourceByPath entry.path st1).2 :=
              pathKeyed_removeSourceByPath hpk1 _
            cases hstale : entry.stale with
            | true =>
              rw [evictUntilCapacity_step_stale now fuel s c st1 entry hlt hE hc
                hentry hstale] at h
              exact evictUntilCapacity_no_fuel_exhaustion now fuel
                { s with store := (removeSourceByPath entry.path st1).2 }
                hpk2
                (show ((removeSourceByPath entry.path st1).2).byPath.length < fuel
                  by omega) h
            | false =>
              cases hdel : deleteSourceIfExists
                  (resolveSourceId st1.sourceIdAliases entry.sourceId) false
                  { s with store := st1 } with
              | error e =>
                rw [evictUntilCapacity_step_error now fuel s c st1 entry e hlt hE hc
                  hentry hstale hdel] at h
                rcases deleteSourceIfExists_strict_error hdel with ⟨f, rfl⟩ | ⟨m, rfl⟩ <;>
                  simp at h
              | ok s2' =>
                rw [evictUntilCapacity_step now fuel s c st1 entry s2' hlt hE hc
                  hentry hstale hdel] at h
                obtain ⟨hst, _, _, _⟩ := deleteSourceIfExists_strict_ok hdel
                have hpk2' : PathKeyed (removeSourceByPath entry.path s2'.store).2 := by
                  rw [hst]
                  exact hpk2
                have hdec' :
                    (removeSourceByPath entry.path s2'.store).2.byPath.length <
                      st1.byPath.length := by
                  rw [hst]
                  exact hdec
                exact evictUntilCapacity_no_fuel_exhaustion now fuel _
                  hpk2'
                  (show (removeSourceByPath entry.path s2'.store).2.byPath.length < fuel
                    by omega) h

/-- Every error of the eviction loop is the capacity error, fuel exhaustion,
or a propagated strict-delete failure. -/
theorem evictUntilCapacity_error_classified (now : String) :
    ∀ (fuel : Nat) (s : SyncState) (e : BatchError),
      evictUntilCapacity now fuel s = .error e →
      e = .capacityReached ∨ e = .outOfFuel ∨
      (∃ f, e = .deleteFailed f) ∨ (∃ m, e = .toolThrown m)
  | 0, s, e, h => by
    rw [evictUntilCapacity] at h
    cases h
    exact Or.inr (Or.inl rfl)
  | fuel + 1, s, e, h => by
    by_cases hlt : s.remoteSourceIds.length < SOURCE_TARGET_CAPACITY
    · rw [evictUntilCapacity, if_pos hlt] at h
      cases h
    · rcases hE : getEvictionCandidatePath s.store with ⟨o, st1⟩
      cases o with
      | none =>
        rw [evictUntilCapacity_none now fuel s hlt (by rw [hE])] at h
        cases h
        exact Or.inl rfl
      | some c =>
        by_cases hc : c = ""
        · subst hc
          rw [evictUntilCapacity_empty_candidate now fuel s st1 hlt hE] at h
          cases h
          exact Or.inl rfl
        · cases hentry : lookupA c st1.byPath with
          | none =>
            rw [evictUntilCapacity_step_missing now fuel s c st1 hlt hE hc hentry] at h
            exact evictUntilCapacity_error_classified now fuel _ e h
          | some entry =>
            cases hstale : entry.stale with
            | true =>
              rw [evictUntilCapacity_step_stale now fuel s c st1 entry hlt hE hc
                hentry hstale] at h
              exact evictUntilCapacity_error_classified now fuel _ e h
            | false =>
              cases hdel : deleteSourceIfExists
                  (resolveSourceId st1.sourceIdAliases entry.sourceId) false
                  { s with store := st1 } with
              | error e' =>
                rw [evictUntilCapacity_step_error now fuel s c st1 entry e' hlt hE hc
                  hentry hstale hdel] at h
                cases h
                rcases deleteSourceIfExists_strict_error hdel with ⟨f, rfl⟩ | ⟨m, rfl⟩
                · exact Or.inr (Or.inr (Or.inl ⟨f, rfl⟩))
                · exact Or.inr (Or.inr (Or.inr ⟨m, rfl⟩))
              | ok s2' =>
                rw [evictUntilCapacity_step now fuel s c st1 entry s2' hlt hE hc
                  hentry hstale hdel] at h
                exact evictUntilCapacity_error_classified now fuel _ e h

/-- Below capacity the loop is an immediate no-op. -/
theorem evictUntilCapacity_done (now : String) (fuel : Nat) (s : SyncState)
    (h : s.remoteSourceIds.length < SOURCE_TARGET_CAPACITY) :
    evictUntilCapacity now (fuel + 1) s = .ok s := by
  rw [evictUntilCapacity, if_pos h]

/-! ### Concrete eviction scenarios -/

/-- `SOURCE_TARGET_CAPACITY` pairwise-distinct remote source ids;
`"A"` is the first of them. -/
def remote290 : List String :=
  (List.range SOURCE_TARGET_CAPACITY).map (fun n => String.mk [Char.ofNat (65 + n)])

set_option maxRecDepth 40000 in
theorem remote290_nodup : remote290.Nodup := by
  have htn : ∀ x ∈ List.range SOURCE_TARGET_CAPACITY,
      (Char.ofNat (65 + x)).toNat = 65 + x := by decide
  rw [remote290]
  refine (List.nodup_range _).map_on ?_
  intro x hx y hy heq
  have h1 := htn x hx
  have h2 := htn y hy
  have hchar : Char.ofNat (65 + x) = Char.ofNat (65 + y) := by
    have hd := congrArg String.data heq
    simpa using hd
  have hxy : 65 + x = 65 + y := by rw [← h1, ← h2, hchar]
  omega

def c2Entry : SourceRegistryEntry :=
  { path := "notes/evict-me.md", sourceId := "A", title := "notes/evict-me.md",
    addedAt := "t0", lastUsedAt := "t0", useCount := 1,
    contentHash := some "hash-e", segment := .probation, stale := false }

def c2Store : SourceRegistryState :=
  { byPath := [("notes/evict-me.md", c2Entry)],
    bySourceId := [("A", "notes/evict-me.md")],
    sourceIdAliases := [],
    probation := ["notes/evict-me.md"],
    protectedQ := [] }

/-- The remote `source_delete` resolves with a "not found" failure. -/
def notFoundOutcome : ToolOutcome :=
  .result { sourceId := none, failure := some "Source A was not found" }

def c2Script : Nat → ToolOutcome := fun _ => notFoundOutcome

/-- A batch at capacity whose only eviction candidate's remote object is
already gone. -/
def c2State : SyncState :=
  { remoteSourceIds := remote290, store := c2Store, evictions := [],
    script := c2Script, calls := 0, trace := [] }

/-- The state right after the strict delete of the candidate. -/
def c2Mid : SyncState :=
  { remoteSourceIds := setErase "A" remote290, store := c2Store, evictions := [],
    script := c2Script, calls := 1, trace := [RemoteCall.sourceDelete "A"] }

/-- The state after one full eviction iteration. -/
def c2Final : SyncState :=
  { remoteSourceIds := setErase "A" (setErase "A" remote290),
    store := (removeSourceByPath "notes/evict-me.md" c2Store).2,
    evictions := [{ path := "notes/evict-me.md", sourceId := "A",
                    evictedAt := "t", reason := "source-capacity-target" }],
    script := c2Script, calls := 1,
    trace := [RemoteCall.sourceDelete "A"] }

/-- The same batch, but the remote delete rejects with an unrelated error. -/
def c3FailState : SyncState :=
  { remoteSourceIds := remote290, store := c2Store, evictions := [],
    script := fun _ => .thrown "boom", calls := 0, trace := [] }

def emptyStore : SourceRegistryState :=
  { byPath := [], bySourceId := [], sourceIdAliases := [],
    probation := [], protectedQ := [] }

/-- A batch at capacity with nothing the Registry can offer for eviction. -/
def c3NoCandState : SyncState :=
  { remoteSourceIds := remote290, store := emptyStore, evictions := [],
    script := c2Script, calls := 0, trace := [] }

theorem c2CandidateFact :
    getEvictionCandidatePath c2Store = (some "notes/evict-me.md", c2Store) := by
  decide

theorem c2ResolveFact :
    resolveSourceId c2Store.sourceIdAliases c2Entry.sourceId = "A" := by
  have h1 : c2Store.sourceIdAliases = [] := rfl
  have h2 : c2Entry.sourceId = "A" := rfl
  rw [h1, h2, resolveSourceId_nil]

set_option maxRecDepth 40000 in
/-- One concrete eviction run: at capacity, the single candidate's delete
reports "not found", the candidate is still evicted, and the loop finishes
one below target capacity. -/
theorem evictionRunExample : evictUntilCapacity "t" 2 c2State = .ok c2Final := by
  have hdel : deleteSourceIfExists
      (resolveSourceId c2Store.sourceIdAliases c2Entry.sourceId) false
      { c2State with store := c2Store } = .ok c2Mid := by
    rw [c2ResolveFact]
    rfl
  have hstep := evictUntilCapacity_step "t" 1 c2State "notes/evict-me.md" c2Store
    c2Entry c2Mid (by decide) c2CandidateFact (by decide) rfl rfl hdel
  rw [c2ResolveFact] at hstep
  refine hstep.trans ?_
  show evictUntilCapacity "t" 1 c2Final = .ok c2Final
  exact evictUntilCapacity_done "t" 0 c2Final (by decide)

set_option maxRecDepth 40000 in
/-- One concrete eviction run where the strict delete throws an unrelated
error: the failure propagates out of the loop. -/
theorem deleteFailureRunExample :
    evictUntilCapacity "t" 2 c3FailState = .error (.toolThrown "boom") := by
  have hdel : deleteSourceIfExists
      (resolveSourceId c2Store.sourceIdAliases c2Entry.sourceId) false
      { c3FailState with store := c2Store } = .error (.toolThrown "boom") := by
    rw [c2ResolveFact]
    rfl
  exact evictUntilCapacity_step_error "t" 1 c3FailState "notes/evict-me.md" c2Store
    c2Entry (.toolThrown "boom") (by decide) c2CandidateFact (by decide) rfl rfl hdel

/-! ### Claims C2, C3, C10 -/

/-- C2: every successful run of the eviction loop removes no more remote
objects than necessary — below target capacity it changes nothing, and at or
above it the final live-id count is exactly `SOURCE_TARGET_CAPACITY - 1`;
and whenever the (normalized) probation queue is non-empty, the selected
eviction candidate comes from probation and is not a protected entry (no
protected demotion happens). -/
theorem c2_eviction_minimal_and_candidate_selection :
    (∀ (now : String) (fuel : Nat) (s s2 : SyncState),
      s.remoteSourceIds.Nodup →
      evictUntilCapacity now fuel s = .ok s2 →
      (s.remoteSourceIds.length < SOURCE_TARGET_CAPACITY → s2 = s) ∧
      (SOURCE_TARGET_CAPACITY ≤ s.remoteSourceIds.length →
        s2.remoteSourceIds.length = SOURCE_TARGET_CAPACITY - 1)) ∧
    (∀ st : SourceRegistryState, (cleanupQueues st).probation ≠ [] →
      ∃ c, (getEvictionCandidatePath st).1 = some c ∧
        c ∈ (cleanupQueues st).probation ∧
        c ∉ (cleanupQueues st).protectedQ ∧
        (getEvictionCandidatePath st).2 = cleanupQueues st) := by
  constructor
  · intro now fuel s s2 hnd h
    exact (evictUntilCapacity_ok_spec now fuel s s2 hnd h).2
  · intro st hne
    obtain ⟨h1, _, c, hc, hmem, hprot⟩ :=
      getEvictionCandidatePath_of_probation_ne_nil st hne
    exact ⟨c, hc, hmem, hprot, h1⟩

set_option maxRecDepth 40000 in
set_option maxHeartbeats 2000000 in
theorem c2_witness :
    SOURCE_TARGET_CAPACITY ≤ c2State.remoteSourceIds.length ∧
    c2Final.remoteSourceIds.length = SOURCE_TARGET_CAPACITY - 1 ∧
    (cleanupQueues c2Store).probation ≠ [] ∧
    (getEvictionCandidatePath c2Store).1 = some "notes/evict-me.md" := by
  have hnd : c2State.remoteSourceIds.Nodup := remote290_nodup
  have h1 := (c2_eviction_minimal_and_candidate_selection.1 "t" 2 c2State c2Final hnd
    evictionRunExample).2 (by decide)
  have h2 := c2_eviction_minimal_and_candidate_selection.2 c2Store (by decide)
  refine ⟨by decide, h1, by decide, ?_⟩
  obtain ⟨c, hc, hmem, _, _⟩ := h2
  have : c = "notes/evict-me.md" := by
    have hp : (cleanupQueues c2Store).probation = ["notes/evict-me.md"] := by decide
    rw [hp] at hmem
    simpa using hmem
  rw [← this]
  exact hc

/-- C3 (corrected): at or above target capacity with no eviction candidate,
the loop raises the distinguishable capacity error; every successful run ends
strictly under target capacity; and with adequate fuel (which
`byPath.length + 1` always is, so the loop never stalls) every failure is the
capacity error or a propagated strict-delete failure — the latter being the
case the claim text omits. -/
theorem c3_capacity_error_and_loop_outcomes :
    (∀ (now : String) (fuel : Nat) (s : SyncState),
      ¬ s.remoteSourceIds.length < SOURCE_TARGET_CAPACITY →
      (getEvictionCandidatePath s.store).1 = none →
      evictUntilCapacity now (fuel + 1) s = .error .capacityReached) ∧
    (∀ (now : String) (fuel : Nat) (s s2 : SyncState),
      s.remoteSourceIds.Nodup →
      evictUntilCapacity now fuel s = .ok s2 →
      s2.remoteSourceIds.length < SOURCE_TARGET_CAPACITY) ∧
    (∀ (now : String) (fuel : Nat) (s : SyncState) (e : BatchError),
      PathKeyed s.store → s.store.byPath.length < fuel →
      evictUntilCapacity now fuel s = .error e →
      e = .capacityReached ∨ (∃ f, e = .deleteFailed f) ∨
        (∃ m, e = .toolThrown m)) := by
  refine ⟨evictUntilCapacity_none, ?_, ?_⟩
  · intro now fuel s s2 hnd h
    obtain ⟨_, h2, h3⟩ := evictUntilCapacity_ok_spec now fuel s s2 hnd h
    have hcap : SOURCE_TARGET_CAPACITY = 290 := rfl
    by_cases hlt : s.remoteSourceIds.length < SOURCE_TARGET_CAPACITY
    · rw [h2 hlt]
      exact hlt
    · have := h3 (by omega)
      omega
  · intro now fuel s e hpk hfl h
    rcases evictUntilCapacity_error_classified now fuel s e h with h1 | h1 | h1 | h1
    · exact Or.inl h1
    · exact absurd (h1 ▸ h) (evictUntilCapacity_no_fuel_exhaustion now fuel s hpk hfl)
    · exact Or.inr (Or.inl h1)
    · exact Or.inr (Or.inr h1)

/-- C3 counterexample: the claim says the loop "always either terminates with
the live count strictly under target or raises this distinct condition", but
a strict delete that fails for an unrelated reason propagates that failure
instead — at `c3FailState` the loop neither succeeds nor raises the capacity
condition. -/
theorem c3_counterexample_strict_delete_propagates :
    evictUntilCapacity "t" 2 c3FailState = .error (.toolThrown "boom") ∧
    BatchError.toolThrown "boom" ≠ BatchError.capacityReached :=
  ⟨deleteFailureRunExample, by decide⟩

set_option maxRecDepth 40000 in
set_option maxHeartbeats 2000000 in
theorem c3_witness :
    evictUntilCapacity "t" (0 + 1) c3NoCandState = .error .capacityReached ∧
    c2Final.remoteSourceIds.length < SOURCE_TARGET_CAPACITY ∧
    (BatchError.toolThrown "boom" = .capacityReached ∨
      (∃ f, BatchError.toolThrown "boom" = .deleteFailed f) ∨
      (∃ m, BatchError.toolThrown "boom" = .toolThrown m)) := by
  refine ⟨?_, ?_, ?_⟩
  · exact c3_capacity_error_and_loop_outcomes.1 "t" 0 c3NoCandState
      (by decide) (by decide)
  · exact c3_capacity_error_and_loop_outcomes.2.1 "t" 2 c2State c2Final
      remote290_nodup evictionRunExample
  · exact c3_capacity_error_and_loop_outcomes.2.2 "t" 2 c3FailState
      (.toolThrown "boom") (by decide) (by decide) deleteFailureRunExample

/-- C10: in the strict-mode delete used by the eviction loop, an outcome
whose failure or thrown message mentions "not found" (case-insensitively)
does not propagate: it is treated as a successful removal and the id leaves
the live remote-id set; strict propagation applies only to other messages;
and under a "not found" delete failure the eviction loop still evicts the
candidate, erases its resolved id, records the eviction and continues. -/
theorem c10_strict_delete_not_found_swallowed :
    (∀ (s : SyncState) (id : String) (r : ToolResult) (f : String),
      id ≠ "" → s.script s.calls = .result r → r.failure = some f →
      mentionsNotFound f = true →
      deleteSourceIfExists id false s =
        .ok { s with remoteSourceIds := setErase id s.remoteSourceIds,
                     calls := s.calls + 1,
                     trace := s.trace ++ [RemoteCall.sourceDelete id] }) ∧
    (∀ (s : SyncState) (id msg : String),
      id ≠ "" → s.script s.calls = .thrown msg → mentionsNotFound msg = true →
      deleteSourceIfExists id false s =
        .ok { s with remoteSourceIds := setErase id s.remoteSourceIds,
                     calls := s.calls + 1,
                     trace := s.trace ++ [RemoteCall.sourceDelete id] }) ∧
    (∀ (s : SyncState) (id : String) (r : ToolResult) (f : String),
      id ≠ "" → s.script s.calls = .result r → r.failure = some f →
      mentionsNotFound f = false →
      deleteSourceIfExists id false s = .error (.deleteFailed f)) ∧
    (∀ (s : SyncState) (id msg : String),
      id ≠ "" → s.script s.calls = .thrown msg → mentionsNotFound msg = false →
      deleteSourceIfExists id false s = .error (.toolThrown msg)) ∧
    (∀ (now : String) (fuel : Nat) (s : SyncState) (c : String)
        (st1 : SourceRegistryState) (entry : SourceRegistryEntry)
        (r : ToolResult) (f : String),
      ¬ s.remoteSourceIds.length < SOURCE_TARGET_CAPACITY →
      getEvictionCandidatePath s.store = (some c, st1) →
      c ≠ "" →
      lookupA c st1.byPath = some entry →
      entry.stale = false →
      resolveSourceId st1.sourceIdAliases entry.sourceId ≠ "" →
      s.script s.calls = .result r →
      r.failure = some f →
      mentionsNotFound f = true →
      evictUntilCapacity now (fuel + 1) s =
        evictUntilCapacity now fuel
          { remoteSourceIds :=
              setErase (resolveSourceId st1.sourceIdAliases entry.sourceId)
                s.remoteSourceIds,
            store := (removeSourceByPath entry.path st1).2,
            evictions := s.evictions ++
              [{ path := entry.path,
                 sourceId := resolveSourceId st1.sourceIdAliases entry.sourceId,
                 evictedAt := now, reason := "source-capacity-target" }],
            script := s.script,
            calls := s.calls + 1,
            trace := s.trace ++
              [RemoteCall.sourceDelete
                (resolveSourceId st1.sourceIdAliases entry.sourceId)] }) := by
  refine ⟨?_, ?_, ?_, ?_, ?_⟩
  · intro s id r f hid ho hf hnf
    exact deleteSourceIfExists_strict_notfound_failure hid ho hf hnf
  · intro s id msg hid ho hnf
    exact deleteSourceIfExists_strict_notfound_thrown hid ho hnf
  · intro s id r f hid ho hf hnf
    exact deleteSourceIfExists_strict_other_failure hid ho hf hnf
  · intro s id msg hid ho hnf
    exact deleteSourceIfExists_strict_other_thrown hid ho hnf
  · intro now fuel s c st1 entry r f hcap hcand hc hentry hstale hrid ho hf hnf
    have hdel := @deleteSourceIfExists_strict_notfound_failure
      (resolveSourceId st1.sourceIdAliases entry.sourceId)
      { s with store := st1 } r f hrid ho hf hnf
    have hstep := evictUntilCapacity_step now fuel s c st1 entry _ hcap hcand hc
      hentry hstale hdel
    rw [hstep]
    congr 1
    simp [setErase_idem]

set_option maxRecDepth 40000 in
set_option maxHeartbeats 2000000 in
theorem c10_witness :
    deleteSourceIfExists "A" false c2State =
      .ok { c2State with
            remoteSourceIds := setErase "A" c2State.remoteSourceIds,
            calls := c2State.calls + 1,
            trace := c2State.trace ++ [RemoteCall.sourceDelete "A"] } ∧
    deleteSourceIfExists "A" false c3FailState = .error (.toolThrown "boom") ∧
    evictUntilCapacity "t" (1 + 1) c2State =
      evictUntilCapacity "t" 1
        { remoteSourceIds := setErase "A" c2State.remoteSourceIds,
          store := (removeSourceByPath "notes/evict-me.md" c2Store).2,
          evictions := c2State.evictions ++
            [{ path := "notes/evict-me.md", sourceId := "A",
               evictedAt := "t", reason := "source-capacity-target" }],
          script := c2State.script,
          calls := c2State.calls + 1,
          trace := c2State.trace ++ [RemoteCall.sourceDelete "A"] } := by
  refine ⟨?_, ?_, ?_⟩
  · exact c10_strict_delete_not_found_swallowed.1 c2State "A"
      { sourceId := none, failure := some "Source A was not found" }
      "Source A was not found" (by decide) rfl rfl (by decide)
  · exact c10_strict_delete_not_found_swallowed.2.2.2.1 c3FailState "A" "boom"
      (by decide) rfl (by decide)
  · have h := c10_strict_delete_not_found_swallowed.2.2.2.2 "t" 1 c2State
      "notes/evict-me.md" c2Store c2Entry
      { sourceId := none, failure := some "Source A was not found" }
      "Source A was not found" (by decide) c2CandidateFact (by decide) rfl rfl
      (by rw [c2ResolveFact]; decide) rfl rfl (by decide)
    rw [c2ResolveFact] at h
    exact h

/-! ### Claim C1: the Replace branch -/

theorem enforceProtectedCap_of_le (protectedCap : Nat) (st : SourceRegistryState)
    (h : ¬ max 1 protectedCap < st.protectedQ.length) :
    enforceProtectedCap protectedCap st = st := by
  rw [enforceProtectedCap, dif_neg h]

def c1Part : UploadPart := .text "# Replace body v2" "replace.md"

def c1Plan : UploadPlan := { contentHash := "hash-v2", parts := [c1Part] }

def c1Env : SyncEnv :=
  { notebookId := "nb",
    uploadPlans := fun p => if p = "replace.md" then some c1Plan else none,
    pathExists := fun _ => true,
    protectedCapacity := 8,
    now := "t1",
    fuel := 1 }

def c1Entry : SourceRegistryEntry :=
  { path := "replace.md", sourceId := "source-old", title := "replace.md",
    addedAt := "t0", lastUsedAt := "t0", useCount := 1,
    contentHash := some "hash-v1", segment := .probation, stale := false }

def c1Store : SourceRegistryState :=
  { byPath := [("replace.md", c1Entry)],
    bySourceId := [("source-old", "replace.md")],
    sourceIdAliases := [],
    probation := ["replace.md"],
    protectedQ := [] }

/-- The upload succeeds and returns `source-new`; the later delete has the
quantified outcome `o`. -/
def c1Script (o : ToolOutcome) : Nat → ToolOutcome :=
  fun n =>
    if n = 0 then .result { sourceId := some "source-new", failure := none } else o

def c1State (o : ToolOutcome) : SyncState :=
  { remoteSourceIds := ["source-old"], store := c1Store, evictions := [],
    script := c1Script o, calls := 0, trace := [] }

/-- C1: for a path whose entry exists, is not stale, has its resolved id
live, but whose stored hash differs from the plan's hash, the batch takes the
Replace branch: the `source_add` is issued before the `source_delete` of the
old id (the trace), the batch maps the path to the new id, the old id
resolves to the new id through the registered alias, and the new id is live —
for `every` delete outcome `o`, so any delete failure (thrown or returned,
"not found" or not) is swallowed. -/
theorem c1_replace_branch_uploads_then_deletes (o : ToolOutcome) :
    ∃ m sF,
      ensureSourcesForPaths c1Env ["replace.md"] (c1State o) = .ok (m, sF) ∧
      lookupA "replace.md" m = some "source-new" ∧
      resolveSourceId sF.store.sourceIdAliases "source-old" = "source-new" ∧
      sF.trace = [RemoteCall.sourceAdd "nb" c1Part,
                  RemoteCall.sourceDelete "source-old"] ∧
      "source-new" ∈ sF.remoteSourceIds := by
  have hfinal :
      resolveSourceId [("source-old", "source-new")] "source-old" = "source-new" := by
    have hl1 : lookupA "source-old" [("source-old", "source-new")] = some "source-new" :=
      rfl
    have hl2 : lookupA "source-new" [("source-old", "source-new")] = none := rfl
    rw [resolveSourceId, resolveFrom_of_alias (by decide) hl1,
      resolveFrom_of_no_alias (by decide) hl2]
  rcases o with msg | r
  · cases hnf : mentionsNotFound msg with
    | true =>
      simp +decide [ensureSourcesForPaths, ensureSourcesForPathsLoop, processPath,
          replaceSourceWithLatestContent, uploadSourceFromPlan, getSingleUploadPart,
          callTool, deleteSourceIfExists, setAdd, setErase, getSourceEntryByPath,
          upsertSource, registerSourceAlias, markSourceUsed, movePathToQueueFront,
          removePathFromQueue, cleanupQueues, dedupKeep, keysA, lookupA, insertA,
          eraseA, removeSourceByPath, enforceProtectedCap_of_le, resolveSourceId_nil,
          hfinal, hnf, c1Env, c1Plan, c1Part, c1Entry, c1Store, c1Script, c1State]
      exact ⟨_, _, ⟨rfl, rfl⟩, rfl, hfinal, rfl, by simp⟩
    | false =>
      simp +decide [ensureSourcesForPaths, ensureSourcesForPathsLoop, processPath,
          replaceSourceWithLatestContent, uploadSourceFromPlan, getSingleUploadPart,
          callTool, deleteSourceIfExists, setAdd, setErase, getSourceEntryByPath,
          upsertSource, registerSourceAlias, markSourceUsed, movePathToQueueFront,
          removePathFromQueue, cleanupQueues, dedupKeep, keysA, lookupA, insertA,
          eraseA, removeSourceByPath, enforceProtectedCap_of_le, resolveSourceId_nil,
          hfinal, hnf, c1Env, c1Plan, c1Part, c1Entry, c1Store, c1Script, c1State]
      exact ⟨_, _, ⟨rfl, rfl⟩, rfl, hfinal, rfl, by simp⟩
  · rcases r with ⟨sid, fail⟩
    cases fail with
    | none =>
      simp +decide [ensureSourcesForPaths, ensureSourcesForPathsLoop, processPath,
          replaceSourceWithLatestContent, uploadSourceFromPlan, getSingleUploadPart,
          callTool, deleteSourceIfExists, setAdd, setErase, getSourceEntryByPath,
          upsertSource, registerSourceAlias, markSourceUsed, movePathToQueueFront,
          removePathFromQueue, cleanupQueues, dedupKeep, keysA, lookupA, insertA,
          eraseA, removeSourceByPath, enforceProtectedCap_of_le, resolveSourceId_nil,
          hfinal, c1Env, c1Plan, c1Part, c1Entry, c1Store, c1Script, c1State]
      exact ⟨_, _, ⟨rfl, rfl⟩, rfl, hfinal, rfl, by simp⟩
    | some f =>
      cases hnf : mentionsNotFound f with
      | true =>
        simp +decide [ensureSourcesForPaths, ensureSourcesForPathsLoop, processPath,
            replaceSourceWithLatestContent, uploadSourceFromPlan, getSingleUploadPart,
            callTool, deleteSourceIfExists, setAdd, setErase, getSourceEntryByPath,
            upsertSource, registerSourceAlias, markSourceUsed, movePathToQueueFront,
            removePathFromQueue, cleanupQueues, dedupKeep, keysA, lookupA, insertA,
            eraseA, removeSourceByPath, enforceProtectedCap_of_le, resolveSourceId_nil,
            hfinal, hnf, c1Env, c1Plan, c1Part, c1Entry, c1Store, c1Script, c1State]
        exact ⟨_, _, ⟨rfl, rfl⟩, rfl, hfinal, rfl, by simp⟩
      | false =>
        simp +decide [ensureSourcesForPaths, ensureSourcesForPathsLoop, processPath,
            replaceSourceWithLatestContent, uploadSourceFromPlan, getSingleUploadPart,
            callTool, deleteSourceIfExists, setAdd, setErase, getSourceEntryByPath,
            upsertSource, registerSourceAlias, markSourceUsed, movePathToQueueFront,
            removePathFromQueue, cleanupQueues, dedupKeep, keysA, lookupA, insertA,
            eraseA, removeSourceByPath, enforceProtectedCap_of_le, resolveSourceId_nil,
            hfinal, hnf, c1Env, c1Plan, c1Part, c1Entry, c1Store, c1Script, c1State]
        exact ⟨_, _, ⟨rfl, rfl⟩, rfl, hfinal, rfl, by simp⟩

/-!
## BM25 incremental index (`part_004`, class `BM25`)

The index is embedded with JS `Map`s as association lists.  The vault and
the per-file tokenization pipeline are abstracted into oracles: `termsOf`
gives a path's weighted term-frequency map (the result of the three
`addTokensWithWeight` passes — a JS `Map`, so its keys are assumed
duplicate-free), `mtimeOf`/`sizeOf` the file stats and `lengthOf` the
weighted document length; a sync sees the vault as its current list of
markdown paths.  `cachedIndexForHydration` is `null` from construction and
after every sync and `loadCachedIndex` is not among the claim's signals, so
the hydration branch is modelled as absent.  `averageDocumentLength` and the
debug logging do not touch the documents or postings and are omitted.
-/

def FULL_RESCAN_EVERY_DIRTY_SYNCS : Nat := 50

structure IndexedDocument where
  length : ℚ
  mtime : Nat
  size : Nat
  termFreq : List (String × ℚ)
deriving DecidableEq

structure BM25State where
  documents : List (String × IndexedDocument)
  invertedIndex : List (String × List (String × ℚ))
  pendingModifiedPaths : List String
  pendingDeletedPaths : List String
  fullRescanNeeded : Bool
  dirtySyncCountSinceFullRescan : Nat
  dirty : Bool
deriving DecidableEq

/-- The state right after construction. -/
def initialBM25State : BM25State :=
  { documents := [], invertedIndex := [], pendingModifiedPaths := [],
    pendingDeletedPaths := [], fullRescanNeeded := true,
    dirtySyncCountSinceFullRescan := 0, dirty := true }

/-- `addDocumentTerms`: write `posting[path] = frequency` for every term of
the document, creating postings as needed. -/
def addDocumentTerms (path : String) :
    List (String × ℚ) → List (String × List (String × ℚ)) →
      List (String × List (String × ℚ))
  | [], inv => inv
  | (tok, f) :: rest, inv =>
    let posting := (lookupA tok inv).getD []
    addDocumentTerms path rest (insertA tok (insertA path f posting) inv)

/-- `removeDocumentTerms`: drop the document from every posting of its
terms, deleting postings that become empty. -/
def removeDocumentTerms (path : String) :
    List (String × ℚ) → List (String × List (String × ℚ)) →
      List (String × List (String × ℚ))
  | [], inv => inv
  | (tok, _) :: rest, inv =>
    let inv2 :=
      match lookupA tok inv with
      | none => inv
      | some posting =>
        let posting2 := eraseA path posting
        if posting2.length = 0 then eraseA tok inv else insertA tok posting2 inv
    removeDocumentTerms path rest inv2

/-- `removeIndexedDocument`. -/
def removeIndexedDocument (path : String) (st : BM25State) : BM25State :=
  match lookupA path st.documents with
  | none => st
  | some existing =>
    { st with
      invertedIndex := removeDocumentTerms path existing.termFreq st.invertedIndex,
      documents := eraseA path st.documents }

/-- `upsertIndexedDocument`: purge the old postings, recompute the term map
from current content, store the document and add its postings. -/
def upsertIndexedDocument (termsOf : String → List (String × ℚ))
    (mtimeOf sizeOf : String → Nat) (lengthOf : String → ℚ)
    (path : String) (st : BM25State) : BM25State :=
  let st1 :=
    match lookupA path st.documents with
    | some existing =>
      { st with
        invertedIndex := removeDocumentTerms path existing.termFreq st.invertedIndex }
    | none => st
  let termFreq := termsOf path
  let doc : IndexedDocument :=
    { length := lengthOf path, mtime := mtimeOf path, size := sizeOf path,
      termFreq := termFreq }
  { st1 with
    documents := insertA path doc st1.documents,
    invertedIndex := addDocumentTerms path termFreq st1.invertedIndex }

/-- `syncIndex`: a full rescan (drop vanished paths, upsert new or
stat-changed files) when flagged, the counter says so, or the index is empty;
otherwise an incremental pass over the pending deleted/modified signals. -/
def syncIndex (termsOf : String → List (String × ℚ))
    (mtimeOf sizeOf : String → Nat) (lengthOf : String → ℚ)
    (vaultPaths : List String) (st : BM25State) : BM25State :=
  let shouldRunFullRescan :=
    st.fullRescanNeeded || decide (st.documents.length = 0) ||
      decide (FULL_RESCAN_EVERY_DIRTY_SYNCS ≤ st.dirtySyncCountSinceFullRescan)
  if shouldRunFullRescan then
    let st1 := (keysA st.documents).foldl
      (fun acc path =>
        if path ∈ vaultPaths then acc else removeIndexedDocument path acc) st
    let st2 := vaultPaths.foldl
      (fun acc path =>
        match lookupA path acc.documents with
        | none => upsertIndexedDocument termsOf mtimeOf sizeOf lengthOf path acc
        | some indexed =>
          if indexed.mtime ≠ mtimeOf path ∨ indexed.size ≠ sizeOf path then
            upsertIndexedDocument termsOf mtimeOf sizeOf lengthOf path acc
          else acc) st1
    { st2 with fullRescanNeeded := false, pendingModifiedPaths := [],
               pendingDeletedPaths := [], dirtySyncCountSinceFullRescan := 0,
               dirty := false }
  else
    let st1 := st.pendingDeletedPaths.foldl
      (fun acc p => removeIndexedDocument p acc) st
    let st2 := st.pendingModifiedPaths.foldl
      (fun acc p =>
        if p ∈ vaultPaths then upsertIndexedDocument termsOf mtimeOf sizeOf lengthOf p acc
        else removeIndexedDocument p acc) st1
    { st2 with pendingModifiedPaths := [], pendingDeletedPaths := [],
               dirtySyncCountSinceFullRescan := st.dirtySyncCountSinceFullRescan + 1,
               dirty := false }

/-- `markPathModified`. -/
def markPathModified (path : String) (st : BM25State) : BM25State :=
  if path = "" then st
  else
    { st with pendingDeletedPaths := setErase path st.pendingDeletedPaths,
              pendingModifiedPaths := setAdd path st.pendingModifiedPaths,
              dirty := true }

/-- `markPathDeleted`. -/
def markPathDeleted (path : String) (st : BM25State) : BM25State :=
  if path = "" then st
  else
    { st with pendingModifiedPaths := setErase path st.pendingModifiedPaths,
              pendingDeletedPaths := setAdd path st.pendingDeletedPaths,
              dirty := true }

/-- `markFullRescanNeeded` (also the body of `markDirty`). -/
def markFullRescanNeeded (st : BM25State) : BM25State :=
  { st with fullRescanNeeded := true, pendingModifiedPaths := [],
            pendingDeletedPaths := [], dirty := true }

/-- The index's external events: the modify/delete/rescan signals and a sync
against the vault's current markdown paths. -/
inductive BM25Event
  | modified (path : String)
  | deleted (path : String)
  | fullRescan
  | sync (vaultPaths : List String)

def applyEvent (termsOf : String → List (String × ℚ))
    (mtimeOf sizeOf : String → Nat) (lengthOf : String → ℚ) :
    BM25Event → BM25State → BM25State
  | .modified path, st => markPathModified path st
  | .deleted path, st => markPathDeleted path st
  | .fullRescan, st => markFullRescanNeeded st
  | .sync vaultPaths, st => syncIndex termsOf mtimeOf sizeOf lengthOf vaultPaths st

def applyEvents (termsOf : String → List (String × ℚ))
    (mtimeOf sizeOf : String → Nat) (lengthOf : String → ℚ)
    (events : List BM25Event) (st : BM25State) : BM25State :=
  events.foldl (fun acc ev => applyEvent termsOf mtimeOf sizeOf lengthOf ev acc) st

/-- A document's stored frequency for a term. -/
def docTermLookup (docs : List (String × IndexedDocument)) (p t : String) :
    Option ℚ :=
  (lookupA p docs).bind (fun d => lookupA t d.termFreq)

/-- A posting's stored frequency for a document. -/
def postingLookup (inv : List (String × List (String × ℚ))) (t p : String) :
    Option ℚ :=
  (lookupA t inv).bind (fun posting => lookupA p posting)

/-- Exact document/posting consistency: every term of every indexed document
has a posting entry with the same frequency and vice versa (no orphan
postings, no missing terms), and no posting is empty. -/
def IndexConsistent (st : BM25State) : Prop :=
  (∀ p t, docTermLookup st.documents p t = postingLookup st.invertedIndex t p) ∧
  (∀ tp ∈ st.invertedIndex, tp.2 ≠ [])

/-- Map well-formedness of the posting structure: duplicate-free token keys,
duplicate-free path keys inside every posting, and no empty posting. -/
def InvWF (inv : List (String × List (String × ℚ))) : Prop :=
  (keysA inv).Nodup ∧ (∀ tp ∈ inv, (keysA tp.2).Nodup) ∧ (∀ tp ∈ inv, tp.2 ≠ [])

/-- Map well-formedness of the index state: duplicate-free keys everywhere. -/
def BM25WF (st : BM25State) : Prop :=
  (keysA st.documents).Nodup ∧ InvWF st.invertedIndex ∧
  (∀ pd ∈ st.documents, (keysA pd.2.termFreq).Nodup)

/-! ### Posting-structure lemmas -/

theorem keysA_nodup_eraseA {κ α : Type} [DecidableEq κ] (k : κ)
    {m : List (κ × α)} (hm : (keysA m).Nodup) : (keysA (eraseA k m)).Nodup := by
  rw [eraseA_eq_filter]
  exact hm.sublist ((List.filter_sublist m).map Prod.fst)

theorem insertA_ne_nil {κ α : Type} [DecidableEq κ] (k : κ) (v : α) :
    ∀ m : List (κ × α), insertA k v m ≠ []
  | [] => by simp [insertA]
  | (k', v') :: tl => by
    by_cases h : k' = k <;> simp [insertA, h]

theorem lookupA_eq_none_of_all_keys {κ α : Type} [DecidableEq κ] {k0 k : κ}
    {m : List (κ × α)} (hall : ∀ kv ∈ m, kv.1 = k0) (hne : k ≠ k0) :
    lookupA k m = none := by
  induction m with
  | nil => rfl
  | cons hd tl ih =>
    obtain ⟨k', v'⟩ := hd
    have hk' : k' = k0 := hall (k', v') (by simp)
    rw [lookupA_cons, if_neg (by rw [hk']; intro hc; exact hne hc.symm)]
    exact ih (fun kv hkv => hall kv (List.mem_cons_of_mem _ hkv))

theorem all_keys_of_eraseA_eq_nil {κ α : Type} [DecidableEq κ] {k0 : κ}
    {m : List (κ × α)} (h : eraseA k0 m = []) : ∀ kv ∈ m, kv.1 = k0 := by
  rw [eraseA_eq_filter] at h
  intro kv hkv
  by_contra hne
  have hmem : kv ∈ m.filter (fun p => decide (p.1 ≠ k0)) :=
    List.mem_filter.mpr ⟨hkv, by simpa using hne⟩
  rw [h] at hmem
  simp at hmem

/-- Pointwise effect of `addDocumentTerms` on the posting structure: for the
added document, the term map's value wins; every other document's postings
are untouched. -/
theorem postingLookup_addDocumentTerms (path t p : String) :
    ∀ (tf : List (String × ℚ)) (inv : List (String × List (String × ℚ))),
      (keysA tf).Nodup →
      postingLookup (addDocumentTerms path tf inv) t p =
        if p = path then (lookupA t tf).or (postingLookup inv t path)
        else postingLookup inv t p
  | [], inv, _ => by
    by_cases hp : p = path <;> simp [addDocumentTerms, hp]
  | (tok, f) :: rest, inv, hnd => by
    simp only [keysA, List.map_cons, List.nodup_cons] at hnd
    obtain ⟨htok, hrest⟩ := hnd
    rw [addDocumentTerms]
    rw [postingLookup_addDocumentTerms path t p rest _ hrest]
    by_cases hp : p = path
    · by_cases ht : t = tok
      · subst ht
        have h1 : lookupA t rest = none :=
          lookupA_eq_none_of_not_mem_keysA (by simpa [keysA] using htok)
        have h2 : postingLookup
            (insertA t (insertA path f ((lookupA t inv).getD [])) inv) t path =
            some f := by
          simp [postingLookup]
        simp [hp, h1, h2, lookupA_cons]
      · have htok' : tok ≠ t := fun hc => ht hc.symm
        have h2 : postingLookup
            (insertA tok (insertA path f ((lookupA tok inv).getD [])) inv) t path =
            postingLookup inv t path := by
          simp [postingLookup, lookupA_insertA_ne _ _ htok']
        simp [hp, h2, lookupA_cons, htok']
    · by_cases ht : t = tok
      · subst ht
        have h2 : postingLookup
            (insertA t (insertA path f ((lookupA t inv).getD [])) inv) t p =
            postingLookup inv t p := by
          have hpne : path ≠ p := fun hc => hp hc.symm
          cases hl0 : lookupA t inv with
          | none =>
            simp [postingLookup, hl0, lookupA_insertA_ne _ _ hpne]
          | some q =>
            simp [postingLookup, hl0, lookupA_insertA_ne _ _ hpne]
        simp [hp, h2]
      · have htok' : tok ≠ t := fun hc => ht hc.symm
        have h2 : postingLookup
            (insertA tok (insertA path f ((lookupA tok inv).getD [])) inv) t p =
            postingLookup inv t p := by
          simp [postingLookup, lookupA_insertA_ne _ _ htok']
        simp [hp, h2]

/-- Pointwise effect of `removeDocumentTerms`: the removed document's
postings vanish for exactly the tokens of its term map; everything else is
untouched. -/
theorem postingLookup_removeDocumentTerms (path t p : String) :
    ∀ (tf : List (String × ℚ)) (inv : List (String × List (String × ℚ))),
      postingLookup (removeDocumentTerms path tf inv) t p =
        if t ∈ keysA tf ∧ p = path then none else postingLookup inv t p
  | [], inv => by simp [removeDocumentTerms, keysA]
  | (tok, f) :: rest, inv => by
    rw [removeDocumentTerms]
    rw [postingLookup_removeDocumentTerms path t p rest]
    by_cases hmem : t ∈ keysA rest ∧ p = path
    · simp only [if_pos hmem]
      rw [if_pos ⟨by exact List.mem_cons_of_mem _ hmem.1, hmem.2⟩]
    · rw [if_neg hmem]
      by_cases htp : t = tok ∧ p = path
      · obtain ⟨ht, hp⟩ := htp
        subst ht
        subst hp
        rw [if_pos ⟨by simp [keysA], rfl⟩]
        cases hl : lookupA t inv with
        | none => simp [postingLookup, hl]
        | some posting =>
          by_cases hlen : (eraseA p posting).length = 0
          · have hnil : eraseA p posting = [] := List.length_eq_zero.mp hlen
            simp [postingLookup, hl, hlen, hnil]
          · simp [postingLookup, hl, hlen]
      · have hcond : ¬ ((t = tok ∨ t ∈ keysA rest) ∧ p = path) := by
          intro hc
          rcases hc.1 with h | h
          · exact htp ⟨h, hc.2⟩
          · exact hmem ⟨h, hc.2⟩
        rw [if_neg (by simpa [keysA] using hcond)]
        by_cases ht : t = tok
        · subst ht
          have hp : p ≠ path := fun hc => htp ⟨rfl, hc⟩
          cases hl : lookupA t inv with
          | none => simp [postingLookup, hl]
          | some posting =>
            by_cases hlen : (eraseA path posting).length = 0
            · have hnil : eraseA path posting = [] := List.length_eq_zero.mp hlen
              have hall := all_keys_of_eraseA_eq_nil hnil
              have hnone : lookupA p posting = none :=
                lookupA_eq_none_of_all_keys hall hp
              simp [postingLookup, hl, hlen, hnone]
            · have hpne : path ≠ p := fun hc => hp hc.symm
              simp [postingLookup, hl, hlen, lookupA_eraseA_ne _ hpne]
        · have htok' : tok ≠ t := fun hc => ht hc.symm
          cases hl : lookupA tok inv with
          | none => simp [postingLookup, hl]
          | some posting =>
            by_cases hlen : (eraseA path posting).length = 0
            · simp [postingLookup, hl, hlen, lookupA_eraseA_ne _ htok']
            · simp [postingLookup, hl, hlen, lookupA_insertA_ne _ _ htok']

theorem mem_of_mem_eraseA {κ α : Type} [DecidableEq κ] {k : κ}
    {m : List (κ × α)} {pe : κ × α} (h : pe ∈ eraseA k m) : pe ∈ m := by
  rw [eraseA_eq_filter] at h
  exact List.mem_of_mem_filter h

theorem invWF_addDocumentTerms (path : String) :
    ∀ (tf : List (String × ℚ)) (inv : List (String × List (String × ℚ))),
      InvWF inv → InvWF (addDocumentTerms path tf inv)
  | [], inv, h => by simpa [addDocumentTerms] using h
  | (tok, f) :: rest, inv, h => by
    rw [addDocumentTerms]
    apply invWF_addDocumentTerms path rest
    obtain ⟨h1, h2, h3⟩ := h
    refine ⟨keysA_nodup_insertA _ _ h1, ?_, ?_⟩
    · intro tp htp
      rcases mem_insertA htp with rfl | htp'
      · show (keysA (insertA path f ((lookupA tok inv).getD []))).Nodup
        apply keysA_nodup_insertA
        cases hl : lookupA tok inv with
        | none => simp [keysA]
        | some q => exact h2 (tok, q) (lookupA_mem hl)
      · exact h2 tp htp'
    · intro tp htp
      rcases mem_insertA htp with rfl | htp'
      · exact insertA_ne_nil _ _ _
      · exact h3 tp htp'

theorem invWF_removeDocumentTerms (path : String) :
    ∀ (tf : List (String × ℚ)) (inv : List (String × List (String × ℚ))),
      InvWF inv → InvWF (removeDocumentTerms path tf inv)
  | [], inv, h => by simpa [removeDocumentTerms] using h
  | (tok, f) :: rest, inv, h => by
    rw [removeDocumentTerms]
    apply invWF_removeDocumentTerms path rest
    obtain ⟨h1, h2, h3⟩ := h
    cases hl : lookupA tok inv with
    | none =>
      exact ⟨h1, h2, h3⟩
    | some posting =>
      show InvWF (if (eraseA path posting).length = 0 then eraseA tok inv
        else insertA tok (eraseA path posting) inv)
      by_cases hlen : (eraseA path posting).length = 0
      · rw [if_pos hlen]
        exact ⟨keysA_nodup_eraseA _ h1,
          fun tp htp => h2 tp (mem_of_mem_eraseA htp),
          fun tp htp => h3 tp (mem_of_mem_eraseA htp)⟩
      · rw [if_neg hlen]
        refine ⟨keysA_nodup_insertA _ _ h1, ?_, ?_⟩
        · intro tp htp
          rcases mem_insertA htp with rfl | htp'
          · exact keysA_nodup_eraseA _ (h2 (tok, posting) (lookupA_mem hl))
          · exact h2 tp htp'
        · intro tp htp
          rcases mem_insertA htp with rfl | htp'
          · intro hc
            have hc' : eraseA path posting = [] := hc
            exact hlen (by rw [hc']; rfl)
          · exact h3 tp htp'

/-- Removing a document keeps the index well-formed and exactly
consistent. -/
theorem wf_consistent_removeIndexedDocument (path : String) (st : BM25State)
    (hwf : BM25WF st) (hc : IndexConsistent st) :
    BM25WF (removeIndexedDocument path st) ∧
      IndexConsistent (removeIndexedDocument path st) := by
  obtain ⟨hdk, hinv, hdtf⟩ := hwf
  obtain ⟨hpt, _⟩ := hc
  cases hl : lookupA path st.documents with
  | none =>
    have hR : removeIndexedDocument path st = st := by
      rw [removeIndexedDocument, hl]
    rw [hR]
    exact ⟨⟨hdk, hinv, hdtf⟩, hpt, (invWF_removeDocumentTerms path [] _ hinv).2.2⟩
  | some existing =>
    have hR : removeIndexedDocument path st =
        { st with
          invertedIndex :=
            removeDocumentTerms path existing.termFreq st.invertedIndex,
          documents := eraseA path st.documents } := by
      rw [removeIndexedDocument, hl]
    rw [hR]
    have hinv' := invWF_removeDocumentTerms path existing.termFreq _ hinv
    refine ⟨⟨keysA_nodup_eraseA _ hdk, hinv',
      fun pd hpd => hdtf pd (mem_of_mem_eraseA hpd)⟩, ?_, hinv'.2.2⟩
    intro p t
    show docTermLookup (eraseA path st.documents) p t =
      postingLookup (removeDocumentTerms path existing.termFreq st.invertedIndex) t p
    rw [postingLookup_removeDocumentTerms]
    by_cases hp : p = path
    · subst hp
      have hdl : docTermLookup (eraseA p st.documents) p t = none := by
        simp [docTermLookup]
      rw [hdl]
      by_cases ht : t ∈ keysA existing.termFreq
      · rw [if_pos ⟨ht, rfl⟩]
      · rw [if_neg (fun hcc => ht hcc.1)]
        rw [← hpt p t]
        simp [docTermLookup, hl, lookupA_eq_none_of_not_mem_keysA ht]
    · have hpne : path ≠ p := fun hcc => hp hcc.symm
      rw [if_neg (fun hcc => hp hcc.2)]
      rw [← hpt p t]
      simp [docTermLookup, lookupA_eraseA_ne _ hpne]

/-- Upserting a document keeps the index well-formed and exactly
consistent. -/
theorem wf_consistent_upsertIndexedDocument (termsOf : String → List (String × ℚ))
    (mtimeOf sizeOf : String → Nat) (lengthOf : String → ℚ)
    (path : String) (st : BM25State)
    (htf : ∀ q, (keysA (termsOf q)).Nodup)
    (hwf : BM25WF st) (hc : IndexConsistent st) :
    BM25WF (upsertIndexedDocument termsOf mtimeOf sizeOf lengthOf path st) ∧
      IndexConsistent (upsertIndexedDocument termsOf mtimeOf sizeOf lengthOf path st) := by
  obtain ⟨hdk, hinv, hdtf⟩ := hwf
  obtain ⟨hpt, _⟩ := hc
  cases hl : lookupA path st.documents with
  | none =>
    have hR : upsertIndexedDocument termsOf mtimeOf sizeOf lengthOf path st =
        { st with
          documents := insertA path
            { length := lengthOf path, mtime := mtimeOf path, size := sizeOf path,
              termFreq := termsOf path } st.documents,
          invertedIndex := addDocumentTerms path (termsOf path) st.invertedIndex } := by
      rw [upsertIndexedDocument, hl]
    rw [hR]
    have hinv' := invWF_addDocumentTerms path (termsOf path) _ hinv
    refine ⟨⟨keysA_nodup_insertA _ _ hdk, hinv', ?_⟩, ?_, hinv'.2.2⟩
    · intro pd hpd
      rcases mem_insertA hpd with rfl | hpd'
      · exact htf path
      · exact hdtf pd hpd'
    · intro p t
      show docTermLookup (insertA path
          { length := lengthOf path, mtime := mtimeOf path, size := sizeOf path,
            termFreq := termsOf path } st.documents) p t =
        postingLookup (addDocumentTerms path (termsOf path) st.invertedIndex) t p
      rw [postingLookup_addDocumentTerms path t p (termsOf path) _ (htf path)]
      by_cases hp : p = path
      · subst hp
        have hdl : docTermLookup (insertA p
            { length := lengthOf p, mtime := mtimeOf p, size := sizeOf p,
              termFreq := termsOf p } st.documents) p t = lookupA t (termsOf p) := by
          simp [docTermLookup]
        rw [hdl, if_pos rfl]
        cases hlt : lookupA t (termsOf p) with
        | some v => simp
        | none =>
          have hnone : postingLookup st.invertedIndex t p = none := by
            rw [← hpt p t]
            simp [docTermLookup, hl]
          simp [hnone]
      · have hpne : path ≠ p := fun hcc => hp hcc.symm
        rw [if_neg hp, ← hpt p t]
        simp [docTermLookup, lookupA_insertA_ne _ _ hpne]
  | some existing =>
    have hR : upsertIndexedDocument termsOf mtimeOf sizeOf lengthOf path st =
        { st with
          documents := insertA path
            { length := lengthOf path, mtime := mtimeOf path, size := sizeOf path,
              termFreq := termsOf path } st.documents,
          invertedIndex := addDocumentTerms path (termsOf path)
            (removeDocumentTerms path existing.termFreq st.invertedIndex) } := by
      rw [upsertIndexedDocument, hl]
    rw [hR]
    have hinv' := invWF_addDocumentTerms path (termsOf path) _
      (invWF_removeDocumentTerms path existing.termFreq _ hinv)
    refine ⟨⟨keysA_nodup_insertA _ _ hdk, hinv', ?_⟩, ?_, hinv'.2.2⟩
    · intro pd hpd
      rcases mem_insertA hpd with rfl | hpd'
      · exact htf path
      · exact hdtf pd hpd'
    · intro p t
      show docTermLookup (insertA path
          { length := lengthOf path, mtime := mtimeOf path, size := sizeOf path,
            termFreq := termsOf path } st.documents) p t =
        postingLookup (addDocumentTerms path (termsOf path)
          (removeDocumentTerms path existing.termFreq st.invertedIndex)) t p
      rw [postingLookup_addDocumentTerms path t p (termsOf path) _ (htf path)]
      by_cases hp : p = path
      · subst hp
        have hdl : docTermLookup (insertA p
            { length := lengthOf p, mtime := mtimeOf p, size := sizeOf p,
              termFreq := termsOf p } st.documents) p t = lookupA t (termsOf p) := by
          simp [docTermLookup]
        rw [hdl, if_pos rfl, postingLookup_removeDocumentTerms]
        cases hlt : lookupA t (termsOf p) with
        | some v => simp
        | none =>
          by_cases ht : t ∈ keysA existing.termFreq
          · rw [if_pos ⟨ht, rfl⟩]
            simp
          · rw [if_neg (fun hcc => ht hcc.1)]
            have hnone : postingLookup st.invertedIndex t p = none := by
              rw [← hpt p t]
              simp [docTermLookup, hl, lookupA_eq_none_of_not_mem_keysA ht]
            simp [hnone]
      · have hpne : path ≠ p := fun hcc => hp hcc.symm
        rw [if_neg hp, postingLookup_removeDocumentTerms,
          if_neg (fun hcc => hp hcc.2), ← hpt p t]
        simp [docTermLookup, lookupA_insertA_ne _ _ hpne]

theorem foldl_preserves {α β : Type} (P : β → Prop) (f : β → α → β) :
    ∀ (l : List α) (init : β), P init → (∀ acc x, P acc → P (f acc x)) →
      P (l.foldl f init)
  | [], init, h0, _ => h0
  | x :: rest, init, h0, hstep =>
    foldl_preserves P f rest (f init x) (hstep init x h0) hstep

/-- Every sync keeps the index well-formed and exactly consistent. -/
theorem wf_consistent_syncIndex (termsOf : String → List (String × ℚ))
    (mtimeOf sizeOf : String → Nat) (lengthOf : String → ℚ)
    (vaultPaths : List String) (st : BM25State)
    (htf : ∀ q, (keysA (termsOf q)).Nodup)
    (hwf : BM25WF st) (hc : IndexConsistent st) :
    BM25WF (syncIndex termsOf mtimeOf sizeOf lengthOf vaultPaths st) ∧
      IndexConsistent (syncIndex termsOf mtimeOf sizeOf lengthOf vaultPaths st) := by
  have hstep1 : ∀ (acc : BM25State) (x : String),
      (BM25WF acc ∧ IndexConsistent acc) →
      BM25WF (if x ∈ vaultPaths then acc else removeIndexedDocument x acc) ∧
        IndexConsistent (if x ∈ vaultPaths then acc else removeIndexedDocument x acc) := by
    intro acc x hacc
    by_cases hx : x ∈ vaultPaths
    · rw [if_pos hx]
      exact hacc
    · rw [if_neg hx]
      exact wf_consistent_removeIndexedDocument x acc hacc.1 hacc.2
  have hstep2 : ∀ (acc : BM25State) (x : String),
      (BM25WF acc ∧ IndexConsistent acc) →
      BM25WF (match lookupA x acc.documents with
        | none => upsertIndexedDocument termsOf mtimeOf sizeOf lengthOf x acc
        | some indexed =>
          if indexed.mtime ≠ mtimeOf x ∨ indexed.size ≠ sizeOf x then
            upsertIndexedDocument termsOf mtimeOf sizeOf lengthOf x acc
          else acc) ∧
      IndexConsistent (match lookupA x acc.documents with
        | none => upsertIndexedDocument termsOf mtimeOf sizeOf lengthOf x acc
        | some indexed =>
          if indexed.mtime ≠ mtimeOf x ∨ indexed.size ≠ sizeOf x then
            upsertIndexedDocument termsOf mtimeOf sizeOf lengthOf x acc
          else acc) := by
    intro acc x hacc
    cases lookupA x acc.documents with
    | none =>
      exact wf_consistent_upsertIndexedDocument termsOf mtimeOf sizeOf lengthOf x acc
        htf hacc.1 hacc.2
    | some indexed =>
      show BM25WF (if indexed.mtime ≠ mtimeOf x ∨ indexed.size ≠ sizeOf x then _ else acc) ∧
        IndexConsistent (if indexed.mtime ≠ mtimeOf x ∨ indexed.size ≠ sizeOf x then _ else acc)
      by_cases hmt : indexed.mtime ≠ mtimeOf x ∨ indexed.size ≠ sizeOf x
      · rw [if_pos hmt]
        exact wf_consistent_upsertIndexedDocument termsOf mtimeOf sizeOf lengthOf x acc
          htf hacc.1 hacc.2
      · rw [if_neg hmt]
        exact hacc
  have hstep3 : ∀ (acc : BM25State) (x : String),
      (BM25WF acc ∧ IndexConsistent acc) →
      BM25WF (removeIndexedDocument x acc) ∧
        IndexConsistent (removeIndexedDocument x acc) :=
    fun acc x hacc => wf_consistent_removeIndexedDocument x acc hacc.1 hacc.2
  have hstep4 : ∀ (acc : BM25State) (x : String),
      (BM25WF acc ∧ IndexConsistent acc) →
      BM25WF (if x ∈ vaultPaths then
          upsertIndexedDocument termsOf mtimeOf sizeOf lengthOf x acc
        else removeIndexedDocument x acc) ∧
      IndexConsistent (if x ∈ vaultPaths then
          upsertIndexedDocument termsOf mtimeOf sizeOf lengthOf x acc
        else removeIndexedDocument x acc) := by
    intro acc x hacc
    by_cases hx : x ∈ vaultPaths
    · rw [if_pos hx]
      exact wf_consistent_upsertIndexedDocument termsOf mtimeOf sizeOf lengthOf x acc
        htf hacc.1 hacc.2
    · rw [if_neg hx]
      exact wf_consistent_removeIndexedDocument x acc hacc.1 hacc.2
  rw [syncIndex]
  split
  · have h1 := foldl_preserves (fun s => BM25WF s ∧ IndexConsistent s)
      (fun acc path => if path ∈ vaultPaths then acc else removeIndexedDocument path acc)
      (keysA st.documents) st ⟨hwf, hc⟩ hstep1
    have h2 := foldl_preserves (fun s => BM25WF s ∧ IndexConsistent s)
      (fun acc path =>
        match lookupA path acc.documents with
        | none => upsertIndexedDocument termsOf mtimeOf sizeOf lengthOf path acc
        | some indexed =>
          if indexed.mtime ≠ mtimeOf path ∨ indexed.size ≠ sizeOf path then
            upsertIndexedDocument termsOf mtimeOf sizeOf lengthOf path acc
          else acc)
      vaultPaths _ h1 hstep2
    exact h2
  · have h1 := foldl_preserves (fun s => BM25WF s ∧ IndexConsistent s)
      (fun acc p => removeIndexedDocument p acc)
      st.pendingDeletedPaths st ⟨hwf, hc⟩ hstep3
    have h2 := foldl_preserves (fun s => BM25WF s ∧ IndexConsistent s)
      (fun acc p =>
        if p ∈ vaultPaths then
          upsertIndexedDocument termsOf mtimeOf sizeOf lengthOf p acc
        else removeIndexedDocument p acc)
      st.pendingModifiedPaths _ h1 hstep4
    exact h2

theorem initialBM25_wf : BM25WF initialBM25State :=
  ⟨List.nodup_nil,
    ⟨List.nodup_nil, fun tp htp => absurd htp (List.not_mem_nil _),
      fun tp htp => absurd htp (List.not_mem_nil _)⟩,
    fun pd hpd => absurd hpd (List.not_mem_nil _)⟩

theorem initialBM25_consistent : IndexConsistent initialBM25State :=
  ⟨fun _ _ => rfl, fun tp htp => absurd htp (List.not_mem_nil _)⟩

/-- Every event sequence keeps the index well-formed and exactly
consistent. -/
theorem wf_consistent_applyEvents (termsOf : String → List (String × ℚ))
    (mtimeOf sizeOf : String → Nat) (lengthOf : String → ℚ)
    (htf : ∀ q, (keysA (termsOf q)).Nodup) :
    ∀ (events : List BM25Event) (st : BM25State), BM25WF st → IndexConsistent st →
      BM25WF (applyEvents termsOf mtimeOf sizeOf lengthOf events st) ∧
        IndexConsistent (applyEvents termsOf mtimeOf sizeOf lengthOf events st) := by
  intro events st hwf hc
  rw [applyEvents]
  apply foldl_preserves (fun s => BM25WF s ∧ IndexConsistent s) _ events st ⟨hwf, hc⟩
  intro acc ev hacc
  cases ev with
  | modified path =>
    show BM25WF (markPathModified path acc) ∧ IndexConsistent (markPathModified path acc)
    rw [markPathModified]
    split
    · exact hacc
    · exact hacc
  | deleted path =>
    show BM25WF (markPathDeleted path acc) ∧ IndexConsistent (markPathDeleted path acc)
    rw [markPathDeleted]
    split
    · exact hacc
    · exact hacc
  | fullRescan => exact hacc
  | sync vaultPaths =>
    exact wf_consistent_syncIndex termsOf mtimeOf sizeOf lengthOf vaultPaths acc
      htf hacc.1 hacc.2

/-- C6: for every vault, every tokenization and every sequence of
modify/delete/rescan signals and syncs, the posting structure is exactly
consistent with the indexed documents — every term of every document has a
posting entry with the same frequency and every posting entry is a term of a
live document (pointwise equality of the two lookups), with no empty
postings: a sync from any well-formed consistent state preserves exact
consistency, and every event history from the initial state ends exactly
consistent. -/
theorem c6_index_posting_consistency :
    (∀ (termsOf : String → List (String × ℚ)) (mtimeOf sizeOf : String → Nat)
        (lengthOf : String → ℚ) (vaultPaths : List String) (st : BM25State),
      (∀ q, (keysA (termsOf q)).Nodup) → BM25WF st → IndexConsistent st →
      IndexConsistent (syncIndex termsOf mtimeOf sizeOf lengthOf vaultPaths st)) ∧
    (∀ (termsOf : String → List (String × ℚ)) (mtimeOf sizeOf : String → Nat)
        (lengthOf : String → ℚ) (events : List BM25Event),
      (∀ q, (keysA (termsOf q)).Nodup) →
      IndexConsistent (applyEvents termsOf mtimeOf sizeOf lengthOf events
        initialBM25State)) := by
  constructor
  · intro termsOf mtimeOf sizeOf lengthOf vaultPaths st htf hwf hc
    exact (wf_consistent_syncIndex termsOf mtimeOf sizeOf lengthOf vaultPaths st
      htf hwf hc).2
  · intro termsOf mtimeOf sizeOf lengthOf events htf
    exact (wf_consistent_applyEvents termsOf mtimeOf sizeOf lengthOf htf events
      initialBM25State initialBM25_wf initialBM25_consistent).2

/-- A concrete tokenizer oracle for the C6 witness. -/
def c6TermsOf : String → List (String × ℚ) :=
  fun p => if p = "a.md" then [("heap", (2 : ℚ)), ("sort", 1)] else [("note", 1)]

theorem c6_witness :
    IndexConsistent (syncIndex c6TermsOf (fun _ => 1) (fun _ => 1) (fun _ => 3)
      ["a.md"] initialBM25State) ∧
    IndexConsistent (applyEvents c6TermsOf (fun _ => 1) (fun _ => 1) (fun _ => 3)
      [.modified "a.md", .sync ["a.md", "b.md"], .deleted "b.md", .sync ["a.md"]]
      initialBM25State) := by
  have htf : ∀ q, (keysA (c6TermsOf q)).Nodup := by
    intro q
    by_cases hq : q = "a.md" <;> simp [c6TermsOf, hq, keysA]
  exact ⟨c6_index_posting_consistency.1 c6TermsOf (fun _ => 1) (fun _ => 1)
      (fun _ => 3) ["a.md"] initialBM25State htf initialBM25_wf initialBM25_consistent,
    c6_index_posting_consistency.2 c6TermsOf (fun _ => 1) (fun _ => 1) (fun _ => 3)
      [.modified "a.md", .sync ["a.md", "b.md"], .deleted "b.md", .sync ["a.md"]] htf⟩

end VaultAssist
